import Mathlib

/-!
# Json-Tree-Visualizer: graph construction, layout and path search

A shallow embedding of `src/utils/jsonToNodes.js` (`joinPath`, `traverse`,
`computeLayout`, `buildFlowFromJson`) and of the query resolution of
`src/components/SearchBar.jsx` (`handleSearch`), followed by theorems about them.

JavaScript strings are modelled as lists of characters (`Str`).  A parsed JSON
document is a `Json`: objects are the list of their entries in iteration order,
arrays the list of their elements.  Recursion over the node graph (which the
source performs on the JavaScript call stack) takes a fuel argument and returns
`none` when the fuel runs out; a thrown `TypeError` is `none` as well.  The mutable
state of the layout (node positions, `yCursor`, the memo tables) is passed explicitly.
The layout is also stated without its memo tables (the `Plain` functions) and shown to
return the same.
-/

namespace JsonTree

/-- JavaScript string, as the list of its characters. -/
abbrev Str := List Char

/-! ## JSON values -/

/-- Primitive JSON value.  A finite number is carried as its JavaScript rendering
(the text both `String(v)` and `JSON.stringify(v)` produce for it); `infinity` is the
number `JSON.parse` yields for a literal beyond the double range, such as `1e999`
(`Infinity`) or `-1e999` (`-Infinity`), for which the two renderings differ. -/
inductive Prim where
  | null
  | bool (b : Bool)
  | num (text : Str)
  | infinity (negative : Bool)
  | str (s : Str)
  deriving DecidableEq, Repr

/-- Parsed JSON value.  `obj` lists the entries in the order of `Object.entries`,
`arr` the elements in index order. -/
inductive Json where
  | prim (p : Prim)
  | obj (entries : List (Str × Json))
  | arr (items : List Json)

instance : Inhabited Json := ⟨.prim .null⟩

/-- The key argument of `traverse`: `null` for the root, a number for an array
element, a string for an object entry. -/
inductive Key where
  | none
  | idx (i : Nat)
  | name (k : Str)
  deriving DecidableEq, Repr

/-- The three values of `toType`. -/
inductive Kind where
  | object
  | array
  | primitive
  deriving DecidableEq, Repr

/-! ## String helpers of the JavaScript runtime -/

/-- Decimal rendering of a non-negative integer (`String(idx)`, template interpolation of an index). -/
def decimal (n : Nat) : Str := Nat.toDigits 10 n

/-- Template rendering of a key that is not `null`. -/
def Key.text : Key → Str
  | .none => "null".toList
  | .idx i => decimal i
  | .name k => k

/-- JavaScript truthiness of a key: `null`, `0` and the empty string are falsy. -/
def Key.truthy : Key → Bool
  | .none => false
  | .idx i => i != 0
  | .name k => !k.isEmpty

/-- Rendering of `String(value)` for a primitive. -/
def Prim.toStr : Prim → Str
  | .null => "null".toList
  | .bool true => "true".toList
  | .bool false => "false".toList
  | .num text => text
  | .infinity false => "Infinity".toList
  | .infinity true => "-Infinity".toList
  | .str s => s

/-- Rendering of `typeof value` for a primitive. -/
def Prim.typeOf : Prim → Str
  | .null => "object".toList
  | .bool _ => "boolean".toList
  | .num _ => "number".toList
  | .infinity _ => "number".toList
  | .str _ => "string".toList

/-- Lower-case hexadecimal digit. -/
def hexDigit (n : Nat) : Char :=
  if n < 10 then Char.ofNat (48 + n) else Char.ofNat (87 + n)

/-- One character of a string inside `JSON.stringify`. -/
def quoteChar (c : Char) : Str :=
  if c = '"' then ['\\', '"']
  else if c = '\\' then ['\\', '\\']
  else if c.toNat = 8 then ['\\', 'b']
  else if c.toNat = 9 then ['\\', 't']
  else if c.toNat = 10 then ['\\', 'n']
  else if c.toNat = 12 then ['\\', 'f']
  else if c.toNat = 13 then ['\\', 'r']
  else if c.toNat < 32 then ['\\', 'u', '0', '0', hexDigit (c.toNat / 16), hexDigit (c.toNat % 16)]
  else [c]

/-- Rendering of `JSON.stringify(value)` for a primitive. -/
def Prim.stringify : Prim → Str
  | .null => "null".toList
  | .bool true => "true".toList
  | .bool false => "false".toList
  | .num text => text
  | .infinity _ => "null".toList
  | .str s => '"' :: (s.flatMap quoteChar ++ ['"'])

/-- Whether a string starts with `[` (`segment.startsWith('[')`). -/
def startsWithBracket : Str → Bool
  | c :: _ => c == '['
  | [] => false

/-! ## Node and edge records -/

/-- Node record.  The constant fields `type` and `style` are left out; the fields
`name`, `meta` and `valueText` are absent on a synthesized root. -/
structure Node where
  id : Str
  x : Int
  y : Int
  label : Str
  path : Str
  tooltip : Str
  kind : Kind
  name : Option Str
  meta : Option Str
  valueText : Option Str
  className : Option Str
  deriving DecidableEq, Repr

/-- Edge record.  The constant styling fields are left out. -/
structure Edge where
  id : Str
  source : Str
  target : Str
  label : Str
  deriving DecidableEq, Repr

/-- The accumulator of `traverse`. -/
structure Accum where
  nodes : List Node
  edges : List Edge
  deriving DecidableEq, Repr

/-! ## jsonToNodes.js -/

def NODE_WIDTH : Int := 240
def NODE_HEIGHT : Int := 60
def H_GAP : Int := 280
def V_GAP : Int := 40

def toLabel (key : Key) (value : Json) : Str :=
  match value with
  | .obj _ => if key.truthy then key.text ++ " {}".toList else "{}".toList
  | .arr _ => if key.truthy then key.text ++ " []".toList else "[]".toList
  | .prim p =>
    match key with
    | .none => p.toStr
    | _ => key.text ++ ": ".toList ++ p.stringify

def toType : Json → Kind
  | .obj _ => .object
  | .arr _ => .array
  | .prim _ => .primitive

/-- The string a kind stands for in the source. -/
def Kind.text : Kind → Str
  | .object => "object".toList
  | .array => "array".toList
  | .primitive => "primitive".toList

def childKeyToPathSegment : Key → Str
  | .idx i => '[' :: (decimal i ++ [']'])
  | .name k => k
  | .none => []

def joinPath (parentPath segment : Str) : Str :=
  if parentPath = ['$'] ∧ startsWithBracket segment then '$' :: segment
  else if parentPath = ['$'] then '$' :: '.' :: segment
  else if startsWithBracket segment then parentPath ++ segment
  else parentPath ++ '.' :: segment

/-- The `path` computed at the head of `traverse`. -/
def pathOf (parentPath : Str) (key : Key) : Str :=
  match key with
  | .none => parentPath
  | _ => joinPath parentPath (childKeyToPathSegment key)

/-- The `name` computed at the head of `traverse`. -/
def nameOf : Key → Str
  | .none => ['$']
  | .idx i => '[' :: (decimal i ++ [']'])
  | .name k => k

/-- The `meta` computed at the head of `traverse`. -/
def metaOf : Json → Str
  | .obj entries => decimal entries.length ++ " keys".toList
  | .arr items => decimal items.length ++ " items".toList
  | .prim p => p.typeOf

/-- The `valueText` computed at the head of `traverse`. -/
def valueTextOf : Json → Str
  | .prim p => p.stringify
  | _ => []

/-- The `tooltip` computed at the head of `traverse`. -/
def tooltipOf : Json → Str
  | .prim p => p.toStr
  | v => (toType v).text

/-- The node record `traverse` pushes for a value. -/
def mkNode (value : Json) (parentPath : Str) (key : Key) : Node :=
  { id := pathOf parentPath key
    x := 0
    y := 0
    label := toLabel key value
    path := pathOf parentPath key
    tooltip := tooltipOf value
    kind := toType value
    name := some (nameOf key)
    meta := some (metaOf value)
    valueText := some (valueTextOf value)
    className := none }

/-- The edge record `traverse` pushes from `path` to `childPath`. -/
def mkEdge (path childPath label : Str) : Edge :=
  { id := path ++ "->".toList ++ childPath
    source := path
    target := childPath
    label := label }

mutual
/-- Build nodes/edges for a JSON subtree. -/
def traverse : Json → Str → Key → Accum → Accum
  | .prim p, parentPath, key, accum =>
    { accum with nodes := accum.nodes ++ [mkNode (.prim p) parentPath key] }
  | .obj entries, parentPath, key, accum =>
    traverseEntries entries (pathOf parentPath key)
      { accum with nodes := accum.nodes ++ [mkNode (.obj entries) parentPath key] }
  | .arr items, parentPath, key, accum =>
    traverseItems items (pathOf parentPath key) 0
      { accum with nodes := accum.nodes ++ [mkNode (.arr items) parentPath key] }
/-- The `Object.entries(value).forEach` loop of `traverse`, at the node `path`. -/
def traverseEntries : List (Str × Json) → Str → Accum → Accum
  | [], _, accum => accum
  | (k, v) :: rest, path, accum =>
    traverseEntries rest path
      (traverse v path (.name k)
        { accum with edges := accum.edges ++ [mkEdge path (joinPath path k) k] })
/-- The `value.forEach` loop of `traverse`, at the node `path`, from index `idx` on. -/
def traverseItems : List Json → Str → Nat → Accum → Accum
  | [], _, _, accum => accum
  | v :: rest, path, idx, accum =>
    traverseItems rest path (idx + 1)
      (traverse v path (.idx idx)
        { accum with edges := accum.edges ++
            [mkEdge path (joinPath path ('[' :: (decimal idx ++ [']']))) (decimal idx)] })
end

/-- A JavaScript `Map` with string keys: its entries, in insertion order. -/
abbrev JsMap (α : Type) := List (Str × α)

/-- The entry `map.get(k)`, if any. -/
def mapGet {α : Type} : JsMap α → Str → Option α
  | [], _ => none
  | (k', v) :: rest, k => if k' = k then some v else mapGet rest k

/-- The map after `map.set(k, v)`: an existing key keeps its place. -/
def mapSet {α : Type} : JsMap α → Str → α → JsMap α
  | [], k, v => [(k, v)]
  | (k', v') :: rest, k, v => if k' = k then (k, v) :: rest else (k', v') :: mapSet rest k v

/-- The `childrenMap` of `computeLayout`: every node id is first mapped to the empty
array, then every edge pushes its target onto the array of its source.  The push
throws (here `none`) when the source of an edge is no node id. -/
def childrenMap (nodes : List Node) (edges : List Edge) : Option (JsMap (List Str)) :=
  edges.foldl
    (fun acc e => acc.bind fun m =>
      (mapGet m e.source).map fun arr => mapSet m e.source (arr ++ [e.target]))
    (some (nodes.foldl (fun m n => mapSet m n.id []) []))

def findParent (edges : List Edge) (nodeId : Str) : Option Str :=
  (edges.find? (fun e => e.target = nodeId)).map (fun e => e.source)

/-- The inner function `depthOf` of `computeLayout`, with the table `depthMap` passed in
and handed back. -/
def depthOf (edges : List Edge) : Nat → Str → JsMap Nat → Option (Nat × JsMap Nat)
  | 0, _, _ => none
  | fuel + 1, nodeId, depthMap =>
    if nodeId = ['$'] then some (0, depthMap)
    else
      match mapGet depthMap nodeId with
      | some d => some (d, depthMap)
      | none =>
        match findParent edges nodeId with
        | some parent =>
          if parent ≠ [] then
            match depthOf edges fuel parent depthMap with
            | none => none
            | some (dp, depthMap1) => some (dp + 1, mapSet depthMap1 nodeId (dp + 1))
          else some (0, mapSet depthMap nodeId 0)
        | none => some (0, mapSet depthMap nodeId 0)

/-- The call `children.map(subtreeSize)`: the sizes of the children, computed one after
the other on the memo table. -/
def mapSizes (sizeFn : Str → JsMap Nat → Option (Nat × JsMap Nat)) :
    List Str → JsMap Nat → Option (List Nat × JsMap Nat)
  | [], memo => some ([], memo)
  | child :: rest, memo =>
    match sizeFn child memo with
    | none => none
    | some (s, memo1) =>
      match mapSizes sizeFn rest memo1 with
      | none => none
      | some (sizes, memo2) => some (s :: sizes, memo2)

/-- The inner function `subtreeSize` of `computeLayout`, with the table `subtreeMemo`
passed in and handed back. -/
def subtreeSize (cm : JsMap (List Str)) : Nat → Str → JsMap Nat → Option (Nat × JsMap Nat)
  | 0, _, _ => none
  | fuel + 1, nodeId, subtreeMemo =>
    match mapGet subtreeMemo nodeId with
    | some s => some (s, subtreeMemo)
    | none =>
      let children := (mapGet cm nodeId).getD []
      if children.length = 0 then some (1, mapSet subtreeMemo nodeId 1)
      else
        match mapSizes (subtreeSize cm fuel) children subtreeMemo with
        | none => none
        | some (sizes, memo1) =>
          some (sizes.foldl (· + ·) 0, mapSet memo1 nodeId (sizes.foldl (· + ·) 0))

/-- The assignment to `node.position` in `place`, on the first node with the id; the
source throws (here `none`) when there is no such node. -/
def setPosition : List Node → Str → Int → Int → Option (List Node)
  | [], _, _, _ => none
  | n :: rest, nodeId, x, y =>
    if n.id = nodeId then some ({ n with x := x, y := y } :: rest)
    else (setPosition rest nodeId x y).map (n :: ·)

/-- The mutable state of `computeLayout` during the placement pass: the node records,
`yCursor` and the two memo tables. -/
structure LayoutState where
  nodes : List Node
  yCursor : Int
  depthMap : JsMap Nat
  subtreeMemo : JsMap Nat
  deriving DecidableEq, Repr

/-- The `for (const child of children)` loop of `place`; `placeFn` is the recursive
call, `sizeFn` is `subtreeSize`, `start` the local variable of that name. -/
def placeLoop (placeFn : Str → LayoutState → Option LayoutState)
    (sizeFn : Str → JsMap Nat → Option (Nat × JsMap Nat)) :
    List Str → Int → LayoutState → Option LayoutState
  | [], _, st => some st
  | child :: rest, start, st =>
    match placeFn child { st with yCursor := start } with
    | none => none
    | some st1 =>
      match sizeFn child st1.subtreeMemo with
      | none => none
      | some (csize, memo) =>
        placeLoop placeFn sizeFn rest (start + csize * (NODE_HEIGHT + V_GAP))
          { st1 with yCursor := start + csize * (NODE_HEIGHT + V_GAP), subtreeMemo := memo }

/-- The inner function `place` of `computeLayout`.  `gas` is the fuel handed to
`depthOf` and `subtreeSize`.  The divisions are exact: `size * 100 - 40` and `60` are even. -/
def place (edges : List Edge) (cm : JsMap (List Str)) (gas : Nat) :
    Nat → Str → LayoutState → Option LayoutState
  | 0, _, _ => none
  | fuel + 1, nodeId, st =>
    match depthOf edges gas nodeId st.depthMap with
    | none => none
    | some (depth, depthMap) =>
      match subtreeSize cm gas nodeId st.subtreeMemo with
      | none => none
      | some (size, memo) =>
        match setPosition st.nodes nodeId (depth * H_GAP)
            (st.yCursor + (size * (NODE_HEIGHT + V_GAP) - V_GAP) / 2 - NODE_HEIGHT / 2) with
        | none => none
        | some nodes =>
          placeLoop (place edges cm gas fuel) (subtreeSize cm gas)
            ((mapGet cm nodeId).getD []) st.yCursor
            { nodes := nodes, yCursor := st.yCursor, depthMap := depthMap, subtreeMemo := memo }

/-- Compute x/y positions for nodes using depth and subtree sizes.  The closing loop
over the nodes copies `style`, a field left out here. -/
def computeLayout (fuel : Nat) (nodes : List Node) (edges : List Edge) : Option (List Node) :=
  match childrenMap nodes edges with
  | none => none
  | some cm =>
    (place edges cm fuel fuel ['$']
      { nodes := nodes, yCursor := 0, depthMap := [], subtreeMemo := [] }).map (·.nodes)

/-- The assignment `root.data.label = '$'` on the first node with id `$`. -/
def setRootLabel : List Node → List Node
  | [] => []
  | n :: rest => if n.id = ['$'] then { n with label := ['$'] } :: rest else n :: setRootLabel rest

/-- The root record synthesized by the defensive branch of `buildFlowFromJson`. -/
def syntheticRoot (json : Json) : Node :=
  { id := ['$'], x := 0, y := 0, label := ['$'], path := ['$'], tooltip := [],
    kind := toType json, name := none, meta := none, valueText := none, className := none }

/-- The class name `buildFlowFromJson` gives a node of a kind. -/
def classNameOf : Kind → Str
  | .object => "node-object".toList
  | .array => "node-array".toList
  | .primitive => "node-primitive".toList

/-- The result of `buildFlowFromJson`. -/
structure Flow where
  nodes : List Node
  edges : List Edge
  deriving DecidableEq, Repr

/-- The node list of `buildFlowFromJson` right before `computeLayout` runs. -/
def rootedNodes (json : Json) : List Node :=
  let nodes := (traverse json ['$'] .none { nodes := [], edges := [] }).nodes
  match nodes.find? (fun n => n.id = ['$']) with
  | none => syntheticRoot json :: nodes
  | some _ => setRootLabel nodes

/-- Public API: build flow model for a given JSON value. -/
def buildFlowFromJson (fuel : Nat) (json : Json) : Option Flow :=
  let edges := (traverse json ['$'] .none { nodes := [], edges := [] }).edges
  match computeLayout fuel (rootedNodes json) edges with
  | none => none
  | some nodes =>
    some { nodes := nodes.map fun n => { n with className := some (classNameOf n.kind) },
           edges := edges }

/-! ## SearchBar.jsx -/

/-- The characters `String.prototype.trim` removes: WhiteSpace and LineTerminator. -/
def isWhiteSpace (c : Char) : Bool :=
  let n := c.toNat
  n = 0x09 || n = 0x0A || n = 0x0B || n = 0x0C || n = 0x0D || n = 0x20 || n = 0xA0 ||
  n = 0x1680 || (0x2000 ≤ n && n ≤ 0x200A) || n = 0x2028 || n = 0x2029 || n = 0x202F ||
  n = 0x205F || n = 0x3000 || n = 0xFEFF

/-- The method `trim`. -/
def trim (s : Str) : Str :=
  ((s.dropWhile isWhiteSpace).reverse.dropWhile isWhiteSpace).reverse

/-- The replacement `.replace(/\.+/g, '.')`: every maximal run of dots becomes one dot
(a dot that another dot follows is dropped). -/
def collapseDots : Str → Str
  | [] => []
  | c :: rest =>
    if c = '.' ∧ rest.head? = some '.' then collapseDots rest else c :: collapseDots rest

/-- The replacement `.replace(/\.$/, '')`: one dot at the very end is removed. -/
def stripTrailingDot (s : Str) : Str :=
  if s.getLast? = some '.' then s.dropLast else s

/-- The class `\d` of a regular expression without the unicode flag: `0` to `9`. -/
def isDigit (c : Char) : Bool := 48 ≤ c.toNat && c.toNat ≤ 57

/-- The replacement `.replace(/\.(\d+)/g, '[$1]')`, scanning from the left: a dot that a
digit follows opens a bracket, which closes after the last digit of the run.
`inDigits` tells that the scan is inside such a run. -/
def bracketDigitsFrom : Bool → Str → Str
  | inDigits, [] => if inDigits then [']'] else []
  | inDigits, c :: rest =>
    if inDigits ∧ isDigit c then c :: bracketDigitsFrom true rest
    else
      (if inDigits then [']'] else []) ++
        (if c = '.' ∧ (rest.head?.map isDigit) = some true then '[' :: bracketDigitsFrom true rest
         else c :: bracketDigitsFrom false rest)

def bracketDigits (s : Str) : Str := bracketDigitsFrom false s

/-- The statement `if (!q.startsWith('$')) q = '$.' + q`. -/
def withRoot (q : Str) : Str := if q.head? = some '$' then q else '$' :: '.' :: q

/-- The normalization of `handleSearch` applied to the raw query: `trim`, the `$.`
prepended unless the query starts with `$`, then the three replacements. -/
def normalizeQuery (query : Str) : Str :=
  bracketDigits (stripTrailingDot (collapseDots (withRoot (trim query))))

/-- The method `includes`: `t` occurs in `s` as a substring. -/
def includes : Str → Str → Bool
  | [], t => t.isEmpty
  | c :: s, t => t.isPrefixOf (c :: s) || includes s t

/-- The ids of `new Set(ids)` in iteration order: each at its first occurrence. -/
def toSet : List Str → List Str
  | [] => []
  | a :: rest => a :: (toSet rest).filter (fun b => b ≠ a)

/-- JavaScript falsiness of `match`: `null` or the empty string. -/
def falsy : Option Str → Bool
  | none => true
  | some s => s.isEmpty

/-- The callback `handleSearch`: the value it hands to `onResult` for the ids of the
`nodes` prop and the text of the input box.  `toLowerCase` is the string method of
that name. -/
def handleSearch (toLowerCase : Str → Str) (nodeIds : List Str) (query : Str) : Option Str :=
  let nodeIdSet := toSet nodeIds
  if (trim query).isEmpty then none
  else
    let normalized := normalizeQuery query
    let match1 := if nodeIdSet.contains normalized then some normalized else none
    let match2 :=
      if falsy match1 then (nodeIdSet.filter fun nodeId => includes nodeId normalized).head?
      else match1
    let match3 :=
      if falsy match2 then (nodeIdSet.filter fun nodeId => includes normalized nodeId).head?
      else match2
    let match4 :=
      if falsy match3 then
        (nodeIdSet.filter fun nodeId =>
          includes (toLowerCase nodeId) (toLowerCase normalized)).head?
      else match3
    match4

/-! ## The layout without its memo tables

The tables `depthMap` and `subtreeMemo` only cache values; the functions below are the
layout without them, which the layout is shown to agree with. -/

/-- The function `depthOf` without its table `depthMap`. -/
def depthOfPlain (edges : List Edge) : Nat → Str → Option Nat
  | 0, _ => none
  | fuel + 1, nodeId =>
    if nodeId = ['$'] then some 0
    else
      match findParent edges nodeId with
      | some parent => if parent ≠ [] then (depthOfPlain edges fuel parent).map (· + 1) else some 0
      | none => some 0

/-- All the results of a list of calls, or `none` when one of them did not return. -/
def allSome {α : Type} : List (Option α) → Option (List α)
  | [] => some []
  | none :: _ => none
  | some a :: rest => (allSome rest).map (a :: ·)

/-- The function `subtreeSize` without its table `subtreeMemo`. -/
def subtreeSizePlain (cm : JsMap (List Str)) : Nat → Str → Option Nat
  | 0, _ => none
  | fuel + 1, nodeId =>
    let children := (mapGet cm nodeId).getD []
    if children.length = 0 then some 1
    else (allSome (children.map (subtreeSizePlain cm fuel))).map fun sizes => sizes.foldl (· + ·) 0

/-- The state of the placement pass without the memo tables. -/
structure PlainState where
  nodes : List Node
  yCursor : Int
  deriving DecidableEq, Repr

/-- The loop of `place` without the memo tables. -/
def placeLoopPlain (placeFn : Str → PlainState → Option PlainState) (sizeFn : Str → Option Nat) :
    List Str → Int → PlainState → Option PlainState
  | [], _, st => some st
  | child :: rest, start, st =>
    match placeFn child { st with yCursor := start } with
    | none => none
    | some st1 =>
      match sizeFn child with
      | none => none
      | some csize =>
        placeLoopPlain placeFn sizeFn rest (start + csize * (NODE_HEIGHT + V_GAP))
          { st1 with yCursor := start + csize * (NODE_HEIGHT + V_GAP) }

/-- The function `place` without the memo tables. -/
def placePlain (edges : List Edge) (cm : JsMap (List Str)) (gas : Nat) :
    Nat → Str → PlainState → Option PlainState
  | 0, _, _ => none
  | fuel + 1, nodeId, st =>
    match depthOfPlain edges gas nodeId, subtreeSizePlain cm gas nodeId with
    | some depth, some size =>
      match setPosition st.nodes nodeId (depth * H_GAP)
          (st.yCursor + (size * (NODE_HEIGHT + V_GAP) - V_GAP) / 2 - NODE_HEIGHT / 2) with
      | none => none
      | some nodes =>
        placeLoopPlain (placePlain edges cm gas fuel) (subtreeSizePlain cm gas)
          ((mapGet cm nodeId).getD []) st.yCursor { st with nodes := nodes }
    | _, _ => none

/-- The function `computeLayout` without the memo tables. -/
def computeLayoutPlain (fuel : Nat) (nodes : List Node) (edges : List Edge) : Option (List Node) :=
  match childrenMap nodes edges with
  | none => none
  | some cm => (placePlain edges cm fuel fuel ['$'] { nodes := nodes, yCursor := 0 }).map (·.nodes)

/-- The function `buildFlowFromJson` without the memo tables of the layout. -/
def buildFlowPlain (fuel : Nat) (json : Json) : Option Flow :=
  let edges := (traverse json ['$'] .none { nodes := [], edges := [] }).edges
  match computeLayoutPlain fuel (rootedNodes json) edges with
  | none => none
  | some nodes =>
    some { nodes := nodes.map fun n => { n with className := some (classNameOf n.kind) },
           edges := edges }

/-! ## Denotation of `traverse`

The records `traverse` appends for a value, as functions of the value alone. -/

/-- The children of a value with the key `traverse` reaches each of them under. -/
def children : Json → List (Key × Json)
  | .prim _ => []
  | .obj entries => entries.map fun kv => (Key.name kv.1, kv.2)
  | .arr items => (items.enumFrom 0).map fun iv => (Key.idx iv.1, iv.2)

mutual
/-- The node records appended by `traverse value parentPath key`. -/
def nodesOf : Json → Str → Key → List Node
  | .prim p, parentPath, key => [mkNode (.prim p) parentPath key]
  | .obj entries, parentPath, key =>
    mkNode (.obj entries) parentPath key :: nodesEntries entries (pathOf parentPath key)
  | .arr items, parentPath, key =>
    mkNode (.arr items) parentPath key :: nodesItems items (pathOf parentPath key) 0
/-- The node records appended by the loop over the entries of an object. -/
def nodesEntries : List (Str × Json) → Str → List Node
  | [], _ => []
  | (k, v) :: rest, path => nodesOf v path (.name k) ++ nodesEntries rest path
/-- The node records appended by the loop over the elements of an array. -/
def nodesItems : List Json → Str → Nat → List Node
  | [], _, _ => []
  | v :: rest, path, idx => nodesOf v path (.idx idx) ++ nodesItems rest path (idx + 1)
end

mutual
/-- The edge records appended by `traverse` for a value whose node has id `path`. -/
def edgesOf : Json → Str → List Edge
  | .prim _, _ => []
  | .obj entries, path => edgesEntries entries path
  | .arr items, path => edgesItems items path 0
/-- The edge records appended by the loop over the entries of an object. -/
def edgesEntries : List (Str × Json) → Str → List Edge
  | [], _ => []
  | (k, v) :: rest, path =>
    mkEdge path (pathOf path (.name k)) k :: edgesOf v (pathOf path (.name k)) ++
      edgesEntries rest path
/-- The edge records appended by the loop over the elements of an array. -/
def edgesItems : List Json → Str → Nat → List Edge
  | [], _, _ => []
  | v :: rest, path, idx =>
    mkEdge path (pathOf path (.idx idx)) (decimal idx) :: edgesOf v (pathOf path (.idx idx)) ++
      edgesItems rest path (idx + 1)
end

/-- The ids of the nodes of a value whose own node has id `path`, in emission order. -/
def idsOf (value : Json) (path : Str) : List Str :=
  (nodesOf value path .none).map (·.id)

/-- The text `joinPath` appends to the parent path for a segment. -/
def sepOf (segment : Str) : Str :=
  if startsWithBracket segment then segment else '.' :: segment

/-- The text `traverse` appends to the parent path for a key. -/
def segOf : Key → Str
  | .none => []
  | .idx i => '[' :: (decimal i ++ [']'])
  | .name k => sepOf k


mutual
/-- The number of JSON values in a document: the value itself, plus, recursively, every
entry value of an object and every element of an array. -/
def Json.size : Json → Nat
  | .prim _ => 1
  | .obj entries => 1 + sizeEntries entries
  | .arr items => 1 + sizeItems items
/-- The number of JSON values in the entries of an object. -/
def sizeEntries : List (Str × Json) → Nat
  | [] => 0
  | (_, v) :: rest => v.size + sizeEntries rest
/-- The number of JSON values in the elements of an array. -/
def sizeItems : List Json → Nat
  | [] => 0
  | v :: rest => v.size + sizeItems rest
end

/-- The records of the document right after `traverse`. -/
def build (json : Json) : Accum := traverse json ['$'] .none { nodes := [], edges := [] }

/-- A node record with its position reset: what the layout leaves untouched. -/
def Node.erasePos (n : Node) : Node := { n with x := 0, y := 0 }

/-- The targets of the edges leaving a node, in edge order. -/
def kids (edges : List Edge) (nodeId : Str) : List Str :=
  (edges.filter fun e => e.source = nodeId).map (·.target)

/-- A node list and edge list on which the layout is defined: every edge joins two
nodes and leads to a longer id, and no id is longer than `bound`. -/
structure Graph (nodes : List Node) (edges : List Edge) (bound : Nat) : Prop where
  source_mem : ∀ e ∈ edges, e.source ∈ nodes.map (·.id)
  target_mem : ∀ e ∈ edges, e.target ∈ nodes.map (·.id)
  source_lt : ∀ e ∈ edges, e.source.length < e.target.length
  length_le : ∀ q ∈ nodes.map (·.id), q.length ≤ bound

/-- The length of the longest node id of a document. -/
def idBound (json : Json) : Nat :=
  ((idsOf json ['$']).map List.length).foldr max 0

/-- An amount of fuel with which the layout of a document runs to its end. -/
def fuelFor (json : Json) : Nat := idBound json + 1

/-- The class assignment closing `buildFlowFromJson`. -/
def withClass (n : Node) : Node := { n with className := some (classNameOf n.kind) }

mutual
/-- The positions of the values of a document, each as the list of keys leading to it
from the root, in the order `traverse` visits them. -/
def positions : Json → List (List Key)
  | .prim _ => [[]]
  | .obj entries => [] :: positionsEntries entries
  | .arr items => [] :: positionsItems items 0
/-- The positions below the entries of an object. -/
def positionsEntries : List (Str × Json) → List (List Key)
  | [] => []
  | (k, v) :: rest => (positions v).map (Key.name k :: ·) ++ positionsEntries rest
/-- The positions below the elements of an array, the first of which has index `idx`. -/
def positionsItems : List Json → Nat → List (List Key)
  | [], _ => []
  | v :: rest, idx => (positions v).map (Key.idx idx :: ·) ++ positionsItems rest (idx + 1)
end

/-- The child id as the specification words it: `.key` appended for an object key,
`[index]` for an array index. -/
def claimedChildId (p : Str) : Key → Str
  | .none => p
  | .idx i => p ++ '[' :: (decimal i ++ [']'])
  | .name k => p ++ '.' :: k

/-- The child id as the source computes it: an object key that begins with `[` is
appended without the dot. -/
def amendedChildId (p : Str) : Key → Str
  | .none => p
  | .idx i => p ++ '[' :: (decimal i ++ [']'])
  | .name k => if startsWithBracket k then p ++ k else p ++ '.' :: k

/-- Query resolution as the specification words it: nothing for a blank query; else,
with `n` the normalized query, `n` itself if it is a node id; else the first id that
contains `n`; else the first id that `n` contains; else the first id whose lower-cased
form contains the lower-cased `n`; else nothing. -/
def resolveReference (toLowerCase : Str → Str) (nodeIds : List Str) (query : Str) :
    Option Str :=
  if trim query = [] then none
  else
    let n := normalizeQuery query
    if n ∈ nodeIds then some n
    else
      match nodeIds.find? (fun id => decide (n <:+: id)) with
      | some id => some id
      | none =>
        match nodeIds.find? (fun id => decide (id <:+: n)) with
        | some id => some id
        | none => nodeIds.find? (fun id => decide (toLowerCase n <:+: toLowerCase id))

mutual
/-- Every object key of a document, at any depth, satisfies `p`. -/
def Json.keysAll (p : Str → Bool) : Json → Bool
  | .prim _ => true
  | .obj entries => keysAllEntries p entries
  | .arr items => keysAllItems p items
/-- Every object key in the entries of an object satisfies `p`. -/
def keysAllEntries (p : Str → Bool) : List (Str × Json) → Bool
  | [] => true
  | (k, v) :: rest => p k && v.keysAll p && keysAllEntries p rest
/-- Every object key in the elements of an array satisfies `p`. -/
def keysAllItems (p : Str → Bool) : List Json → Bool
  | [] => true
  | v :: rest => v.keysAll p && keysAllItems p rest
end

mutual
/-- Every object of a document, at any depth, has pairwise distinct keys. -/
def Json.distinctKeys : Json → Bool
  | .prim _ => true
  | .obj entries => decide ((entries.map (·.1)).Nodup) && distinctKeysEntries entries
  | .arr items => distinctKeysItems items
/-- Every object in the entries of an object has pairwise distinct keys. -/
def distinctKeysEntries : List (Str × Json) → Bool
  | [] => true
  | (_, v) :: rest => v.distinctKeys && distinctKeysEntries rest
/-- Every object in the elements of an array has pairwise distinct keys. -/
def distinctKeysItems : List Json → Bool
  | [] => true
  | v :: rest => v.distinctKeys && distinctKeysItems rest
end

/-- A key as `traverse` meets it satisfies `p`: an object key does, an index always. -/
def Key.satisfies (p : Str → Bool) : Key → Bool
  | .name k => p k
  | _ => true

/-- No dot is followed by a dot or by a digit. -/
def clean : Str → Bool
  | [] => true
  | c :: rest =>
    !(c == '.' && (match rest.head? with
      | some d => d == '.' || isDigit d
      | none => false)) && clean rest

/-- The last character of a string, if any, is neither a dot nor white space. -/
def endsWell (s : Str) : Bool :=
  match s.getLast? with
  | some c => !(c == '.') && !isWhiteSpace c
  | none => true

/-- An object key whose path segment survives the normalization of `handleSearch`: the
key is not empty, does not end in a dot or white space, and the text appended for it
(`.key`, or the key itself when it begins with `[`) has no dot followed by a dot or a
digit. -/
def roundTripKey (k : Str) : Bool := !k.isEmpty && endsWell k && clean (sepOf k)

/-- An object key that contains neither `.` nor `[`. -/
def plainKey (k : Str) : Bool := k.all fun c => !(c == '.') && !(c == '[')

/-- A path that the normalization of `handleSearch` leaves alone: it starts with `$`,
has no dot followed by a dot or a digit, and ends neither in a dot nor in white space. -/
def canonical (p : Str) : Bool := p.head? == some '$' && clean p && endsWell p

/-- The number a string of decimal digits stands for. -/
def decimalValue : Str → Nat
  | [] => 0
  | c :: rest => (c.toNat - 48) * 10 ^ rest.length + decimalValue rest

/-- A text that is empty or starts with one of the separators `.` and `[`. -/
def sepStart (r : Str) : Bool :=
  match r.head? with
  | none => true
  | some c => c == '.' || c == '['

mutual
/-- The number of values of a document that have no children: primitives, empty objects
and empty arrays. -/
def Json.leaves : Json → Nat
  | .prim _ => 1
  | .obj [] => 1
  | .obj (kv :: rest) => leavesEntries (kv :: rest)
  | .arr [] => 1
  | .arr (v :: rest) => leavesItems (v :: rest)
/-- The number of childless values in the entries of an object. -/
def leavesEntries : List (Str × Json) → Nat
  | [] => 0
  | (_, v) :: rest => v.leaves + leavesEntries rest
/-- The number of childless values in the elements of an array. -/
def leavesItems : List Json → Nat
  | [] => 0
  | v :: rest => v.leaves + leavesItems rest
end

/-- A path leads from one node to another along the edges (in zero or more steps). -/
def Reaches (edges : List Edge) : Str → Str → Prop :=
  Relation.ReflTransGen fun p q => ∃ e ∈ edges, e.source = p ∧ e.target = q

/-- The subtree of a value sits in the edge list `edges`: its ids are distinct and the
edges of `edges` leaving its nodes are its own. -/
def Sits (edges : List Edge) (v : Json) (path : Str) : Prop :=
  (idsOf v path).Nodup ∧ ∀ q ∈ idsOf v path, kids edges q = kids (edgesOf v path) q

/-- A vertical band of the layout: the id of a node, the value of `yCursor` when the node
is placed, and the subtree size of the node. -/
structure Band where
  id : Str
  start : Int
  size : Nat
  deriving DecidableEq, Repr

mutual
/-- The bands of the nodes of a subtree placed with `yCursor = y`: the root takes the band
that starts at `y`, each child the band that starts where the band of the child before
it ends. -/
def bandsOf : Json → Str → Int → List Band
  | .prim p, path, y => [{ id := path, start := y, size := (Json.prim p).leaves }]
  | .obj entries, path, y =>
    { id := path, start := y, size := (Json.obj entries).leaves } :: bandsEntries entries path y
  | .arr items, path, y =>
    { id := path, start := y, size := (Json.arr items).leaves } :: bandsItems items path 0 y
/-- The bands of the subtrees of the entries of an object. -/
def bandsEntries : List (Str × Json) → Str → Int → List Band
  | [], _, _ => []
  | (k, v) :: rest, path, y =>
    bandsOf v (path ++ segOf (.name k)) y ++
      bandsEntries rest path (y + v.leaves * (NODE_HEIGHT + V_GAP))
/-- The bands of the subtrees of the elements of an array. -/
def bandsItems : List Json → Str → Nat → Int → List Band
  | [], _, _, _ => []
  | v :: rest, path, idx, y =>
    bandsOf v (path ++ segOf (.idx idx)) y ++
      bandsItems rest path (idx + 1) (y + v.leaves * (NODE_HEIGHT + V_GAP))
end

/-- The bands of the subtrees of a list of children placed one after the other. -/
def bandsKids (path : Str) : List (Key × Json) → Int → List Band
  | [], _ => []
  | kc :: rest, y =>
    bandsOf kc.2 (path ++ segOf kc.1) y ++
      bandsKids path rest (y + kc.2.leaves * (NODE_HEIGHT + V_GAP))

/-- The `y` of the first node with an id, if there is one. -/
def yOf (nodes : List Node) (q : Str) : Option Int :=
  (nodes.find? fun n => n.id = q).map (·.y)

/-- The statement about the bands of a subtree placed at `y`: each lies within the band
of the root and is not empty, and two of them are disjoint unless one of the two nodes
reaches the other along the edges `edges`. -/
def BandsOk (edges : List Edge) (bands : List Band) (y : Int) (total : Nat) : Prop :=
  (∀ b ∈ bands, y ≤ b.start ∧ b.start + b.size * 100 ≤ y + total * 100 ∧ 0 < b.size) ∧
  ∀ a ∈ bands, ∀ b ∈ bands, Reaches edges a.id b.id ∨ Reaches edges b.id a.id ∨
    a.start + a.size * 100 ≤ b.start ∨ b.start + b.size * 100 ≤ a.start

/-- What a function that places one subtree does: it gives the nodes of the subtree the
`y` of their bands and leaves the other nodes where they are. -/
def Places (placeFn : Str → PlainState → Option PlainState) (v : Json) (path : Str) : Prop :=
  ∀ st st', placeFn path st = some st' →
    (∀ b ∈ bandsOf v path st.yCursor, yOf st'.nodes b.id = some (b.start + 50 * b.size - 50)) ∧
    ∀ q, q ∉ idsOf v path → yOf st'.nodes q = yOf st.nodes q

/-- Every entry of a table `depthMap` is a value of `depthOf` without the table. -/
def DepthSound (edges : List Edge) (depthMap : JsMap Nat) : Prop :=
  ∀ q d, mapGet depthMap q = some d → ∃ g, depthOfPlain edges g q = some d

/-- Every entry of a table `subtreeMemo` is a value of `subtreeSize` without the table. -/
def SizeSound (cm : JsMap (List Str)) (subtreeMemo : JsMap Nat) : Prop :=
  ∀ q s, mapGet subtreeMemo q = some s → ∃ g, subtreeSizePlain cm g q = some s

/-- The state of the placement pass with memo tables added. -/
def PlainState.tabled (st : PlainState) (depthMap subtreeMemo : JsMap Nat) : LayoutState :=
  { nodes := st.nodes, yCursor := st.yCursor, depthMap := depthMap, subtreeMemo := subtreeMemo }

/-- No dot is followed by a dot. -/
def noDoubleDot : Str → Bool
  | [] => true
  | c :: rest => !(c == '.' && rest.head? == some '.') && noDoubleDot rest

/-- The text ends in a white-space character followed by one or more dots. -/
def endsInBlankDots : Str → Bool
  | [] => false
  | c :: rest =>
    (isWhiteSpace c && !rest.isEmpty && rest.all (· == '.')) || endsInBlankDots rest
/-! ## Induction over JSON values -/

theorem Json.induct {P : Json → Prop}
    (hprim : ∀ p, P (.prim p))
    (hobj : ∀ entries, (∀ kv ∈ entries, P kv.2) → P (.obj entries))
    (harr : ∀ items, (∀ v ∈ items, P v) → P (.arr items)) : ∀ j, P j := by
  intro j
  refine Json.rec (motive_1 := P) (motive_2 := fun es => ∀ kv ∈ es, P kv.2)
    (motive_3 := fun xs => ∀ v ∈ xs, P v) (motive_4 := fun kv => P kv.2)
    hprim hobj harr ?_ ?_ ?_ ?_ ?_ j
  · intro kv h; cases h
  · intro hd tl h1 h2 kv hkv
    rcases List.mem_cons.1 hkv with rfl | h
    · exact h1
    · exact h2 kv h
  · intro v h; cases h
  · intro hd tl h1 h2 v hv
    rcases List.mem_cons.1 hv with rfl | h
    · exact h1
    · exact h2 v h
  · intro _ _ h; exact h

/-- Induction over a value from its children. -/
theorem Json.induct_children {P : Json → Prop}
    (h : ∀ v, (∀ kc ∈ children v, P kc.2) → P v) : ∀ j, P j := by
  intro j
  induction j using Json.induct with
  | hprim p => exact h _ (by intro kc hkc; simp [children] at hkc)
  | hobj entries ih =>
    apply h
    intro kc hkc
    simp only [children, List.mem_map] at hkc
    obtain ⟨kv, hkv, rfl⟩ := hkc
    exact ih kv hkv
  | harr items ih =>
    apply h
    intro kc hkc
    simp only [children, List.mem_map] at hkc
    obtain ⟨iv, hiv, rfl⟩ := hkc
    have := List.mem_enumFrom hiv
    exact ih _ (by rw [this.2.2]; exact List.getElem_mem _)

/-! ## `traverse` appends its denotation -/

theorem pathOf_name (path k : Str) : pathOf path (.name k) = joinPath path k := rfl

theorem pathOf_idx (path : Str) (i : Nat) :
    pathOf path (.idx i) = joinPath path ('[' :: (decimal i ++ [']'])) := rfl

theorem traverseEntries_eq (entries : List (Str × Json))
    (ih : ∀ kv ∈ entries, ∀ parentPath key accum, traverse kv.2 parentPath key accum =
      { nodes := accum.nodes ++ nodesOf kv.2 parentPath key,
        edges := accum.edges ++ edgesOf kv.2 (pathOf parentPath key) }) :
    ∀ path accum, traverseEntries entries path accum =
      { nodes := accum.nodes ++ nodesEntries entries path,
        edges := accum.edges ++ edgesEntries entries path } := by
  induction entries with
  | nil => intro path accum; simp [traverseEntries, nodesEntries, edgesEntries]
  | cons kv rest ihr =>
    intro path accum
    obtain ⟨k, v⟩ := kv
    have h1 := ih (k, v) (List.mem_cons_self _ _)
    have h2 := ihr (fun kv hkv => ih kv (List.mem_cons_of_mem _ hkv))
    simp only [traverseEntries, nodesEntries, edgesEntries, h1, h2, pathOf_name]
    simp [List.append_assoc]

theorem traverseItems_eq (items : List Json)
    (ih : ∀ v ∈ items, ∀ parentPath key accum, traverse v parentPath key accum =
      { nodes := accum.nodes ++ nodesOf v parentPath key,
        edges := accum.edges ++ edgesOf v (pathOf parentPath key) }) :
    ∀ path idx accum, traverseItems items path idx accum =
      { nodes := accum.nodes ++ nodesItems items path idx,
        edges := accum.edges ++ edgesItems items path idx } := by
  induction items with
  | nil => intro path idx accum; simp [traverseItems, nodesItems, edgesItems]
  | cons v rest ihr =>
    intro path idx accum
    have h1 := ih v (List.mem_cons_self _ _)
    have h2 := ihr (fun w hw => ih w (List.mem_cons_of_mem _ hw))
    simp only [traverseItems, nodesItems, edgesItems, h1, h2, pathOf_idx]
    simp [List.append_assoc]

/-- The accumulator after `traverse` is the accumulator before it, followed by the
records of the value. -/
theorem traverse_eq (value : Json) : ∀ parentPath key accum,
    traverse value parentPath key accum =
      { nodes := accum.nodes ++ nodesOf value parentPath key,
        edges := accum.edges ++ edgesOf value (pathOf parentPath key) } := by
  induction value using Json.induct with
  | hprim p => intro parentPath key accum; simp [traverse, nodesOf, edgesOf]
  | hobj entries ih =>
    intro parentPath key accum
    simp [traverse, nodesOf, edgesOf, traverseEntries_eq entries ih, List.append_assoc]
  | harr items ih =>
    intro parentPath key accum
    simp [traverse, nodesOf, edgesOf, traverseItems_eq items ih, List.append_assoc]

/-! ## Shape of paths -/

theorem joinPath_eq (parentPath segment : Str) :
    joinPath parentPath segment = parentPath ++ sepOf segment := by
  unfold joinPath sepOf
  by_cases h1 : parentPath = ['$'] <;> by_cases h2 : startsWithBracket segment = true <;>
    simp [h1, h2]

theorem pathOf_eq (parentPath : Str) (key : Key) :
    pathOf parentPath key = parentPath ++ segOf key := by
  cases key with
  | none => simp [pathOf, segOf]
  | idx i => simp [pathOf, segOf, joinPath_eq, childKeyToPathSegment, sepOf, startsWithBracket]
  | name k => simp [pathOf, segOf, joinPath_eq, childKeyToPathSegment]

theorem sepOf_ne_nil (segment : Str) : sepOf segment ≠ [] := by
  unfold sepOf
  cases segment with
  | nil => simp [startsWithBracket]
  | cons c rest => by_cases h : (c == '[') = true <;> simp [startsWithBracket, h]

theorem segOf_length_pos {key : Key} (h : key ≠ .none) : 0 < (segOf key).length := by
  cases key with
  | none => exact absurd rfl h
  | idx i => simp [segOf]
  | name k => exact List.length_pos.2 (sepOf_ne_nil k)

theorem children_key_ne_none {v : Json} {kc : Key × Json} (h : kc ∈ children v) :
    kc.1 ≠ .none := by
  cases v with
  | prim p => simp [children] at h
  | obj entries =>
    simp only [children, List.mem_map] at h
    obtain ⟨kv, _, rfl⟩ := h
    simp
  | arr items =>
    simp only [children, List.mem_map] at h
    obtain ⟨iv, _, rfl⟩ := h
    simp

/-! ## The records of a value in terms of its children -/

theorem nodesEntries_eq (entries : List (Str × Json)) (path : Str) :
    nodesEntries entries path =
      (entries.map fun kv => (Key.name kv.1, kv.2)).flatMap
        (fun kc => nodesOf kc.2 path kc.1) := by
  induction entries with
  | nil => simp [nodesEntries]
  | cons kv rest ih => obtain ⟨k, v⟩ := kv; simp [nodesEntries, ih]

theorem nodesItems_eq (items : List Json) (path : Str) : ∀ idx,
    nodesItems items path idx =
      ((items.enumFrom idx).map fun iv => (Key.idx iv.1, iv.2)).flatMap
        (fun kc => nodesOf kc.2 path kc.1) := by
  induction items with
  | nil => intro idx; simp [nodesItems]
  | cons v rest ih => intro idx; simp [nodesItems, ih]

theorem nodesOf_eq (v : Json) (parentPath : Str) (key : Key) :
    nodesOf v parentPath key = mkNode v parentPath key ::
      (children v).flatMap (fun kc => nodesOf kc.2 (pathOf parentPath key) kc.1) := by
  cases v with
  | prim p => simp [nodesOf, children]
  | obj entries => simp only [nodesOf, children, nodesEntries_eq]
  | arr items => simp only [nodesOf, children, nodesItems_eq]

theorem edgesEntries_eq (entries : List (Str × Json)) (path : Str) :
    edgesEntries entries path =
      (entries.map fun kv => (Key.name kv.1, kv.2)).flatMap
        (fun kc => mkEdge path (pathOf path kc.1) kc.1.text ::
          edgesOf kc.2 (pathOf path kc.1)) := by
  induction entries with
  | nil => simp [edgesEntries]
  | cons kv rest ih => obtain ⟨k, v⟩ := kv; simp [edgesEntries, ih, Key.text]

theorem edgesItems_eq (items : List Json) (path : Str) : ∀ idx,
    edgesItems items path idx =
      ((items.enumFrom idx).map fun iv => (Key.idx iv.1, iv.2)).flatMap
        (fun kc => mkEdge path (pathOf path kc.1) kc.1.text ::
          edgesOf kc.2 (pathOf path kc.1)) := by
  induction items with
  | nil => intro idx; simp [edgesItems]
  | cons v rest ih => intro idx; simp [edgesItems, ih, Key.text]

theorem edgesOf_eq (v : Json) (path : Str) :
    edgesOf v path = (children v).flatMap
      (fun kc => mkEdge path (pathOf path kc.1) kc.1.text ::
        edgesOf kc.2 (pathOf path kc.1)) := by
  cases v with
  | prim p => simp [edgesOf, children]
  | obj entries => simp only [edgesOf, children, edgesEntries_eq]
  | arr items => simp only [edgesOf, children, edgesItems_eq]

theorem mkNode_id (v : Json) (parentPath : Str) (key : Key) :
    (mkNode v parentPath key).id = pathOf parentPath key := rfl

/-- The ids of the records of a value depend on the parent path and key only through
the path of the value. -/
theorem nodesOf_ids (v : Json) : ∀ parentPath key,
    (nodesOf v parentPath key).map (·.id) = idsOf v (pathOf parentPath key) := by
  induction v using Json.induct_children with
  | h v ih =>
    intro parentPath key
    unfold idsOf
    rw [nodesOf_eq v parentPath key, nodesOf_eq v (pathOf parentPath key) .none]
    simp only [List.map_cons, mkNode_id, List.map_flatMap]
    congr 1

theorem idsOf_eq (v : Json) (path : Str) :
    idsOf v path = path :: (children v).flatMap (fun kc => idsOf kc.2 (path ++ segOf kc.1)) := by
  unfold idsOf
  rw [nodesOf_eq]
  simp only [List.map_cons, mkNode_id, List.map_flatMap]
  congr 1
  apply List.flatMap_congr
  intro kc _
  rw [nodesOf_ids, pathOf_eq]
  rfl

/-! ## Ids, edges and counts of a subtree -/

/-- Every id of a subtree extends the path of its root. -/
theorem idsOf_prefix (v : Json) : ∀ path q, q ∈ idsOf v path → ∃ r, q = path ++ r := by
  induction v using Json.induct_children with
  | h v ih =>
    intro path q hq
    rw [idsOf_eq] at hq
    rcases List.mem_cons.1 hq with rfl | hq
    · exact ⟨[], by simp⟩
    · obtain ⟨kc, hkc, hq⟩ := List.mem_flatMap.1 hq
      obtain ⟨r, rfl⟩ := ih kc hkc _ _ hq
      exact ⟨segOf kc.1 ++ r, by simp⟩

/-- Every id of a subtree but the first is longer than the path of its root. -/
theorem idsOf_tail_length (v : Json) (path q : Str) (hq : q ∈ (idsOf v path).tail) :
    path.length < q.length := by
  rw [idsOf_eq] at hq
  simp only [List.tail_cons] at hq
  obtain ⟨kc, hkc, hq⟩ := List.mem_flatMap.1 hq
  obtain ⟨r, rfl⟩ := idsOf_prefix _ _ _ hq
  have := segOf_length_pos (children_key_ne_none hkc)
  simp only [List.length_append]
  omega

theorem idsOf_length_le (v : Json) (path q : Str) (hq : q ∈ idsOf v path) :
    path.length ≤ q.length := by
  obtain ⟨r, rfl⟩ := idsOf_prefix _ _ _ hq
  simp

theorem idsOf_cons_tail (v : Json) (path : Str) :
    path :: (idsOf v path).tail = idsOf v path := by
  rw [idsOf_eq]; simp

/-- The targets of the edges of a subtree are the ids of its nodes but the first, in
the same order. -/
theorem edgesOf_targets (v : Json) : ∀ path,
    (edgesOf v path).map (·.target) = (idsOf v path).tail := by
  induction v using Json.induct_children with
  | h v ih =>
    intro path
    rw [edgesOf_eq, idsOf_eq]
    simp only [List.map_flatMap, List.tail_cons, List.map_cons]
    apply List.flatMap_congr
    intro kc hkc
    rw [ih kc hkc, pathOf_eq]
    exact idsOf_cons_tail _ _

/-- Every edge of a subtree starts at a node of the subtree and leads to a longer id. -/
theorem edgesOf_source (v : Json) : ∀ path e, e ∈ edgesOf v path →
    e.source ∈ idsOf v path ∧ e.source.length < e.target.length := by
  induction v using Json.induct_children with
  | h v ih =>
    intro path e he
    rw [edgesOf_eq] at he
    obtain ⟨kc, hkc, he⟩ := List.mem_flatMap.1 he
    rw [idsOf_eq]
    rcases List.mem_cons.1 he with rfl | he
    · refine ⟨List.mem_cons_self _ _, ?_⟩
      have := segOf_length_pos (children_key_ne_none hkc)
      simp only [mkEdge, pathOf_eq, List.length_append]
      omega
    · obtain ⟨h1, h2⟩ := ih kc hkc _ e he
      refine ⟨List.mem_cons_of_mem _ (List.mem_flatMap.2 ⟨kc, hkc, ?_⟩), h2⟩
      rwa [pathOf_eq] at h1

theorem edgesOf_target_mem (v : Json) (path : Str) (e : Edge) (he : e ∈ edgesOf v path) :
    e.target ∈ idsOf v path := by
  have : e.target ∈ (edgesOf v path).map (·.target) := List.mem_map_of_mem _ he
  rw [edgesOf_targets] at this
  exact List.mem_of_mem_tail this

theorem sizeEntries_eq (entries : List (Str × Json)) :
    sizeEntries entries = (entries.map fun kv => kv.2.size).sum := by
  induction entries with
  | nil => simp [sizeEntries]
  | cons kv rest ih => obtain ⟨k, v⟩ := kv; simp [sizeEntries, ih]

theorem sizeItems_eq (items : List Json) :
    sizeItems items = (items.map fun v => v.size).sum := by
  induction items with
  | nil => simp [sizeItems]
  | cons v rest ih => simp [sizeItems, ih]

theorem enumFrom_map_snd {α : Type} (l : List α) : ∀ n, (l.enumFrom n).map (·.2) = l := by
  induction l with
  | nil => intro n; rfl
  | cons a rest ih => intro n; simp [List.enumFrom_cons, ih]

theorem children_values (v : Json) :
    (children v).map (·.2) = match v with
      | .prim _ => []
      | .obj entries => entries.map (·.2)
      | .arr items => items := by
  cases v with
  | prim p => simp [children]
  | obj entries => simp [children, Function.comp_def]
  | arr items =>
    simp only [children, List.map_map]
    exact enumFrom_map_snd items 0

theorem size_eq (v : Json) : v.size = 1 + ((children v).map fun kc => kc.2.size).sum := by
  have h := children_values v
  have h2 : ((children v).map fun kc => kc.2.size) = ((children v).map (·.2)).map Json.size := by
    simp [List.map_map, Function.comp_def]
  rw [h2, h]
  cases v with
  | prim p => simp [Json.size]
  | obj entries => simp [Json.size, sizeEntries_eq, List.map_map, Function.comp_def]
  | arr items => simp [Json.size, sizeItems_eq]

/-- One node record per JSON value. -/
theorem nodesOf_length (v : Json) : ∀ parentPath key,
    (nodesOf v parentPath key).length = v.size := by
  induction v using Json.induct_children with
  | h v ih =>
    intro parentPath key
    rw [nodesOf_eq, size_eq, List.length_cons, List.length_flatMap, Nat.add_comm]
    congr 2
    apply List.map_congr_left
    intro kc hkc
    exact ih kc hkc _ _

theorem idsOf_length (v : Json) (path : Str) : (idsOf v path).length = v.size := by
  simp [idsOf, nodesOf_length]

/-- One edge record per value but the root of the subtree. -/
theorem edgesOf_length (v : Json) (path : Str) : (edgesOf v path).length + 1 = v.size := by
  have h := congrArg List.length (edgesOf_targets v path)
  simp only [List.length_map, List.length_tail, idsOf_length] at h
  have := size_eq v
  omega

theorem build_eq (json : Json) :
    build json = { nodes := nodesOf json ['$'] .none, edges := edgesOf json ['$'] } := by
  simp [build, traverse_eq, pathOf]

/-! ## The children map -/

theorem mapGet_mapSet_self {α : Type} (m : JsMap α) (k : Str) (v : α) :
    mapGet (mapSet m k v) k = some v := by
  induction m with
  | nil => simp [mapSet, mapGet]
  | cons e rest ih =>
    obtain ⟨k', v'⟩ := e
    by_cases h : k' = k <;> simp [mapSet, mapGet, h, ih]

theorem mapGet_mapSet_ne {α : Type} (m : JsMap α) (k q : Str) (v : α) (hq : q ≠ k) :
    mapGet (mapSet m k v) q = mapGet m q := by
  induction m with
  | nil => simp [mapSet, mapGet, Ne.symm hq]
  | cons e rest ih =>
    obtain ⟨k', v'⟩ := e
    by_cases h : k' = k
    · subst h; simp [mapSet, mapGet, Ne.symm hq]
    · by_cases h2 : k' = q
      · subst h2; simp [mapSet, mapGet, h]
      · simp [mapSet, mapGet, h, h2, ih]

theorem mapGet_init (nodes : List Node) (q : Str) : ∀ m : JsMap (List Str),
    mapGet (nodes.foldl (fun m n => mapSet m n.id []) m) q =
      if q ∈ nodes.map (·.id) then some [] else mapGet m q := by
  induction nodes with
  | nil => intro m; simp
  | cons n rest ih =>
    intro m
    rw [List.foldl_cons, ih]
    by_cases h1 : q ∈ rest.map (·.id)
    · simp [h1]
    · by_cases h2 : q = n.id
      · subst h2; simp [h1, mapGet_mapSet_self]
      · simp [h1, h2, mapGet_mapSet_ne _ _ _ _ h2]

theorem childrenMap_fold (edges : List Edge) : ∀ m : JsMap (List Str),
    (∀ e ∈ edges, (mapGet m e.source).isSome) →
    ∃ cm, edges.foldl
        (fun acc e => acc.bind fun m =>
          (mapGet m e.source).map fun arr => mapSet m e.source (arr ++ [e.target]))
        (some m) = some cm ∧
      ∀ q, mapGet cm q = (mapGet m q).map (· ++ kids edges q) := by
  induction edges with
  | nil => intro m _; exact ⟨m, rfl, by intro q; simp [kids]⟩
  | cons e rest ih =>
    intro m hm
    obtain ⟨arr, harr⟩ := Option.isSome_iff_exists.1 (hm e (List.mem_cons_self _ _))
    have hstep : ∀ q, mapGet (mapSet m e.source (arr ++ [e.target])) q =
        if q = e.source then some (arr ++ [e.target]) else mapGet m q := by
      intro q
      by_cases h : q = e.source
      · subst h; simp [mapGet_mapSet_self]
      · simp [h, mapGet_mapSet_ne _ _ _ _ h]
    obtain ⟨cm, h1, h2⟩ := ih (mapSet m e.source (arr ++ [e.target])) (by
      intro e' he'
      rw [hstep]
      by_cases h : e'.source = e.source
      · simp [h]
      · simpa [h] using hm e' (List.mem_cons_of_mem _ he'))
    refine ⟨cm, ?_, ?_⟩
    · simp only [List.foldl_cons, Option.some_bind, harr, Option.map_some']
      exact h1
    · intro q
      rw [h2, hstep]
      by_cases h : q = e.source
      · subst h; simp [harr, kids, List.filter_cons]
      · have h' : ¬ e.source = q := fun h' => h h'.symm
        simp [h, h', kids, List.filter_cons]

/-- The children map exists when every edge starts at a node, and then lists for every
node the targets of the edges leaving it. -/
theorem childrenMap_eq (nodes : List Node) (edges : List Edge)
    (hsrc : ∀ e ∈ edges, e.source ∈ nodes.map (·.id)) :
    ∃ cm, childrenMap nodes edges = some cm ∧
      ∀ q, (mapGet cm q).getD [] = kids edges q := by
  have hinit := fun q => mapGet_init nodes q []
  obtain ⟨cm, h1, h2⟩ := childrenMap_fold edges
    (nodes.foldl (fun m n => mapSet m n.id []) []) (by
      intro e he
      rw [hinit]
      simp only [hsrc e he, if_true, Option.isSome_some])
  refine ⟨cm, h1, ?_⟩
  intro q
  rw [h2, hinit]
  by_cases h : q ∈ nodes.map (·.id)
  · simp [h]
  · have : kids edges q = [] := by
      unfold kids
      rw [List.map_eq_nil_iff, List.filter_eq_nil_iff]
      intro e he hs
      simp only [decide_eq_true_eq] at hs
      exact h (hs ▸ hsrc e he)
    simp [h, mapGet, this]

theorem mem_kids {edges : List Edge} {q c : Str} (h : c ∈ kids edges q) :
    ∃ e ∈ edges, e.source = q ∧ e.target = c := by
  unfold kids at h
  obtain ⟨e, he, rfl⟩ := List.mem_map.1 h
  obtain ⟨he1, he2⟩ := List.mem_filter.1 he
  exact ⟨e, he1, by simpa using he2, rfl⟩

/-! ## The layout returns and moves nothing but positions -/

theorem findParent_some {edges : List Edge} {q p : Str} (h : findParent edges q = some p) :
    ∃ e ∈ edges, e.target = q ∧ e.source = p := by
  unfold findParent at h
  obtain ⟨e, he, rfl⟩ := Option.map_eq_some'.1 h
  exact ⟨e, List.mem_of_find?_eq_some he, by simpa using List.find?_some he, rfl⟩

theorem depthOfPlain_isSome (edges : List Edge)
    (hlt : ∀ e ∈ edges, e.source.length < e.target.length) :
    ∀ gas q, q.length < gas → (depthOfPlain edges gas q).isSome := by
  intro gas
  induction gas with
  | zero => intro q h; omega
  | succ gas ih =>
    intro q hq
    unfold depthOfPlain
    by_cases h1 : q = ['$']
    · simp [h1]
    · simp only [h1, if_false]
      cases hp : findParent edges q with
      | none => simp
      | some p =>
        obtain ⟨e, he, h2, h3⟩ := findParent_some hp
        have := hlt e he
        by_cases h4 : p = []
        · simp [h4]
        · simp only [ne_eq, h4, not_false_eq_true, if_true, Option.isSome_map']
          apply ih
          rw [← h3]; rw [← h2] at hq; omega

theorem allSome_isSome {α : Type} (l : List (Option α)) (h : ∀ a ∈ l, a.isSome) :
    (allSome l).isSome := by
  induction l with
  | nil => simp [allSome]
  | cons a rest ih =>
    cases a with
    | none => simpa using h none (List.mem_cons_self _ _)
    | some a =>
      have := ih (fun b hb => h b (List.mem_cons_of_mem _ hb))
      simp [allSome, this]

theorem subtreeSizePlain_isSome (edges : List Edge) (cm : JsMap (List Str)) (bound : Nat)
    (hcm : ∀ q, (mapGet cm q).getD [] = kids edges q)
    (hlt : ∀ e ∈ edges, e.source.length < e.target.length)
    (hle : ∀ e ∈ edges, e.target.length ≤ bound) :
    ∀ gas q, q.length ≤ bound → bound < gas + q.length →
      (subtreeSizePlain cm gas q).isSome := by
  intro gas
  induction gas with
  | zero => intro q h1 h2; omega
  | succ gas ih =>
    intro q hqb hq
    unfold subtreeSizePlain
    simp only [hcm]
    by_cases h : (kids edges q).length = 0
    · simp [h]
    · simp only [h, if_false, Option.isSome_map']
      apply allSome_isSome
      intro a ha
      obtain ⟨c, hc, rfl⟩ := List.mem_map.1 ha
      obtain ⟨e, he, h1, h2⟩ := mem_kids hc
      have h3 := hlt e he
      have h4 := hle e he
      rw [h1, h2] at h3
      rw [h2] at h4
      exact ih c h4 (by omega)

theorem erasePos_id (n : Node) : n.erasePos.id = n.id := rfl

theorem map_id_of_erasePos {a b : List Node}
    (h : a.map Node.erasePos = b.map Node.erasePos) : a.map (·.id) = b.map (·.id) := by
  have := congrArg (List.map (·.id)) h
  simpa [List.map_map, Function.comp_def, erasePos_id] using this

theorem setPosition_some (x y : Int) (q : Str) : ∀ nodes : List Node, q ∈ nodes.map (·.id) →
    ∃ nodes', setPosition nodes q x y = some nodes' ∧
      nodes'.map Node.erasePos = nodes.map Node.erasePos := by
  intro nodes
  induction nodes with
  | nil => intro h; simp at h
  | cons n rest ih =>
    intro h
    unfold setPosition
    by_cases hn : n.id = q
    · exact ⟨{ n with x := x, y := y } :: rest, by simp [hn], by simp [Node.erasePos]⟩
    · have hq : q ∈ rest.map (·.id) := by
        rcases List.mem_cons.1 h with h | h
        · exact absurd h.symm hn
        · exact h
      obtain ⟨nodes', h1, h2⟩ := ih hq
      exact ⟨n :: nodes', by simp [hn, h1], by simp [h2]⟩

theorem placeLoopPlain_some (placeFn : Str → PlainState → Option PlainState)
    (sizeFn : Str → Option Nat) (Inv : List Node → Prop) (cs : List Str)
    (hp : ∀ c ∈ cs, ∀ st, Inv st.nodes → ∃ st', placeFn c st = some st' ∧ Inv st'.nodes)
    (hs : ∀ c ∈ cs, (sizeFn c).isSome) :
    ∀ start st, Inv st.nodes →
      ∃ st', placeLoopPlain placeFn sizeFn cs start st = some st' ∧ Inv st'.nodes := by
  induction cs with
  | nil => intro start st h; exact ⟨st, rfl, h⟩
  | cons c rest ih =>
    intro start st h
    obtain ⟨st1, h1, h2⟩ := hp c (List.mem_cons_self _ _) { st with yCursor := start } h
    obtain ⟨csize, h3⟩ := Option.isSome_iff_exists.1 (hs c (List.mem_cons_self _ _))
    obtain ⟨st', h4, h5⟩ := ih (fun c hc => hp c (List.mem_cons_of_mem _ hc))
      (fun c hc => hs c (List.mem_cons_of_mem _ hc))
      (start + csize * (NODE_HEIGHT + V_GAP))
      { st1 with yCursor := start + csize * (NODE_HEIGHT + V_GAP) } h2
    exact ⟨st', by simp only [placeLoopPlain, h1, h3, h4], h5⟩

/-- On a graph, `place` without the tables returns for every node once the fuel exceeds the bound on the
id lengths, and changes nothing but positions. -/
theorem placePlain_some (nodes0 : List Node) (edges : List Edge) (cm : JsMap (List Str))
    (bound gas : Nat) (hg : Graph nodes0 edges bound)
    (hcm : ∀ q, (mapGet cm q).getD [] = kids edges q) (hgas : bound < gas) :
    ∀ fuel q st, q ∈ nodes0.map (·.id) → bound < fuel + q.length →
      st.nodes.map Node.erasePos = nodes0.map Node.erasePos →
      ∃ st', placePlain edges cm gas fuel q st = some st' ∧
        st'.nodes.map Node.erasePos = nodes0.map Node.erasePos := by
  have hle : ∀ e ∈ edges, e.target.length ≤ bound :=
    fun e he => hg.length_le _ (hg.target_mem e he)
  intro fuel
  induction fuel with
  | zero =>
    intro q st hq hb _
    have := hg.length_le q hq
    omega
  | succ fuel ih =>
    intro q st hq hb hst
    have hqb := hg.length_le q hq
    obtain ⟨depth, hd⟩ := Option.isSome_iff_exists.1
      (depthOfPlain_isSome edges hg.source_lt gas q (by omega))
    obtain ⟨size, hs⟩ := Option.isSome_iff_exists.1
      (subtreeSizePlain_isSome edges cm bound hcm hg.source_lt hle gas q hqb (by omega))
    have hq' : q ∈ st.nodes.map (·.id) := by rw [map_id_of_erasePos hst]; exact hq
    obtain ⟨nodes1, h1, h2⟩ := setPosition_some (depth * H_GAP)
      (st.yCursor + (size * (NODE_HEIGHT + V_GAP) - V_GAP) / 2 - NODE_HEIGHT / 2) q st.nodes hq'
    have hloop := placeLoopPlain_some (placePlain edges cm gas fuel) (subtreeSizePlain cm gas)
      (fun ns => ns.map Node.erasePos = nodes0.map Node.erasePos) (kids edges q)
      (by
        intro c hc st2 hst2
        obtain ⟨e, he, he1, he2⟩ := mem_kids hc
        have hlt := hg.source_lt e he
        rw [he1, he2] at hlt
        exact ih c st2 (he2 ▸ hg.target_mem e he) (by omega) hst2)
      (by
        intro c hc
        obtain ⟨e, he, he1, he2⟩ := mem_kids hc
        have h3 := hle e he
        rw [he2] at h3
        exact subtreeSizePlain_isSome edges cm bound hcm hg.source_lt hle gas c h3 (by omega))
      st.yCursor { st with nodes := nodes1 } (by simpa using h2.trans hst)
    obtain ⟨st', h3, h4⟩ := hloop
    refine ⟨st', ?_, h4⟩
    unfold placePlain
    simp only [hd, hs, h1, hcm]
    exact h3

/-- On a graph that has the node `$`, `computeLayout` without the tables returns once the fuel exceeds the
bound on the id lengths, and changes nothing but positions. -/
theorem computeLayoutPlain_some (nodes : List Node) (edges : List Edge) (bound fuel : Nat)
    (hg : Graph nodes edges bound) (hroot : ['$'] ∈ nodes.map (·.id)) (hfuel : bound < fuel) :
    ∃ nodes', computeLayoutPlain fuel nodes edges = some nodes' ∧
      nodes'.map Node.erasePos = nodes.map Node.erasePos := by
  obtain ⟨cm, h1, h2⟩ := childrenMap_eq nodes edges hg.source_mem
  obtain ⟨st', h3, h4⟩ := placePlain_some nodes edges cm bound fuel hg h2 hfuel fuel ['$']
    { nodes := nodes, yCursor := 0 } hroot (by omega) rfl
  exact ⟨st'.nodes, by simp [computeLayoutPlain, h1, h3], h4⟩

/-! ## The memo tables only cache -/

theorem depthOfPlain_mono (edges : List Edge) : ∀ (g : Nat) (q : Str) (d : Nat),
    depthOfPlain edges g q = some d → ∀ g', g ≤ g' → depthOfPlain edges g' q = some d := by
  intro g
  induction g with
  | zero => intro q d h; simp [depthOfPlain] at h
  | succ g ih =>
    intro q d h g' hg
    obtain ⟨g'', rfl⟩ : ∃ g'', g' = g'' + 1 := ⟨g' - 1, by omega⟩
    unfold depthOfPlain at h ⊢
    by_cases h1 : q = ['$']
    · simpa [h1] using h
    · simp only [h1, if_false] at h ⊢
      cases hp : findParent edges q with
      | none => simpa [hp] using h
      | some p =>
        simp only [hp] at h ⊢
        by_cases h2 : p = []
        · simpa [h2] using h
        · simp only [ne_eq, h2, not_false_eq_true, if_true, Option.map_eq_some'] at h ⊢
          obtain ⟨dp, hdp, rfl⟩ := h
          exact ⟨dp, ih p dp hdp g'' (by omega), rfl⟩

theorem allSome_congr {α β : Type} (f f' : α → Option β) : ∀ (l : List α) (out : List β),
    (∀ a ∈ l, ∀ b, f a = some b → f' a = some b) →
      allSome (l.map f) = some out → allSome (l.map f') = some out := by
  intro l
  induction l with
  | nil => intro out _ h; simpa using h
  | cons a rest ih =>
    intro out hf h
    cases hfa : f a with
    | none => simp [allSome, hfa] at h
    | some b =>
      simp only [List.map_cons, hfa, allSome, Option.map_eq_some'] at h
      obtain ⟨out', h1, rfl⟩ := h
      simp only [List.map_cons, hf a (List.mem_cons_self _ _) b hfa, allSome,
        ih out' (fun x hx => hf x (List.mem_cons_of_mem _ hx)) h1, Option.map_some']

theorem subtreeSizePlain_mono (cm : JsMap (List Str)) : ∀ (g : Nat) (q : Str) (s : Nat),
    subtreeSizePlain cm g q = some s → ∀ g', g ≤ g' → subtreeSizePlain cm g' q = some s := by
  intro g
  induction g with
  | zero => intro q s h; simp [subtreeSizePlain] at h
  | succ g ih =>
    intro q s h g' hg
    obtain ⟨g'', rfl⟩ : ∃ g'', g' = g'' + 1 := ⟨g' - 1, by omega⟩
    unfold subtreeSizePlain at h ⊢
    by_cases hc : ((mapGet cm q).getD []).length = 0
    · simpa [hc] using h
    · simp only [hc, if_false, Option.map_eq_some'] at h ⊢
      obtain ⟨sizes, h1, rfl⟩ := h
      exact ⟨sizes, allSome_congr _ _ _ sizes
        (fun a _ b hb => ih a b hb g'' (by omega)) h1, rfl⟩

/-- The values of `depthOf` without the table do not depend on the fuel. -/
theorem depthOfPlain_det (edges : List Edge) {g g' : Nat} {q : Str} {d d' : Nat}
    (h : depthOfPlain edges g q = some d) (h' : depthOfPlain edges g' q = some d') : d = d' := by
  have h1 := depthOfPlain_mono edges g q d h (max g g') (le_max_left _ _)
  have h2 := depthOfPlain_mono edges g' q d' h' (max g g') (le_max_right _ _)
  rw [h1] at h2
  exact Option.some.inj h2

/-- The values of `subtreeSize` without the table do not depend on the fuel. -/
theorem subtreeSizePlain_det (cm : JsMap (List Str)) {g g' : Nat} {q : Str} {s s' : Nat}
    (h : subtreeSizePlain cm g q = some s) (h' : subtreeSizePlain cm g' q = some s') :
    s = s' := by
  have h1 := subtreeSizePlain_mono cm g q s h (max g g') (le_max_left _ _)
  have h2 := subtreeSizePlain_mono cm g' q s' h' (max g g') (le_max_right _ _)
  rw [h1] at h2
  exact Option.some.inj h2

theorem depthSound_set {edges : List Edge} {dm : JsMap Nat} (h : DepthSound edges dm)
    {q : Str} {d g : Nat} (hq : depthOfPlain edges g q = some d) :
    DepthSound edges (mapSet dm q d) := by
  intro q' d' hget
  by_cases hqq : q' = q
  · subst hqq
    rw [mapGet_mapSet_self] at hget
    exact ⟨g, by rw [hq, hget]⟩
  · rw [mapGet_mapSet_ne _ _ _ _ hqq] at hget
    exact h q' d' hget

theorem sizeSound_set {cm : JsMap (List Str)} {sm : JsMap Nat} (h : SizeSound cm sm)
    {q : Str} {s g : Nat} (hq : subtreeSizePlain cm g q = some s) :
    SizeSound cm (mapSet sm q s) := by
  intro q' s' hget
  by_cases hqq : q' = q
  · subst hqq
    rw [mapGet_mapSet_self] at hget
    exact ⟨g, by rw [hq, hget]⟩
  · rw [mapGet_mapSet_ne _ _ _ _ hqq] at hget
    exact h q' s' hget

/-- With a sound table, `depthOf` returns what it returns without the table, and leaves
a sound table. -/
theorem depthOf_sim (edges : List Edge) : ∀ (g : Nat) (q : Str) (d : Nat) (dm : JsMap Nat),
    depthOfPlain edges g q = some d → DepthSound edges dm →
      ∃ dm', depthOf edges g q dm = some (d, dm') ∧ DepthSound edges dm' := by
  intro g
  induction g with
  | zero => intro q d dm h; simp [depthOfPlain] at h
  | succ g ih =>
    intro q d dm h hdm
    have hfull := h
    unfold depthOfPlain at h
    unfold depthOf
    by_cases h1 : q = ['$']
    · simp only [h1, if_true, Option.some.injEq] at h ⊢
      exact ⟨dm, by rw [h], hdm⟩
    · simp only [h1, if_false] at h ⊢
      cases hm : mapGet dm q with
      | some d0 =>
        obtain ⟨g0, hg0⟩ := hdm q d0 hm
        have := depthOfPlain_det edges hg0 hfull
        subst this
        exact ⟨dm, rfl, hdm⟩
      | none =>
        simp only []
        cases hp : findParent edges q with
        | none =>
          simp only [hp, Option.some.injEq] at h ⊢
          subst h
          exact ⟨_, rfl, depthSound_set hdm hfull⟩
        | some p =>
          simp only [hp] at h ⊢
          by_cases h2 : p = []
          · simp only [h2, ne_eq, not_true_eq_false, if_false, Option.some.injEq] at h ⊢
            subst h
            exact ⟨_, rfl, depthSound_set hdm hfull⟩
          · simp only [ne_eq, h2, not_false_eq_true, if_true, Option.map_eq_some'] at h ⊢
            obtain ⟨dp, hdp, rfl⟩ := h
            obtain ⟨dm1, e1, s1⟩ := ih p dp dm hdp hdm
            rw [e1]
            exact ⟨_, rfl, depthSound_set s1 hfull⟩

theorem mapSizes_sim (cm : JsMap (List Str)) (sizeFn : Str → JsMap Nat → Option (Nat × JsMap Nat))
    (sizeFnPlain : Str → Option Nat) : ∀ (cs : List Str) (sizes : List Nat) (sm : JsMap Nat),
    (∀ c ∈ cs, ∀ s sm, sizeFnPlain c = some s → SizeSound cm sm →
      ∃ sm', sizeFn c sm = some (s, sm') ∧ SizeSound cm sm') →
    allSome (cs.map sizeFnPlain) = some sizes → SizeSound cm sm →
      ∃ sm', mapSizes sizeFn cs sm = some (sizes, sm') ∧ SizeSound cm sm' := by
  intro cs
  induction cs with
  | nil =>
    intro sizes sm _ h hsm
    simp only [List.map_nil, allSome, Option.some.injEq] at h
    subst h
    exact ⟨sm, rfl, hsm⟩
  | cons c rest ih =>
    intro sizes sm hf h hsm
    cases hc : sizeFnPlain c with
    | none => simp [allSome, hc] at h
    | some s =>
      simp only [List.map_cons, hc, allSome, Option.map_eq_some'] at h
      obtain ⟨out, h1, rfl⟩ := h
      obtain ⟨sm1, e1, s1⟩ := hf c (List.mem_cons_self _ _) s sm hc hsm
      obtain ⟨sm2, e2, s2⟩ := ih out sm1 (fun x hx => hf x (List.mem_cons_of_mem _ hx)) h1 s1
      exact ⟨sm2, by simp only [mapSizes, e1, e2], s2⟩

/-- With a sound table, `subtreeSize` returns what it returns without the table, and
leaves a sound table. -/
theorem subtreeSize_sim (cm : JsMap (List Str)) : ∀ (g : Nat) (q : Str) (s : Nat)
    (sm : JsMap Nat), subtreeSizePlain cm g q = some s → SizeSound cm sm →
      ∃ sm', subtreeSize cm g q sm = some (s, sm') ∧ SizeSound cm sm' := by
  intro g
  induction g with
  | zero => intro q s sm h; simp [subtreeSizePlain] at h
  | succ g ih =>
    intro q s sm h hsm
    have hfull := h
    unfold subtreeSizePlain at h
    unfold subtreeSize
    cases hm : mapGet sm q with
    | some s0 =>
      obtain ⟨g0, hg0⟩ := hsm q s0 hm
      have := subtreeSizePlain_det cm hg0 hfull
      subst this
      exact ⟨sm, rfl, hsm⟩
    | none =>
      simp only []
      by_cases hc : ((mapGet cm q).getD []).length = 0
      · simp only [hc, if_true, Option.some.injEq] at h ⊢
        subst h
        exact ⟨_, rfl, sizeSound_set hsm hfull⟩
      · simp only [hc, if_false, Option.map_eq_some'] at h ⊢
        obtain ⟨sizes, h1, rfl⟩ := h
        obtain ⟨sm1, e1, s1⟩ := mapSizes_sim cm (subtreeSize cm g) (subtreeSizePlain cm g)
          _ sizes sm (fun c _ s sm hs hsm => ih c s sm hs hsm) h1 hsm
        rw [e1]
        exact ⟨_, rfl, sizeSound_set s1 hfull⟩

theorem sizeSound_nil (cm : JsMap (List Str)) : SizeSound cm [] := by
  intro q s h; simp [mapGet] at h

theorem depthSound_nil (edges : List Edge) : DepthSound edges [] := by
  intro q d h; simp [mapGet] at h

theorem placeLoop_sim (edges : List Edge) (cm : JsMap (List Str))
    (placeFn : Str → LayoutState → Option LayoutState)
    (placeFnPlain : Str → PlainState → Option PlainState)
    (sizeFn : Str → JsMap Nat → Option (Nat × JsMap Nat)) (sizeFnPlain : Str → Option Nat) :
    ∀ (cs : List Str) (start : Int) (st st' : PlainState) (dm sm : JsMap Nat),
    (∀ c ∈ cs, ∀ (st st' : PlainState) (dm sm : JsMap Nat), placeFnPlain c st = some st' →
      DepthSound edges dm → SizeSound cm sm →
      ∃ dm' sm', placeFn c (st.tabled dm sm) = some (st'.tabled dm' sm') ∧ DepthSound edges dm' ∧ SizeSound cm sm') →
    (∀ c ∈ cs, ∀ s sm, sizeFnPlain c = some s → SizeSound cm sm →
      ∃ sm', sizeFn c sm = some (s, sm') ∧ SizeSound cm sm') →
    placeLoopPlain placeFnPlain sizeFnPlain cs start st = some st' →
    DepthSound edges dm → SizeSound cm sm →
      ∃ dm' sm', placeLoop placeFn sizeFn cs start (st.tabled dm sm) = some (st'.tabled dm' sm') ∧
        DepthSound edges dm' ∧ SizeSound cm sm' := by
  intro cs
  induction cs with
  | nil =>
    intro start st st' dm sm _ _ h hdm hsm
    simp only [placeLoopPlain, Option.some.injEq] at h
    subst h
    exact ⟨dm, sm, rfl, hdm, hsm⟩
  | cons c rest ih =>
    intro start st st' dm sm hp hs h hdm hsm
    simp only [placeLoopPlain] at h
    cases h1 : placeFnPlain c { st with yCursor := start } with
    | none => simp [h1] at h
    | some st1 =>
      cases h2 : sizeFnPlain c with
      | none => simp [h1, h2] at h
      | some csize =>
        simp only [h1, h2] at h
        obtain ⟨dm1, sm1, e1, d1, s1⟩ := hp c (List.mem_cons_self _ _) _ _ dm sm h1 hdm hsm
        obtain ⟨sm2, e2, s2⟩ := hs c (List.mem_cons_self _ _) csize sm1 h2 s1
        obtain ⟨dm3, sm3, e3, d3, s3⟩ := ih _ _ _ dm1 sm2
          (fun x hx => hp x (List.mem_cons_of_mem _ hx))
          (fun x hx => hs x (List.mem_cons_of_mem _ hx)) h d1 s2
        refine ⟨dm3, sm3, ?_, d3, s3⟩
        simp only [PlainState.tabled] at e1 e3 ⊢
        simp only [placeLoop, e1, e2]
        exact e3

/-- With sound tables, `place` returns the nodes and the cursor it returns without the
tables, and leaves sound tables. -/
theorem place_sim (edges : List Edge) (cm : JsMap (List Str)) (gas : Nat) :
    ∀ (fuel : Nat) (q : Str) (st st' : PlainState) (dm sm : JsMap Nat),
    placePlain edges cm gas fuel q st = some st' → DepthSound edges dm → SizeSound cm sm →
      ∃ dm' sm', place edges cm gas fuel q (st.tabled dm sm) = some (st'.tabled dm' sm') ∧
        DepthSound edges dm' ∧ SizeSound cm sm' := by
  intro fuel
  induction fuel with
  | zero => intro q st st' dm sm h; simp [placePlain] at h
  | succ fuel ih =>
    intro q st st' dm sm h hdm hsm
    unfold placePlain at h
    cases hd : depthOfPlain edges gas q with
    | none => simp [hd] at h
    | some depth =>
      cases hs : subtreeSizePlain cm gas q with
      | none => simp [hd, hs] at h
      | some size =>
        cases hp : setPosition st.nodes q (depth * H_GAP)
            (st.yCursor + (size * (NODE_HEIGHT + V_GAP) - V_GAP) / 2 - NODE_HEIGHT / 2) with
        | none => simp [hd, hs, hp] at h
        | some nodes1 =>
          simp only [hd, hs, hp] at h
          obtain ⟨dm1, e1, d1⟩ := depthOf_sim edges gas q depth dm hd hdm
          obtain ⟨sm1, e2, s1⟩ := subtreeSize_sim cm gas q size sm hs hsm
          obtain ⟨dm2, sm2, e3, d2, s2⟩ := placeLoop_sim edges cm (place edges cm gas fuel)
            (placePlain edges cm gas fuel) (subtreeSize cm gas) (subtreeSizePlain cm gas)
            _ _ _ _ dm1 sm1
            (fun c _ st st' dm sm hpl hdm hsm => ih c st st' dm sm hpl hdm hsm)
            (fun c _ s sm hs hsm => subtreeSize_sim cm gas c s sm hs hsm) h d1 s1
          refine ⟨dm2, sm2, ?_, d2, s2⟩
          simp only [PlainState.tabled] at e3 ⊢
          simp only [place, e1, e2, hp]
          exact e3

/-- Whatever `computeLayout` returns without the memo tables, it returns with them. -/
theorem computeLayout_sim (fuel : Nat) (nodes out : List Node) (edges : List Edge)
    (h : computeLayoutPlain fuel nodes edges = some out) :
    computeLayout fuel nodes edges = some out := by
  unfold computeLayoutPlain at h
  unfold computeLayout
  cases hcm : childrenMap nodes edges with
  | none => simp [hcm] at h
  | some cm =>
    simp only [hcm, Option.map_eq_some'] at h ⊢
    obtain ⟨st', h1, rfl⟩ := h
    obtain ⟨dm', sm', e, _, _⟩ := place_sim edges cm fuel fuel ['$'] _ st' [] [] h1
      (depthSound_nil edges) (sizeSound_nil cm)
    exact ⟨_, e, rfl⟩

/-- Whatever `buildFlowFromJson` returns without the memo tables, it returns with them. -/
theorem buildFlow_sim (fuel : Nat) (json : Json) (flow : Flow)
    (h : buildFlowPlain fuel json = some flow) : buildFlowFromJson fuel json = some flow := by
  unfold buildFlowPlain at h
  unfold buildFlowFromJson
  cases hc : computeLayoutPlain fuel (rootedNodes json)
      (traverse json ['$'] .none { nodes := [], edges := [] }).edges with
  | none => simp [hc] at h
  | some nodes =>
    simp only [hc] at h
    simp only [computeLayout_sim _ _ _ _ hc]
    exact h

/-- On a fresh memo table, `subtreeSize` returns what it returns without the table. -/
theorem subtreeSize_fresh (cm : JsMap (List Str)) (g : Nat) (q : Str) (s : Nat)
    (h : subtreeSizePlain cm g q = some s) : ∃ memo, subtreeSize cm g q [] = some (s, memo) := by
  obtain ⟨sm', e, _⟩ := subtreeSize_sim cm g q s [] h (sizeSound_nil cm)
  exact ⟨sm', e⟩

/-! ## `buildFlowFromJson` returns -/

theorem rootedNodes_eq (json : Json) :
    rootedNodes json = { mkNode json ['$'] .none with label := ['$'] } ::
      (children json).flatMap (fun kc => nodesOf kc.2 ['$'] kc.1) := by
  have h := build_eq json
  unfold build at h
  unfold rootedNodes
  simp only [h]
  rw [nodesOf_eq]
  simp [List.find?_cons, mkNode_id, pathOf, setRootLabel]

theorem rootedNodes_ids (json : Json) :
    (rootedNodes json).map (·.id) = idsOf json ['$'] := by
  rw [rootedNodes_eq]
  unfold idsOf
  rw [nodesOf_eq]
  simp [mkNode_id, pathOf]

theorem le_foldr_max (l : List Nat) (a : Nat) (h : a ∈ l) : a ≤ l.foldr max 0 := by
  induction l with
  | nil => simp at h
  | cons b rest ih =>
    rcases List.mem_cons.1 h with rfl | h
    · simp
    · have := ih h
      simp only [List.foldr_cons]
      omega

theorem graph_of_json (json : Json) :
    Graph (rootedNodes json) (edgesOf json ['$']) (idBound json) where
  source_mem := by
    intro e he
    rw [rootedNodes_ids]
    exact (edgesOf_source json _ e he).1
  target_mem := by
    intro e he
    rw [rootedNodes_ids]
    exact edgesOf_target_mem json _ e he
  source_lt := fun e he => (edgesOf_source json _ e he).2
  length_le := by
    intro q hq
    rw [rootedNodes_ids] at hq
    exact le_foldr_max _ _ (List.mem_map_of_mem _ hq)

theorem root_mem_ids (json : Json) : ['$'] ∈ idsOf json ['$'] := by
  rw [idsOf_eq]; exact List.mem_cons_self _ _

/-- With the fuel `fuelFor json` or more, `buildFlowFromJson` returns: the node
records of the traversal with the label of the root set, positions and class names
assigned, and the edge records of the traversal. -/
theorem buildFlow_some (json : Json) (k : Nat) :
    ∃ nodes, computeLayoutPlain (fuelFor json + k) (rootedNodes json) (edgesOf json ['$']) = some nodes ∧
      nodes.map Node.erasePos = (rootedNodes json).map Node.erasePos ∧
      buildFlowFromJson (fuelFor json + k) json =
        some { nodes := nodes.map withClass, edges := edgesOf json ['$'] } := by
  obtain ⟨nodes, h1, h2⟩ := computeLayoutPlain_some (rootedNodes json) (edgesOf json ['$'])
    (idBound json) (fuelFor json + k) (graph_of_json json)
    (by rw [rootedNodes_ids]; exact root_mem_ids json) (by unfold fuelFor; omega)
  refine ⟨nodes, h1, h2, ?_⟩
  apply buildFlow_sim
  have h := build_eq json
  unfold build at h
  unfold buildFlowPlain
  simp only [h, h1]
  rfl

theorem withClass_id_map (nodes : List Node) :
    (nodes.map withClass).map (·.id) = nodes.map (·.id) := by
  simp [List.map_map, Function.comp_def, withClass]

/-- The ids of the node list `buildFlowFromJson` returns, and its edges. -/
theorem buildFlow_ids (json : Json) (k : Nat) :
    ∃ flow, buildFlowFromJson (fuelFor json + k) json = some flow ∧
      flow.nodes.map (·.id) = idsOf json ['$'] ∧ flow.edges = edgesOf json ['$'] := by
  obtain ⟨nodes, _, h2, h3⟩ := buildFlow_some json k
  refine ⟨_, h3, ?_, rfl⟩
  rw [withClass_id_map, map_id_of_erasePos h2, rootedNodes_ids]

/-! ## The root node (C7) and the record counts (C10) -/

/-- C7: for every JSON value, `buildFlowFromJson` returns (with enough fuel) a node list
whose first element has id `$` and label `$` and none of whose other elements has id
`$`; the search for a node with id `$` among the traversed nodes succeeds, so the node
list handed to the layout is the traversed one with the root label set, never the one
with a synthesized root. -/
theorem root_node_first_and_only (json : Json) (k : Nat) :
    ∃ flow, buildFlowFromJson (fuelFor json + k) json = some flow ∧
      (∃ root rest, flow.nodes = root :: rest ∧ root.id = ['$'] ∧ root.label = ['$'] ∧
        ∀ n ∈ rest, n.id ≠ ['$']) ∧
      ((build json).nodes.find? fun n => n.id = ['$']).isSome = true ∧
      rootedNodes json = setRootLabel (build json).nodes := by
  obtain ⟨nodes, _, h2, h3⟩ := buildFlow_some json k
  refine ⟨_, h3, ?_, ?_, ?_⟩
  · have hids : (nodes.map withClass).map (·.id) = idsOf json ['$'] := by
      rw [withClass_id_map, map_id_of_erasePos h2, rootedNodes_ids]
    rw [rootedNodes_eq] at h2
    cases nodes with
    | nil => simp at h2
    | cons r rs =>
      simp only [List.map_cons, List.cons.injEq] at h2
      refine ⟨withClass r, rs.map withClass, rfl, ?_, ?_, ?_⟩
      · have := congrArg Node.id h2.1
        simpa [withClass, Node.erasePos, mkNode_id, pathOf] using this
      · have := congrArg Node.label h2.1
        simpa [withClass, Node.erasePos] using this
      · intro n hn hid
        have hmem : n.id ∈ (idsOf json ['$']).tail := by
          rw [← hids]
          simp only [List.map_cons, List.tail_cons]
          exact List.mem_map_of_mem _ hn
        have := idsOf_tail_length json ['$'] n.id hmem
        rw [hid] at this
        simp at this
  · rw [build_eq, nodesOf_eq]
    simp [List.find?_cons, mkNode_id, pathOf]
  · rw [build_eq, nodesOf_eq, rootedNodes_eq]
    simp [setRootLabel, mkNode_id, pathOf]

/-- C10: for every JSON value, `buildFlowFromJson` returns (with enough fuel) as many node
records as the document has JSON values and one edge record fewer; and the traversal of
a value without children (a primitive, an empty object or an empty array) appends
exactly one node record and no edge record to the accumulator. -/
theorem one_node_per_value (json : Json) (k : Nat) :
    ∃ flow, buildFlowFromJson (fuelFor json + k) json = some flow ∧
      flow.nodes.length = json.size ∧
      flow.edges.length + 1 = flow.nodes.length ∧
      ∀ (v : Json) (parentPath : Str) (key : Key) (accum : Accum), children v = [] →
        traverse v parentPath key accum =
          { nodes := accum.nodes ++ [mkNode v parentPath key], edges := accum.edges } := by
  obtain ⟨flow, h1, h2, h3⟩ := buildFlow_ids json k
  have hlen : flow.nodes.length = json.size := by
    have := congrArg List.length h2
    simpa [idsOf_length] using this
  refine ⟨flow, h1, hlen, ?_, ?_⟩
  · rw [h3, hlen]; exact edgesOf_length json _
  · intro v parentPath key accum hv
    rw [traverse_eq, nodesOf_eq, edgesOf_eq, hv]
    simp

/-! ## Canonical child paths (C9) -/

theorem positionsEntries_eq (entries : List (Str × Json)) :
    positionsEntries entries =
      (entries.map fun kv => (Key.name kv.1, kv.2)).flatMap
        (fun kc => (positions kc.2).map (kc.1 :: ·)) := by
  induction entries with
  | nil => simp [positionsEntries]
  | cons kv rest ih => obtain ⟨k, v⟩ := kv; simp [positionsEntries, ih]

theorem positionsItems_eq (items : List Json) : ∀ idx,
    positionsItems items idx =
      ((items.enumFrom idx).map fun iv => (Key.idx iv.1, iv.2)).flatMap
        (fun kc => (positions kc.2).map (kc.1 :: ·)) := by
  induction items with
  | nil => intro idx; simp [positionsItems]
  | cons v rest ih => intro idx; simp [positionsItems, ih]

theorem positions_eq (v : Json) :
    positions v = [] :: (children v).flatMap (fun kc => (positions kc.2).map (kc.1 :: ·)) := by
  cases v with
  | prim p => simp [positions, children]
  | obj entries => simp only [positions, children, positionsEntries_eq]
  | arr items => simp only [positions, children, positionsItems_eq]

/-- The ids of a subtree are the paths of its positions, each folded with `pathOf` from
the path of the root of the subtree. -/
theorem idsOf_positions (v : Json) : ∀ path,
    idsOf v path = (positions v).map (fun pos => pos.foldl pathOf path) := by
  induction v using Json.induct_children with
  | h v ih =>
    intro path
    rw [idsOf_eq, positions_eq]
    simp only [List.map_cons, List.foldl_nil, List.map_flatMap, List.map_map]
    congr 1
    apply List.flatMap_congr
    intro kc hkc
    rw [ih kc hkc, ← pathOf_eq]
    rfl

theorem positions_cons_tail (v : Json) : [] :: (positions v).tail = positions v := by
  rw [positions_eq]; simp

theorem positions_tail_ne_nil (v : Json) (pos : List Key) (h : pos ∈ (positions v).tail) :
    pos ≠ [] := by
  rw [positions_eq] at h
  simp only [List.tail_cons, List.mem_flatMap, List.mem_map] at h
  obtain ⟨_, _, _, _, rfl⟩ := h
  simp

/-- The edges of a subtree join, for every position but the root, the path of the
parent position to the path of the position. -/
theorem edgesOf_positions (v : Json) : ∀ path,
    (edgesOf v path).map (fun e => (e.source, e.target)) =
      (positions v).tail.map
        (fun pos => (pos.dropLast.foldl pathOf path, pos.foldl pathOf path)) := by
  induction v using Json.induct_children with
  | h v ih =>
    intro path
    rw [edgesOf_eq, positions_eq]
    simp only [List.tail_cons, List.map_flatMap, List.map_map, List.map_cons]
    apply List.flatMap_congr
    intro kc hkc
    rw [ih kc hkc]
    conv_rhs => rw [← positions_cons_tail kc.2]
    simp only [List.map_cons, Function.comp_apply, List.dropLast_single, List.foldl_nil,
      List.foldl_cons, mkEdge, List.cons.injEq, true_and]
    apply List.map_congr_left
    intro pos hpos
    have hne := positions_tail_ne_nil _ _ hpos
    simp [List.dropLast_cons_of_ne_nil hne]

theorem pathOf_eq_amended (p : Str) (key : Key) : pathOf p key = amendedChildId p key := by
  cases key with
  | none => rfl
  | idx i => rw [pathOf_eq]; rfl
  | name k =>
    rw [pathOf_eq]
    by_cases h : startsWithBracket k = true <;> simp [segOf, sepOf, amendedChildId, h]

/-- C9 as stated fails: the child under the key `[0]` of the root object gets the id
`$[0]`, not `$.[0]`. -/
theorem child_path_counterexample :
    ∃ flow, buildFlowFromJson 3 (.obj [("[0]".toList, .prim (.num "1".toList))]) = some flow ∧
      flow.nodes.map (·.id) = ["$".toList, "$[0]".toList] ∧
      flow.nodes.map (·.id) ≠
        (positions (.obj [("[0]".toList, .prim (.num "1".toList))])).map
          (fun pos => pos.foldl claimedChildId ['$']) := by
  refine ⟨_, rfl, ?_, ?_⟩ <;> decide

/-- C9, amended: for every JSON value, `buildFlowFromJson` returns (with enough fuel) the
node ids of the positions of the document in traversal order, where the id of the root
is `$`, the child of the node with id `p` under the object key `k` has the id
`p + "." + k` when `k` does not begin with `[` and `p + k` when it does, and the child at
array index `i` has the id `p + "[" + decimal(i) + "]"`; the edges join, in the same
order, the id of the parent position to the id of each position but the root. -/
theorem child_paths_amended (json : Json) (k : Nat) :
    ∃ flow, buildFlowFromJson (fuelFor json + k) json = some flow ∧
      flow.nodes.map (·.id) =
        (positions json).map (fun pos => pos.foldl amendedChildId ['$']) ∧
      flow.edges.map (fun e => (e.source, e.target)) =
        (positions json).tail.map
          (fun pos => (pos.dropLast.foldl amendedChildId ['$'],
            pos.foldl amendedChildId ['$'])) := by
  obtain ⟨flow, h1, h2, h3⟩ := buildFlow_ids json k
  have hfun : pathOf = amendedChildId := by
    funext p key; exact pathOf_eq_amended p key
  refine ⟨flow, h1, ?_, ?_⟩
  · rw [h2, idsOf_positions, hfun]
  · rw [h3, edgesOf_positions, hfun]

/-! ## Query resolution (C4) -/

theorem includes_iff (s t : Str) : includes s t = true ↔ t <:+: s := by
  induction s with
  | nil => cases t <;> simp [includes]
  | cons c s ih =>
    simp only [includes, Bool.or_eq_true, ih, List.isPrefixOf_iff_prefix]
    rw [List.infix_cons_iff]

theorem includes_eq_decide (s t : Str) : includes s t = decide (t <:+: s) := by
  by_cases h : t <:+: s
  · simp [h, (includes_iff s t).2 h]
  · have : includes s t = false := by
      cases hi : includes s t
      · rfl
      · exact absurd ((includes_iff s t).1 hi) h
    simp [h, this]

theorem mem_toSet (l : List Str) (x : Str) : x ∈ toSet l ↔ x ∈ l := by
  induction l with
  | nil => simp [toSet]
  | cons a rest ih =>
    simp only [toSet, List.mem_cons, List.mem_filter, ih]
    by_cases h : x = a <;> simp [h]

theorem find_filter {α : Type} (p q : α → Bool) (l : List α) :
    (l.filter q).find? p = l.find? (fun x => q x && p x) := by
  induction l with
  | nil => rfl
  | cons a rest ih =>
    by_cases hq : q a = true
    · by_cases hp : p a = true <;> simp [List.filter_cons, List.find?_cons, hq, hp, ih]
    · simp [List.filter_cons, List.find?_cons, hq, ih]

theorem find_congr_mem {α : Type} {p q : α → Bool} : ∀ {l : List α},
    (∀ x ∈ l, p x = q x) → l.find? p = l.find? q := by
  intro l
  induction l with
  | nil => intro _; rfl
  | cons a rest ih =>
    intro h
    have ha := h a (List.mem_cons_self _ _)
    have hr := ih (fun x hx => h x (List.mem_cons_of_mem _ hx))
    simp [List.find?_cons, ha, hr]

theorem contains_toSet (l : List Str) (x : Str) : (toSet l).contains x = decide (x ∈ l) := by
  by_cases h : x ∈ l
  · simp [h, (mem_toSet l x).2 h]
  · have : ¬ x ∈ toSet l := fun h2 => h ((mem_toSet l x).1 h2)
    simp [h, this]

theorem find_toSet (l : List Str) : ∀ p : Str → Bool, (toSet l).find? p = l.find? p := by
  induction l with
  | nil => intro p; rfl
  | cons a rest ih =>
    intro p
    by_cases hp : p a = true
    · simp [toSet, List.find?_cons, hp]
    · simp only [toSet, List.find?_cons, hp, find_filter, ih]
      apply find_congr_mem
      intro x _
      by_cases hx : x = a
      · subst hx; simp [hp]
      · simp [hx]

theorem head_filter_toSet (l : List Str) (p : Str → Bool) :
    ((toSet l).filter p).head? = l.find? p := by
  rw [List.filter_head?, find_toSet]

theorem bracketDigitsFrom_dollar (s : Str) :
    bracketDigitsFrom false ('$' :: s) = '$' :: bracketDigitsFrom false s := by
  simp [bracketDigitsFrom]

/-- The normalized query always starts with `$`. -/
theorem normalizeQuery_head (query : Str) : ∃ r, normalizeQuery query = '$' :: r := by
  have h1 : ∃ s, withRoot (trim query) = '$' :: s := by
    unfold withRoot
    by_cases h : (trim query).head? = some '$'
    · cases ht : trim query with
      | nil => simp [ht] at h
      | cons c s =>
        rw [ht] at h
        simp only [List.head?_cons, Option.some.injEq] at h
        exact ⟨s, by simp [h]⟩
    · exact ⟨'.' :: trim query, by simp [h]⟩
  obtain ⟨s, hs⟩ := h1
  have h2 : ∃ s2, collapseDots ('$' :: s) = '$' :: s2 :=
    ⟨collapseDots s, by simp [collapseDots]⟩
  obtain ⟨s2, hs2⟩ := h2
  have h3 : ∃ s3, stripTrailingDot ('$' :: s2) = '$' :: s3 := by
    unfold stripTrailingDot
    by_cases h : ('$' :: s2).getLast? = some '.'
    · cases s2 with
      | nil => simp at h
      | cons c s2 => exact ⟨(c :: s2).dropLast, by simp [h]⟩
    · exact ⟨s2, by simp [h]⟩
  obtain ⟨s3, hs3⟩ := h3
  refine ⟨bracketDigitsFrom false s3, ?_⟩
  unfold normalizeQuery bracketDigits
  simp only [hs, hs2, hs3, bracketDigitsFrom_dollar]

/-- C4: for every query and every list of node ids (none of them empty, as every node id
begins with `$`), the value `handleSearch` hands to `onResult` is the one of the
four-tier reference definition: nothing for a blank query, else the normalized query if
it is an id, else the first id containing it, else the first id it contains, else the
first id containing it when both are lower-cased, else nothing. -/
theorem handleSearch_eq_reference (toLowerCase : Str → Str) (nodeIds : List Str)
    (query : Str) (hids : ∀ id ∈ nodeIds, id ≠ []) :
    handleSearch toLowerCase nodeIds query = resolveReference toLowerCase nodeIds query := by
  unfold handleSearch resolveReference
  by_cases hq : trim query = []
  · simp [hq]
  · obtain ⟨r, hn⟩ := normalizeQuery_head query
    simp only [hq, List.isEmpty_eq_true, if_false, head_filter_toSet, contains_toSet,
      includes_eq_decide, decide_eq_true_eq]
    generalize normalizeQuery query = n at hn
    subst hn
    by_cases h1 : '$' :: r ∈ nodeIds
    · simp [h1, falsy]
    · simp only [h1, if_false, falsy, if_true]
      cases h2 : nodeIds.find? (fun id => decide ('$' :: r <:+: id)) with
      | some a =>
        have ha : a ≠ [] := hids a (List.mem_of_find?_eq_some h2)
        simp [ha]
      | none =>
        simp only [falsy, if_true]
        cases h3 : nodeIds.find? (fun id => decide (id <:+: '$' :: r)) with
        | some a =>
          have ha : a ≠ [] := hids a (List.mem_of_find?_eq_some h3)
          simp [ha]
        | none => simp [falsy]

theorem handleSearch_eq_reference_witness :
    (∀ id ∈ ["$".toList, "$.User".toList, "$.User.name".toList], id ≠ []) ∧
      handleSearch (List.map Char.toLower) ["$".toList, "$.User".toList, "$.User.name".toList]
          " user.NAME ".toList =
        resolveReference (List.map Char.toLower)
          ["$".toList, "$.User".toList, "$.User.name".toList] " user.NAME ".toList :=
  ⟨by decide, handleSearch_eq_reference _ _ _ (by decide)⟩

/-! ## Normalization of appended strings -/

theorem isDigit_ne_dot {c : Char} (h : isDigit c = true) : c ≠ '.' := by
  intro hc; subst hc; revert h; decide

theorem isDigit_not_ws {c : Char} (h : isDigit c = true) : isWhiteSpace c = false := by
  simp only [isDigit, Bool.and_eq_true, decide_eq_true_eq] at h
  simp only [isWhiteSpace, Bool.or_eq_false_iff, Bool.and_eq_false_imp, decide_eq_false_iff_not,
    decide_eq_true_eq]
  omega

theorem dropWhile_append_of_ne_nil {p : Char → Bool} {a : Str} (b : Str)
    (h : a.dropWhile p ≠ []) : (a ++ b).dropWhile p = a.dropWhile p ++ b := by
  rw [List.dropWhile_append]
  simp [h]

/-- Trimming at the end stops at a character that is no white space. -/
theorem rdropWhile_append_of_last {p : Char → Bool} (a : Str) (c : Char) (b : Str)
    (hc : p c = false) :
    (a ++ c :: b).rdropWhile p = a ++ c :: b.rdropWhile p := by
  unfold List.rdropWhile
  have : (a ++ c :: b).reverse = b.reverse ++ c :: a.reverse := by simp
  rw [this, List.dropWhile_append]
  by_cases h : (b.reverse.dropWhile p).isEmpty = true
  · have h' : b.reverse.dropWhile p = [] := by simpa using h
    simp [h', List.dropWhile_cons, hc]
  · simp [h]

theorem trim_eq (s : Str) : trim s = (s.dropWhile isWhiteSpace).rdropWhile isWhiteSpace := rfl

theorem collapseDots_cons (c : Char) (rest : Str) :
    collapseDots (c :: rest) =
      if c = '.' ∧ rest.head? = some '.' then collapseDots rest else c :: collapseDots rest := by
  rw [collapseDots]

theorem collapseDots_append (a b : Str) (h : a.getLast? ≠ some '.') :
    collapseDots (a ++ b) = collapseDots a ++ collapseDots b := by
  induction a with
  | nil => simp [collapseDots]
  | cons x a ih =>
    cases a with
    | nil =>
      have hx : x ≠ '.' := by simpa using h
      simp [collapseDots, hx]
    | cons y a =>
      have h' : (y :: a).getLast? ≠ some '.' := by simpa [List.getLast?_cons_cons] using h
      have ih' := ih h'
      simp only [List.cons_append] at ih' ⊢
      rw [collapseDots_cons x (y :: (a ++ b)), collapseDots_cons x (y :: a), ih']
      simp only [List.head?_cons]
      by_cases hc : x = '.' ∧ some y = some '.'
      · simp only [hc, and_self, if_true]
      · simp only [hc, if_false, List.cons_append]

theorem collapseDots_of_no_dot (a : Str) (h : ∀ c ∈ a, c ≠ '.') : collapseDots a = a := by
  induction a with
  | nil => rfl
  | cons x a ih =>
    have hx : x ≠ '.' := h x (List.mem_cons_self _ _)
    simp [collapseDots, hx, ih (fun c hc => h c (List.mem_cons_of_mem _ hc))]

theorem collapseDots_head (v : Str) : (collapseDots v).head? = v.head? := by
  induction v with
  | nil => rfl
  | cons c rest ih =>
    by_cases hc : c = '.' ∧ rest.head? = some '.'
    · simp [collapseDots, hc, ih]
    · simp [collapseDots, hc]

theorem stripTrailingDot_append (a b : Str) (h : a.getLast? ≠ some '.') :
    stripTrailingDot (a ++ b) = a ++ stripTrailingDot b := by
  unfold stripTrailingDot
  cases b with
  | nil => simp [h]
  | cons c b =>
    have h1 : (a ++ c :: b).getLast? = (c :: b).getLast? := by
      rw [List.getLast?_append]; simp [List.getLast?_cons]
    rw [h1]
    by_cases h2 : (c :: b).getLast? = some '.'
    · simp only [h2, if_true]
      rw [List.dropLast_append_of_ne_nil _ (by simp)]
    · simp [h2]

theorem stripTrailingDot_head (v : Str) (c : Char)
    (h : (stripTrailingDot v).head? = some c) : v.head? = some c := by
  unfold stripTrailingDot at h
  by_cases h2 : v.getLast? = some '.'
  · simp only [h2, if_true] at h
    cases v with
    | nil => simp at h
    | cons x v =>
      cases v with
      | nil => simp at h
      | cons y v => simpa using h
  · simpa [h2] using h

theorem rdropWhile_head (p : Char → Bool) (v : Str) (c : Char)
    (h : (v.rdropWhile p).head? = some c) : v.head? = some c := by
  have hp : v.rdropWhile p <+: v := List.rdropWhile_prefix p v
  obtain ⟨t, ht⟩ := hp
  cases hv : v.rdropWhile p with
  | nil => simp [hv] at h
  | cons x r =>
    rw [hv] at h ht
    rw [← ht]
    simpa using h

theorem bracketDigitsFrom_cons (st : Bool) (c : Char) (rest : Str) :
    bracketDigitsFrom st (c :: rest) =
      if st = true ∧ isDigit c = true then c :: bracketDigitsFrom true rest
      else
        (if st = true then [']'] else []) ++
          (if c = '.' ∧ (rest.head?.map isDigit) = some true then
            '[' :: bracketDigitsFrom true rest
           else c :: bracketDigitsFrom false rest) := by
  rw [bracketDigitsFrom]

theorem bracketDigitsFrom_true_nil : bracketDigitsFrom true [] = [']'] := by
  rw [bracketDigitsFrom]; rfl

theorem bracketDigitsFrom_false_nil : bracketDigitsFrom false [] = [] := by
  rw [bracketDigitsFrom]; rfl

/-- The scan of a string that a character other than a digit follows does not depend
on what comes after that character. -/
theorem bracketDigitsFrom_append (a : Str) (c : Char) (rest : Str) (hc : isDigit c = false) :
    ∀ st, bracketDigitsFrom st (a ++ c :: rest) =
      bracketDigitsFrom st a ++ bracketDigitsFrom false (c :: rest) := by
  induction a with
  | nil =>
    intro st
    cases st
    · simp [bracketDigitsFrom_false_nil]
    · rw [List.nil_append, bracketDigitsFrom_true_nil, bracketDigitsFrom_cons true,
        bracketDigitsFrom_cons false]
      simp [hc]
  | cons x a ih =>
    intro st
    have hla : ((a ++ c :: rest).head?.map isDigit = some true) ↔
        (a.head?.map isDigit = some true) := by
      cases a with
      | nil => simp [hc]
      | cons y a => simp
    rw [List.cons_append, bracketDigitsFrom_cons st x (a ++ c :: rest),
      bracketDigitsFrom_cons st x a, ih true, ih false]
    by_cases h1 : st = true ∧ isDigit x = true
    · simp only [h1, and_self, if_true, List.cons_append]
    · simp only [h1, if_false, hla]
      by_cases h2 : x = '.' ∧ (a.head?.map isDigit = some true)
      · simp only [h2, and_self, if_true, List.append_assoc, List.cons_append]
      · simp only [h2, if_false, List.append_assoc, List.cons_append]

theorem bracketDigitsFrom_digits_true (d rest : Str) (hd : ∀ c ∈ d, isDigit c = true) :
    bracketDigitsFrom true (d ++ rest) = d ++ bracketDigitsFrom true rest := by
  induction d with
  | nil => rfl
  | cons x d ih =>
    have hx := hd x (List.mem_cons_self _ _)
    rw [List.cons_append, bracketDigitsFrom_cons, ih (fun c hc => hd c (List.mem_cons_of_mem _ hc))]
    simp [hx]

theorem bracketDigitsFrom_digits_false (d rest : Str) (hd : ∀ c ∈ d, isDigit c = true) :
    bracketDigitsFrom false (d ++ rest) = d ++ bracketDigitsFrom false rest := by
  induction d with
  | nil => rfl
  | cons x d ih =>
    have hx := isDigit_ne_dot (hd x (List.mem_cons_self _ _))
    rw [List.cons_append, bracketDigitsFrom_cons, ih (fun c hc => hd c (List.mem_cons_of_mem _ hc))]
    simp [hx]

theorem bracketDigitsFrom_close (v : Str) (hv : ∀ c, v.head? = some c → isDigit c = false) :
    bracketDigitsFrom true v = ']' :: bracketDigitsFrom false v := by
  cases v with
  | nil => rw [bracketDigitsFrom_true_nil, bracketDigitsFrom_false_nil]
  | cons c v =>
    have hc := hv c rfl
    rw [bracketDigitsFrom_cons true, bracketDigitsFrom_cons false]
    simp [hc]

theorem getLast?_dropWhile {p : Char → Bool} {u : Str} (h : u.dropWhile p ≠ []) :
    (u.dropWhile p).getLast? = u.getLast? := by
  obtain ⟨t, ht⟩ := List.dropWhile_suffix (l := u) p
  conv_rhs => rw [← ht]
  rw [List.getLast?_append]
  cases hl : (u.dropWhile p).getLast? with
  | none => exact absurd (List.getLast?_eq_none_iff.1 hl) h
  | some c => rfl

theorem withRoot_append (a b : Str) (h : a ≠ []) : withRoot (a ++ b) = withRoot a ++ b := by
  cases a with
  | nil => exact absurd rfl h
  | cons x a =>
    unfold withRoot
    by_cases hx : x = '$' <;> simp [hx]

theorem withRoot_getLast (a : Str) (h : a ≠ []) : (withRoot a).getLast? = a.getLast? := by
  cases a with
  | nil => exact absurd rfl h
  | cons x a =>
    unfold withRoot
    by_cases hx : x = '$' <;> simp [hx, List.getLast?_cons_cons]

/-- The normalization of a query `u ++ w ++ v` up to the last replacement, for a middle
part `w` that ends in a character that is neither white space nor a dot and on which
collapsing dots does nothing. -/
theorem normalize_split (u w v : Str) (c : Char) (hu : trim u ≠ [])
    (hdot : u.getLast? ≠ some '.') (hws : isWhiteSpace c = false) (hc : c ≠ '.')
    (hcol : ∀ t, collapseDots ((w ++ [c]) ++ t) = (w ++ [c]) ++ collapseDots t) :
    normalizeQuery (u ++ ((w ++ [c]) ++ v)) =
      bracketDigits (collapseDots (withRoot (u.dropWhile isWhiteSpace)) ++ ((w ++ [c]) ++
        stripTrailingDot (collapseDots (v.rdropWhile isWhiteSpace)))) := by
  have hu1 : u.dropWhile isWhiteSpace ≠ [] := by
    intro h; apply hu; rw [trim_eq, h]; rfl
  have hlast : (u.dropWhile isWhiteSpace).getLast? ≠ some '.' := by
    rw [getLast?_dropWhile hu1]; exact hdot
  have htrim : trim (u ++ ((w ++ [c]) ++ v)) =
      u.dropWhile isWhiteSpace ++ ((w ++ [c]) ++ v.rdropWhile isWhiteSpace) := by
    rw [trim_eq, dropWhile_append_of_ne_nil _ hu1]
    have := rdropWhile_append_of_last (u.dropWhile isWhiteSpace ++ w) c v hws
    simpa [List.append_assoc] using this
  unfold normalizeQuery
  rw [htrim]
  rw [withRoot_append _ _ hu1, collapseDots_append _ _ (by rw [withRoot_getLast _ hu1]; exact hlast),
    hcol, ← List.append_assoc, stripTrailingDot_append, List.append_assoc]
  rw [List.getLast?_append]
  simp [hc]

/-! ## Dotted and bracketed indices (C6) -/

theorem getLast?_snoc (w : Str) (c : Char) : (w ++ [c]).getLast? = some c := by
  simp

/-- C6: for every string `u` that is not blank and does not end with a dot, every
non-empty string `d` of decimal digits and every string `v` that does not begin with a
digit, the queries `u + "." + d + v` and `u + "[" + d + "]" + v` have the same
normalized form. -/
theorem dotted_index_eq_bracketed (u d v : Str) (hu : trim u ≠ [])
    (hdot : u.getLast? ≠ some '.') (hd : d ≠ []) (hdig : ∀ c ∈ d, isDigit c = true)
    (hv : ∀ c, v.head? = some c → isDigit c = false) :
    normalizeQuery (u ++ '.' :: (d ++ v)) = normalizeQuery (u ++ '[' :: (d ++ ']' :: v)) := by
  have hnodot : ∀ c ∈ d, c ≠ '.' := fun c hc => isDigit_ne_dot (hdig c hc)
  obtain ⟨d0, dl, rfl⟩ : ∃ d0 dl, d = d0 ++ [dl] :=
    ⟨d.dropLast, d.getLast hd, (List.dropLast_append_getLast hd).symm⟩
  have hdl : isDigit dl = true := hdig dl (by simp)
  -- the dotted query
  have h1 := normalize_split u ('.' :: d0) v dl hu hdot (isDigit_not_ws hdl)
    (isDigit_ne_dot hdl) (by
      intro t
      rw [collapseDots_append _ _ (by
        rw [getLast?_snoc]; simpa using isDigit_ne_dot hdl)]
      congr 1
      have : ¬ (d0 ++ [dl]).head? = some '.' := by
        intro h
        exact hnodot '.' (List.mem_of_mem_head? h) rfl
      rw [List.cons_append, collapseDots_cons, collapseDots_of_no_dot _ hnodot,
        if_neg (fun h => this h.2)])
  -- the bracketed query
  have h2 := normalize_split u ('[' :: (d0 ++ [dl])) v ']' hu hdot (by decide) (by decide) (by
      intro t
      rw [collapseDots_append _ _ (by rw [getLast?_snoc]; decide)]
      congr 1
      apply collapseDots_of_no_dot
      intro c hc
      simp only [List.cons_append, List.mem_cons, List.mem_append, List.mem_singleton,
        List.not_mem_nil, or_false] at hc
      rcases hc with rfl | hc | rfl
      · decide
      · exact hnodot c (by simpa using hc)
      · decide)
  have e1 : u ++ '.' :: ((d0 ++ [dl]) ++ v) = u ++ ((('.' :: d0) ++ [dl]) ++ v) := by simp
  have e2 : u ++ '[' :: ((d0 ++ [dl]) ++ ']' :: v) =
      u ++ ((('[' :: (d0 ++ [dl])) ++ [']']) ++ v) := by simp
  rw [e1, e2, h1, h2]
  generalize collapseDots (withRoot (u.dropWhile isWhiteSpace)) = U
  have hV : ∀ c, (stripTrailingDot (collapseDots (v.rdropWhile isWhiteSpace))).head? = some c →
      isDigit c = false := by
    intro c h
    apply hv
    apply rdropWhile_head isWhiteSpace
    rw [← collapseDots_head]
    exact stripTrailingDot_head _ _ h
  generalize stripTrailingDot (collapseDots (v.rdropWhile isWhiteSpace)) = V at hV
  unfold bracketDigits
  have hd0 : ∀ c ∈ d0 ++ [dl], isDigit c = true := hdig
  have l1 : U ++ ((('.' :: d0) ++ [dl]) ++ V) = U ++ '.' :: ((d0 ++ [dl]) ++ V) := by simp
  have l2 : U ++ ((('[' :: (d0 ++ [dl])) ++ [']']) ++ V) =
      U ++ '[' :: ((d0 ++ [dl]) ++ ']' :: V) := by simp
  rw [l1, l2, bracketDigitsFrom_append U '.' _ (by decide),
    bracketDigitsFrom_append U '[' _ (by decide)]
  congr 1
  rw [bracketDigitsFrom_cons, bracketDigitsFrom_cons false '[']
  have hhead : ((d0 ++ [dl]) ++ V).head?.map isDigit = some true := by
    cases d0 with
    | nil => simp [hdl]
    | cons x d0 => simp [hdig x (by simp)]
  simp only [hhead, Bool.false_eq_true, false_and, if_false, and_self, if_true, List.nil_append]
  rw [bracketDigitsFrom_digits_true _ _ hd0, bracketDigitsFrom_digits_false _ _ hd0,
    bracketDigitsFrom_close V hV, bracketDigitsFrom_cons false ']']
  simp

theorem dotted_index_eq_bracketed_witness :
    (trim "items".toList ≠ [] ∧ "items".toList.getLast? ≠ some '.' ∧ "0".toList ≠ [] ∧
      (∀ c ∈ "0".toList, isDigit c = true) ∧
      (∀ c, ".price".toList.head? = some c → isDigit c = false)) ∧
    normalizeQuery ("items".toList ++ '.' :: ("0".toList ++ ".price".toList)) =
      normalizeQuery ("items".toList ++ '[' :: ("0".toList ++ ']' :: ".price".toList)) :=
  ⟨⟨by decide, by decide, by decide, by decide, by decide⟩,
    dotted_index_eq_bracketed _ _ _ (by decide) (by decide) (by decide) (by decide) (by decide)⟩

/-! ## Conditions on the object keys of a document -/

theorem keysAllEntries_iff (p : Str → Bool) (entries : List (Str × Json)) :
    keysAllEntries p entries = true ↔
      ∀ kv ∈ entries, p kv.1 = true ∧ kv.2.keysAll p = true := by
  induction entries with
  | nil => simp [keysAllEntries]
  | cons kv rest ih => obtain ⟨k, v⟩ := kv; simp [keysAllEntries, ih, and_assoc]

theorem keysAllItems_iff (p : Str → Bool) (items : List Json) :
    keysAllItems p items = true ↔ ∀ v ∈ items, v.keysAll p = true := by
  induction items with
  | nil => simp [keysAllItems]
  | cons v rest ih => simp [keysAllItems, ih]

theorem mem_children_arr {items : List Json} {kc : Key × Json}
    (h : kc ∈ children (.arr items)) : ∃ i, kc.1 = .idx i ∧ kc.2 ∈ items := by
  simp only [children, List.mem_map] at h
  obtain ⟨iv, hiv, rfl⟩ := h
  have := List.mem_enumFrom hiv
  exact ⟨iv.1, rfl, by rw [this.2.2]; exact List.getElem_mem _⟩

/-- The keys of a document satisfy `p` when those leading to its children do and the
keys of the children do. -/
theorem keysAll_children (p : Str → Bool) (v : Json) (h : v.keysAll p = true) :
    ∀ kc ∈ children v, kc.1.satisfies p = true ∧ kc.2.keysAll p = true := by
  intro kc hkc
  cases v with
  | prim q => simp [children] at hkc
  | obj entries =>
    simp only [children, List.mem_map] at hkc
    obtain ⟨kv, hkv, rfl⟩ := hkc
    rw [Json.keysAll, keysAllEntries_iff] at h
    exact h kv hkv
  | arr items =>
    obtain ⟨i, hi, hmem⟩ := mem_children_arr hkc
    rw [Json.keysAll, keysAllItems_iff] at h
    exact ⟨by rw [hi]; rfl, h _ hmem⟩

theorem distinctKeysEntries_iff (entries : List (Str × Json)) :
    distinctKeysEntries entries = true ↔ ∀ kv ∈ entries, kv.2.distinctKeys = true := by
  induction entries with
  | nil => simp [distinctKeysEntries]
  | cons kv rest ih => obtain ⟨k, v⟩ := kv; simp [distinctKeysEntries, ih]

theorem distinctKeysItems_iff (items : List Json) :
    distinctKeysItems items = true ↔ ∀ v ∈ items, v.distinctKeys = true := by
  induction items with
  | nil => simp [distinctKeysItems]
  | cons v rest ih => simp [distinctKeysItems, ih]

theorem enumFrom_keys_nodup {α : Type} (l : List α) : ∀ n,
    ((l.enumFrom n).map fun iv => Key.idx iv.1).Nodup ∧
      ∀ k ∈ (l.enumFrom n).map (fun iv => Key.idx iv.1), ∃ i, k = Key.idx i ∧ n ≤ i := by
  induction l with
  | nil => intro n; simp
  | cons a rest ih =>
    intro n
    obtain ⟨h1, h2⟩ := ih (n + 1)
    refine ⟨?_, ?_⟩
    · simp only [List.enumFrom_cons, List.map_cons, List.nodup_cons]
      refine ⟨?_, h1⟩
      intro hmem
      obtain ⟨i, hi, hle⟩ := h2 _ hmem
      simp only [Key.idx.injEq] at hi
      omega
    · intro k hk
      simp only [List.enumFrom_cons, List.map_cons, List.mem_cons] at hk
      rcases hk with rfl | hk
      · exact ⟨n, rfl, le_refl _⟩
      · obtain ⟨i, hi, hle⟩ := h2 k hk
        exact ⟨i, hi, by omega⟩

/-- In a document whose objects have distinct keys, the children of a value are reached
under distinct keys, and the objects of the children have distinct keys. -/
theorem distinctKeys_children (v : Json) (h : v.distinctKeys = true) :
    ((children v).map (·.1)).Nodup ∧ ∀ kc ∈ children v, kc.2.distinctKeys = true := by
  cases v with
  | prim q => simp [children]
  | obj entries =>
    simp only [Json.distinctKeys, Bool.and_eq_true, decide_eq_true_eq,
      distinctKeysEntries_iff] at h
    refine ⟨?_, ?_⟩
    · simp only [children, List.map_map]
      have : ((fun kc : Key × Json => kc.1) ∘ fun kv : Str × Json => (Key.name kv.1, kv.2)) =
          Key.name ∘ (fun kv => kv.1) := rfl
      rw [this, ← List.map_map]
      exact h.1.map (fun a b hab => Key.name.inj hab)
    · intro kc hkc
      simp only [children, List.mem_map] at hkc
      obtain ⟨kv, hkv, rfl⟩ := hkc
      exact h.2 kv hkv
  | arr items =>
    simp only [Json.distinctKeys, distinctKeysItems_iff] at h
    refine ⟨?_, ?_⟩
    · simp only [children, List.map_map]
      exact (enumFrom_keys_nodup items 0).1
    · intro kc hkc
      obtain ⟨i, _, hmem⟩ := mem_children_arr hkc
      exact h _ hmem

/-! ## Decimal renderings -/

theorem digitChar_isDigit (m : Nat) (h : m < 10) : isDigit (Nat.digitChar m) = true := by
  interval_cases m <;> decide

theorem digitChar_value (m : Nat) (h : m < 10) : (Nat.digitChar m).toNat - 48 = m := by
  interval_cases m <;> decide

theorem toDigitsCore_isDigit : ∀ (fuel n : Nat) (ds : Str), (∀ c ∈ ds, isDigit c = true) →
    ∀ c ∈ Nat.toDigitsCore 10 fuel n ds, isDigit c = true := by
  intro fuel
  induction fuel with
  | zero => intro n ds h; simpa [Nat.toDigitsCore] using h
  | succ fuel ih =>
    intro n ds h
    have hd : ∀ c ∈ Nat.digitChar (n % 10) :: ds, isDigit c = true := by
      intro c hc
      rcases List.mem_cons.1 hc with rfl | hc
      · exact digitChar_isDigit _ (Nat.mod_lt _ (by norm_num))
      · exact h c hc
    simp only [Nat.toDigitsCore]
    split
    · exact hd
    · exact ih _ _ hd

/-- The decimal rendering of a number consists of digits. -/
theorem decimal_isDigit (n : Nat) : ∀ c ∈ decimal n, isDigit c = true :=
  toDigitsCore_isDigit _ _ _ (by simp)

theorem toDigitsCore_value : ∀ (fuel n : Nat) (ds : Str), n < fuel →
    decimalValue (Nat.toDigitsCore 10 fuel n ds) = n * 10 ^ ds.length + decimalValue ds := by
  intro fuel
  induction fuel with
  | zero => intro n ds h; omega
  | succ fuel ih =>
    intro n ds h
    simp only [Nat.toDigitsCore]
    have hmod := digitChar_value (n % 10) (Nat.mod_lt _ (by norm_num))
    split
    · rename_i h0
      have h1 : n % 10 = n := by omega
      simp only [decimalValue, hmod]
      rw [h1]
    · rename_i h0
      rw [ih (n / 10) _ (by omega)]
      simp only [decimalValue, hmod, List.length_cons, pow_succ]
      have h1 := Nat.div_add_mod n 10
      generalize 10 ^ ds.length = P
      generalize n / 10 = a at h1
      generalize n % 10 = b at h1
      subst h1
      ring

/-- The decimal rendering of a number stands for that number. -/
theorem decimal_value (n : Nat) : decimalValue (decimal n) = n := by
  have := toDigitsCore_value (n + 1) n [] (by omega)
  simpa [decimal, Nat.toDigits, decimalValue] using this

theorem decimal_injective {i j : Nat} (h : decimal i = decimal j) : i = j := by
  have := congrArg decimalValue h
  simpa [decimal_value] using this

/-! ## Round trip of node ids through the normalization (C3) -/

theorem clean_cons (c : Char) (rest : Str) :
    clean (c :: rest) = (!(c == '.' && (match rest.head? with
      | some d => d == '.' || isDigit d
      | none => false)) && clean rest) := by
  rw [clean]

theorem clean_append (a b : Str) (ha : clean a = true) (hb : clean b = true)
    (hlast : a.getLast? ≠ some '.') : clean (a ++ b) = true := by
  induction a with
  | nil => simpa using hb
  | cons x a ih =>
    cases a with
    | nil =>
      have hx : x ≠ '.' := by simpa using hlast
      rw [List.cons_append, List.nil_append, clean_cons]
      simp [hx, hb]
    | cons y a =>
      have h' : (y :: a).getLast? ≠ some '.' := by simpa [List.getLast?_cons_cons] using hlast
      rw [clean_cons] at ha
      simp only [Bool.and_eq_true] at ha
      have ih' := ih ha.2 h'
      rw [List.cons_append, clean_cons]
      simp only [Bool.and_eq_true]
      exact ⟨ha.1, ih'⟩

theorem clean_of_no_dot (a : Str) (h : ∀ c ∈ a, c ≠ '.') : clean a = true := by
  induction a with
  | nil => rfl
  | cons x a ih =>
    have hx : x ≠ '.' := h x (List.mem_cons_self _ _)
    rw [clean_cons]
    simp [hx, ih (fun c hc => h c (List.mem_cons_of_mem _ hc))]

theorem collapseDots_of_clean (a : Str) (h : clean a = true) : collapseDots a = a := by
  induction a with
  | nil => rfl
  | cons x a ih =>
    rw [clean_cons] at h
    simp only [Bool.and_eq_true] at h
    rw [collapseDots_cons, ih h.2]
    have : ¬ (x = '.' ∧ a.head? = some '.') := by
      rintro ⟨rfl, h2⟩
      have := h.1
      simp [h2] at this
    simp only [this, if_false]

theorem bracketDigitsFrom_of_clean (a : Str) (h : clean a = true) :
    bracketDigitsFrom false a = a := by
  induction a with
  | nil => exact bracketDigitsFrom_false_nil
  | cons x a ih =>
    rw [clean_cons] at h
    simp only [Bool.and_eq_true] at h
    rw [bracketDigitsFrom_cons, ih h.2]
    have : ¬ (x = '.' ∧ a.head?.map isDigit = some true) := by
      rintro ⟨rfl, h2⟩
      have h1 := h.1
      cases a with
      | nil => simp at h2
      | cons y a =>
        simp only [List.head?_cons, Option.map_some', Option.some.injEq] at h2
        simp [h2] at h1
    rw [if_neg this]
    simp

theorem stripTrailingDot_of_endsWell (a : Str) (h : endsWell a = true) :
    stripTrailingDot a = a := by
  unfold stripTrailingDot
  unfold endsWell at h
  cases hl : a.getLast? with
  | none => simp
  | some c =>
    rw [hl] at h
    have : c ≠ '.' := by
      intro hc; subst hc; simp at h
    simp [this]

theorem rdropWhile_of_endsWell (a : Str) (h : endsWell a = true) :
    a.rdropWhile isWhiteSpace = a := by
  rw [List.rdropWhile_eq_self_iff]
  intro hne
  unfold endsWell at h
  rw [List.getLast?_eq_getLast _ hne] at h
  simp only [Bool.and_eq_true, Bool.not_eq_eq_eq_not, Bool.not_true] at h
  simp [h.2]

/-- The normalization of `handleSearch` leaves a canonical path alone. -/
theorem normalizeQuery_of_canonical (p : Str) (h : canonical p = true) :
    normalizeQuery p = p := by
  unfold canonical at h
  simp only [Bool.and_eq_true, beq_iff_eq] at h
  obtain ⟨⟨h1, h2⟩, h3⟩ := h
  have htrim : trim p = p := by
    rw [trim_eq]
    cases p with
    | nil => simp at h1
    | cons c r =>
      simp only [List.head?_cons, Option.some.injEq] at h1
      subst h1
      have : List.dropWhile isWhiteSpace ('$' :: r) = '$' :: r := by
        rw [List.dropWhile_cons]; rfl
      rw [this]
      exact rdropWhile_of_endsWell _ h3
  unfold normalizeQuery
  rw [htrim]
  unfold withRoot bracketDigits
  rw [if_pos h1, collapseDots_of_clean p h2, stripTrailingDot_of_endsWell p h3,
    bracketDigitsFrom_of_clean p h2]

theorem endsWell_append (a b : Str) (hb : b ≠ []) : endsWell (a ++ b) = endsWell b := by
  unfold endsWell
  rw [List.getLast?_append]
  cases hl : b.getLast? with
  | none => exact absurd (List.getLast?_eq_none_iff.1 hl) hb
  | some c => rfl

theorem getLast?_ne_dot_of_endsWell (a : Str) (h : endsWell a = true) :
    a.getLast? ≠ some '.' := by
  unfold endsWell at h
  intro hl
  rw [hl] at h
  simp at h

theorem canonical_segOf (path : Str) (key : Key) (hp : canonical path = true)
    (hkey : key.satisfies roundTripKey = true) (hne : key ≠ .none) :
    canonical (path ++ segOf key) = true := by
  unfold canonical at hp ⊢
  simp only [Bool.and_eq_true, beq_iff_eq] at hp ⊢
  obtain ⟨⟨h1, h2⟩, h3⟩ := hp
  have hseg : segOf key ≠ [] := List.length_pos.1 (segOf_length_pos hne)
  have hhead : (path ++ segOf key).head? = some '$' := by
    cases path with
    | nil => simp at h1
    | cons c r => simpa using h1
  have hgoal : clean (segOf key) = true ∧ endsWell (segOf key) = true := by
    cases key with
    | none => exact absurd rfl hne
    | idx i =>
      refine ⟨clean_of_no_dot _ ?_, ?_⟩
      · intro c hc
        simp only [segOf, List.mem_cons, List.mem_append, List.mem_singleton,
          List.not_mem_nil, or_false] at hc
        rcases hc with rfl | hc | rfl
        · decide
        · exact isDigit_ne_dot (decimal_isDigit i c hc)
        · decide
      · have : (segOf (.idx i)).getLast? = some ']' := by
          have : segOf (.idx i) = ('[' :: decimal i) ++ [']'] := by simp [segOf]
          rw [this, getLast?_snoc]
        unfold endsWell
        rw [this]
        decide
    | name k =>
      simp only [Key.satisfies, roundTripKey, Bool.and_eq_true, Bool.not_eq_eq_eq_not,
        Bool.not_true, List.isEmpty_eq_false] at hkey
      obtain ⟨⟨hk1, hk2⟩, hk3⟩ := hkey
      refine ⟨hk3, ?_⟩
      simp only [segOf, sepOf]
      split
      · exact hk2
      · have := endsWell_append ['.'] k hk1
        simpa using this.trans hk2
  exact ⟨⟨hhead, clean_append _ _ h2 hgoal.1 (getLast?_ne_dot_of_endsWell _ h3)⟩,
    (endsWell_append _ _ hseg).trans hgoal.2⟩

/-- In a document whose keys all round-trip, every id of a subtree rooted at a canonical
path is canonical. -/
theorem idsOf_canonical (v : Json) : ∀ path, canonical path = true →
    v.keysAll roundTripKey = true → ∀ q ∈ idsOf v path, canonical q = true := by
  induction v using Json.induct_children with
  | h v ih =>
    intro path hp hkeys q hq
    rw [idsOf_eq] at hq
    rcases List.mem_cons.1 hq with rfl | hq
    · exact hp
    · obtain ⟨kc, hkc, hq⟩ := List.mem_flatMap.1 hq
      have hk := keysAll_children _ v hkeys kc hkc
      exact ih kc hkc _ (canonical_segOf path kc.1 hp hk.1 (children_key_ne_none hkc)) hk.2 q hq

/-- C3 as stated fails: the node id `$.0` of the document `{"0": 1}` normalizes to
`$[0]`. -/
theorem round_trip_counterexample :
    ∃ flow, buildFlowFromJson 3 (.obj [("0".toList, .prim (.num "1".toList))]) = some flow ∧
      "$.0".toList ∈ flow.nodes.map (·.id) ∧
      normalizeQuery "$.0".toList = "$[0]".toList ∧
      normalizeQuery "$.0".toList ≠ "$.0".toList := by
  refine ⟨_, rfl, ?_, ?_, ?_⟩ <;> decide

/-- C3, amended: for every JSON value each of whose object keys is non-empty, does not
end in a dot or white space, and yields a path segment (`.key`, or the key itself when
it begins with `[`) without a dot followed by a dot or a digit, `buildFlowFromJson`
returns (with enough fuel) node ids each of which the query normalization of
`handleSearch` maps to itself. -/
theorem round_trip_amended (json : Json) (k : Nat)
    (hkeys : json.keysAll roundTripKey = true) :
    ∃ flow, buildFlowFromJson (fuelFor json + k) json = some flow ∧
      ∀ p ∈ flow.nodes.map (·.id), normalizeQuery p = p := by
  obtain ⟨flow, h1, h2, _⟩ := buildFlow_ids json k
  refine ⟨flow, h1, ?_⟩
  intro p hp
  rw [h2] at hp
  exact normalizeQuery_of_canonical p (idsOf_canonical json ['$'] (by decide) hkeys p hp)

theorem round_trip_amended_witness :
    (Json.obj [("user.name".toList, .arr [.prim (.str "x".toList)]),
        ("[tags]".toList, .obj [("a b".toList, .prim .null)])]).keysAll roundTripKey = true ∧
    ∃ flow, buildFlowFromJson
        (fuelFor (.obj [("user.name".toList, .arr [.prim (.str "x".toList)]),
          ("[tags]".toList, .obj [("a b".toList, .prim .null)])]) + 0)
        (.obj [("user.name".toList, .arr [.prim (.str "x".toList)]),
          ("[tags]".toList, .obj [("a b".toList, .prim .null)])]) = some flow ∧
      ∀ p ∈ flow.nodes.map (·.id), normalizeQuery p = p :=
  ⟨by decide, round_trip_amended _ 0 (by decide)⟩

/-! ## Distinct node ids (C1) and the tree of edges (C2) -/

theorem segOf_sepStart {key : Key} (h : key ≠ .none) (r : Str) :
    sepStart (segOf key ++ r) = true := by
  cases key with
  | none => exact absurd rfl h
  | idx i => simp [segOf, sepStart]
  | name k =>
    simp only [segOf, sepOf]
    cases k with
    | nil => simp [startsWithBracket, sepStart]
    | cons c k =>
      by_cases hc : c = '['
      · subst hc; simp [startsWithBracket, sepStart]
      · simp [startsWithBracket, hc, sepStart]

/-- Every id of a subtree is the path of its root followed by nothing or by a text that
starts with a separator. -/
theorem idsOf_suffix (v : Json) (path q : Str) (hq : q ∈ idsOf v path) :
    ∃ r, q = path ++ r ∧ sepStart r = true := by
  rw [idsOf_eq] at hq
  rcases List.mem_cons.1 hq with rfl | hq
  · exact ⟨[], by simp, rfl⟩
  · obtain ⟨kc, hkc, hq⟩ := List.mem_flatMap.1 hq
    obtain ⟨r, rfl⟩ := idsOf_prefix _ _ _ hq
    exact ⟨segOf kc.1 ++ r, by simp, segOf_sepStart (children_key_ne_none hkc) r⟩

theorem takeWhile_append_stop (p : Char → Bool) (a b : Str) (ha : ∀ c ∈ a, p c = true)
    (hb : ∀ c, b.head? = some c → p c = false) : (a ++ b).takeWhile p = a := by
  induction a with
  | nil =>
    cases b with
    | nil => rfl
    | cons c b => simp [List.takeWhile_cons, hb c rfl]
  | cons x a ih =>
    have hx := ha x (List.mem_cons_self _ _)
    simp [List.takeWhile_cons, hx, ih (fun c hc => ha c (List.mem_cons_of_mem _ hc))]

theorem plainKey_sepOf {k : Str} (h : plainKey k = true) : sepOf k = '.' :: k := by
  unfold sepOf
  cases k with
  | nil => simp [startsWithBracket]
  | cons c k =>
    simp only [plainKey, List.all_cons, Bool.and_eq_true, Bool.not_eq_eq_eq_not, Bool.not_true,
      beq_eq_false_iff_ne, ne_eq] at h
    simp [startsWithBracket, h.1.2]

/-- Two path segments for different keys never begin the same text, when object keys
contain no separator. -/
theorem segOf_append_ne {k1 k2 : Key} (hne : k1 ≠ k2) (h1 : k1 ≠ .none) (h2 : k2 ≠ .none)
    (hp1 : k1.satisfies plainKey = true) (hp2 : k2.satisfies plainKey = true)
    (r1 r2 : Str) (hr1 : sepStart r1 = true) (hr2 : sepStart r2 = true) :
    segOf k1 ++ r1 ≠ segOf k2 ++ r2 := by
  intro heq
  have hstop : ∀ r, sepStart r = true →
      ∀ c, r.head? = some c → (!(c == '.') && !(c == '[')) = false := by
    intro r hr c hc
    unfold sepStart at hr
    rw [hc] at hr
    simp only [Bool.or_eq_true, beq_iff_eq] at hr
    rcases hr with rfl | rfl <;> decide
  cases k1 with
  | none => exact h1 rfl
  | idx i =>
    cases k2 with
    | none => exact h2 rfl
    | idx j =>
      simp only [segOf, List.cons_append, List.cons.injEq, true_and, List.append_assoc,
        List.nil_append] at heq
      have e1 := takeWhile_append_stop isDigit (decimal i) (']' :: r1) (decimal_isDigit i)
        (by intro c hc; simp at hc; subst hc; decide)
      have e2 := takeWhile_append_stop isDigit (decimal j) (']' :: r2) (decimal_isDigit j)
        (by intro c hc; simp at hc; subst hc; decide)
      rw [heq, e2] at e1
      exact hne (by rw [decimal_injective e1.symm])
    | name k =>
      simp only [Key.satisfies] at hp2
      rw [segOf, segOf, plainKey_sepOf hp2] at heq
      simp at heq
  | name k =>
    simp only [Key.satisfies] at hp1
    cases k2 with
    | none => exact h2 rfl
    | idx j =>
      rw [segOf, segOf, plainKey_sepOf hp1] at heq
      simp at heq
    | name k' =>
      simp only [Key.satisfies] at hp2
      rw [segOf, segOf, plainKey_sepOf hp1, plainKey_sepOf hp2] at heq
      simp only [List.cons_append, List.cons.injEq, true_and] at heq
      have e1 := takeWhile_append_stop (fun c => !(c == '.') && !(c == '[')) k r1
        (by simpa [plainKey] using hp1) (hstop r1 hr1)
      have e2 := takeWhile_append_stop (fun c => !(c == '.') && !(c == '[')) k' r2
        (by simpa [plainKey] using hp2) (hstop r2 hr2)
      rw [heq, e2] at e1
      exact hne (by rw [e1])

/-- In a document whose objects have distinct keys without separators, the ids of a
subtree are pairwise distinct. -/
theorem idsOf_nodup (v : Json) : ∀ path, v.distinctKeys = true →
    v.keysAll plainKey = true → (idsOf v path).Nodup := by
  induction v using Json.induct_children with
  | h v ih =>
    intro path hd hp
    have hdc := distinctKeys_children v hd
    have hpc := keysAll_children plainKey v hp
    rw [idsOf_eq, List.nodup_cons]
    refine ⟨?_, ?_⟩
    · intro hmem
      have := idsOf_tail_length v path path (by rw [idsOf_eq]; exact hmem)
      omega
    · rw [List.nodup_flatMap]
      refine ⟨fun kc hkc => ih kc hkc _ (hdc.2 kc hkc) (hpc kc hkc).2, ?_⟩
      have hpw : List.Pairwise (fun a b : Key × Json => a.1 ≠ b.1) (children v) :=
        List.pairwise_map.1 hdc.1
      refine hpw.imp_of_mem ?_
      intro a b ha hb hab
      simp only [Function.onFun]
      intro q hqa hqb
      obtain ⟨r1, rfl, hr1⟩ := idsOf_suffix _ _ _ hqa
      obtain ⟨r2, heq, hr2⟩ := idsOf_suffix _ _ _ hqb
      simp only [List.append_assoc, List.append_cancel_left_eq] at heq
      exact segOf_append_ne hab (children_key_ne_none ha) (children_key_ne_none hb)
        (hpc a ha).1 (hpc b hb).1 r1 r2 hr1 hr2 heq

/-- C1 as stated fails: the document `{"a": {"b": 1}, "a.b": 2}`, whose objects have
distinct keys, gets the id `$.a.b` twice. -/
theorem distinct_ids_counterexample :
    (Json.obj [("a".toList, .obj [("b".toList, .prim (.num "1".toList))]),
        ("a.b".toList, .prim (.num "2".toList))]).distinctKeys = true ∧
    ∃ flow, buildFlowFromJson 6
        (.obj [("a".toList, .obj [("b".toList, .prim (.num "1".toList))]),
          ("a.b".toList, .prim (.num "2".toList))]) = some flow ∧
      flow.nodes.map (·.id) =
        ["$".toList, "$.a".toList, "$.a.b".toList, "$.a.b".toList] ∧
      ¬ (flow.nodes.map (·.id)).Nodup := by
  refine ⟨by decide, _, rfl, ?_, ?_⟩ <;> decide

/-- C1, amended: for every JSON value whose objects have pairwise distinct keys none of
which contains `.` or `[`, the node records `buildFlowFromJson` returns (with enough
fuel) have pairwise distinct ids. -/
theorem distinct_ids_amended (json : Json) (k : Nat) (hd : json.distinctKeys = true)
    (hp : json.keysAll plainKey = true) :
    ∃ flow, buildFlowFromJson (fuelFor json + k) json = some flow ∧
      (flow.nodes.map (·.id)).Nodup := by
  obtain ⟨flow, h1, h2, _⟩ := buildFlow_ids json k
  exact ⟨flow, h1, by rw [h2]; exact idsOf_nodup json _ hd hp⟩

theorem distinct_ids_amended_witness :
    ((Json.obj [("user".toList, .obj [("name".toList, .prim (.str "A".toList))]),
        ("items".toList, .arr [.prim .null, .arr []])]).distinctKeys = true ∧
      (Json.obj [("user".toList, .obj [("name".toList, .prim (.str "A".toList))]),
        ("items".toList, .arr [.prim .null, .arr []])]).keysAll plainKey = true) ∧
    ∃ flow, buildFlowFromJson
        (fuelFor (.obj [("user".toList, .obj [("name".toList, .prim (.str "A".toList))]),
          ("items".toList, .arr [.prim .null, .arr []])]) + 0)
        (.obj [("user".toList, .obj [("name".toList, .prim (.str "A".toList))]),
          ("items".toList, .arr [.prim .null, .arr []])]) = some flow ∧
      (flow.nodes.map (·.id)).Nodup :=
  ⟨⟨by decide, by decide⟩, distinct_ids_amended _ 0 (by decide) (by decide)⟩

theorem filter_target_length (edges : List Edge) (q : Str) :
    (edges.filter fun e => e.target = q).length =
      ((edges.map (·.target)).filter fun t => t = q).length := by
  induction edges with
  | nil => rfl
  | cons e rest ih =>
    by_cases h : e.target = q <;> simp [List.filter_cons, h, ih]

theorem filter_eq_length_of_nodup (l : List Str) (q : Str) (hnd : l.Nodup) (hq : q ∈ l) :
    (l.filter fun t => t = q).length = 1 := by
  induction l with
  | nil => simp at hq
  | cons a rest ih =>
    obtain ⟨h1, h2⟩ := List.nodup_cons.1 hnd
    by_cases ha : a = q
    · subst ha
      have : rest.filter (fun t => decide (t = a)) = [] := by
        rw [List.filter_eq_nil_iff]
        intro t ht
        simp only [decide_eq_true_eq]
        intro hta
        exact h1 (hta ▸ ht)
      simp [List.filter_cons, this]
    · have hq' : q ∈ rest := by
        rcases List.mem_cons.1 hq with h | h
        · exact absurd h.symm ha
        · exact h
      simp [List.filter_cons, ha, ih h2 hq']

/-- C2 as stated fails: in the document `{"a": {"b": 1}, "a.b": 2}`, whose objects have
distinct keys, two edges have the target `$.a.b`. -/
theorem tree_shape_counterexample :
    (Json.obj [("a".toList, .obj [("b".toList, .prim (.num "1".toList))]),
        ("a.b".toList, .prim (.num "2".toList))]).distinctKeys = true ∧
    ∃ flow, buildFlowFromJson 6
        (.obj [("a".toList, .obj [("b".toList, .prim (.num "1".toList))]),
          ("a.b".toList, .prim (.num "2".toList))]) = some flow ∧
      "$.a.b".toList ∈ flow.nodes.map (·.id) ∧
      (flow.edges.filter fun e => e.target = "$.a.b".toList).length = 2 := by
  refine ⟨by decide, _, rfl, ?_, ?_⟩ <;> decide

/-- C2, amended: for every JSON value `buildFlowFromJson` returns (with enough fuel) a
flow no edge of which has the target `$`; and when the traversal of the value yields
pairwise distinct node ids, exactly one edge of that flow has the id of any given node
other than `$` as its target. -/
theorem tree_shape_amended (json : Json) (k : Nat) :
    ∃ flow, buildFlowFromJson (fuelFor json + k) json = some flow ∧
      (∀ e ∈ flow.edges, e.target ≠ ['$']) ∧
      (((build json).nodes.map (·.id)).Nodup →
        ∀ n ∈ flow.nodes, n.id ≠ ['$'] →
          (flow.edges.filter fun e => e.target = n.id).length = 1) := by
  obtain ⟨flow, h1, h2, h3⟩ := buildFlow_ids json k
  refine ⟨flow, h1, ?_, ?_⟩
  · intro e he hroot
    rw [h3] at he
    have hlt := (edgesOf_source json _ e he).2
    have hle := idsOf_length_le json _ _ (edgesOf_source json _ e he).1
    rw [hroot] at hlt
    simp only [List.length_singleton] at hlt hle
    omega
  · intro hnd n hn hne
    have hnd' : (idsOf json ['$']).Nodup := by
      rw [build_eq] at hnd
      exact hnd
    rw [filter_target_length, h3, edgesOf_targets]
    have hmem : n.id ∈ idsOf json ['$'] := by
      rw [← h2]; exact List.mem_map_of_mem _ hn
    rw [← idsOf_cons_tail] at hmem hnd'
    have hmem' : n.id ∈ (idsOf json ['$']).tail := by
      rcases List.mem_cons.1 hmem with h | h
      · exact absurd h hne
      · exact h
    exact filter_eq_length_of_nodup _ _ (List.nodup_cons.1 hnd').2 hmem'

theorem tree_shape_amended_witness :
    ((build (.obj [("user".toList, .obj [("name".toList, .prim (.str "A".toList))]),
        ("items".toList, .arr [.prim .null, .arr []])])).nodes.map (·.id)).Nodup ∧
    ∃ flow, buildFlowFromJson
        (fuelFor (.obj [("user".toList, .obj [("name".toList, .prim (.str "A".toList))]),
          ("items".toList, .arr [.prim .null, .arr []])]) + 0)
        (.obj [("user".toList, .obj [("name".toList, .prim (.str "A".toList))]),
          ("items".toList, .arr [.prim .null, .arr []])]) = some flow ∧
      (∀ e ∈ flow.edges, e.target ≠ ['$']) ∧
      ∀ n ∈ flow.nodes, n.id ≠ ['$'] →
        (flow.edges.filter fun e => e.target = n.id).length = 1 :=
  ⟨by decide,
    (tree_shape_amended _ 0).imp fun _ h => ⟨h.1, h.2.1, h.2.2 (by decide)⟩⟩

/-! ## Subtree sizes (C8) -/

theorem leavesEntries_eq (entries : List (Str × Json)) :
    leavesEntries entries = (entries.map fun kv => kv.2.leaves).sum := by
  induction entries with
  | nil => simp [leavesEntries]
  | cons kv rest ih => obtain ⟨k, v⟩ := kv; simp [leavesEntries, ih]

theorem leavesItems_eq (items : List Json) :
    leavesItems items = (items.map fun v => v.leaves).sum := by
  induction items with
  | nil => simp [leavesItems]
  | cons v rest ih => simp [leavesItems, ih]

/-- A value without children counts one; any other value counts the sum of its
children. -/
theorem leaves_eq (v : Json) :
    v.leaves =
      if (children v).isEmpty then 1 else ((children v).map fun kc => kc.2.leaves).sum := by
  have h := children_values v
  have h2 : ((children v).map fun kc => kc.2.leaves) = ((children v).map (·.2)).map Json.leaves := by
    simp [List.map_map, Function.comp_def]
  rw [h2, h]
  cases v with
  | prim p => simp [Json.leaves, children]
  | obj entries =>
    cases entries with
    | nil => simp [Json.leaves, children]
    | cons kv rest =>
      simp [Json.leaves, children, leavesEntries_eq, List.map_map, Function.comp_def]
  | arr items =>
    cases items with
    | nil => simp [Json.leaves, children]
    | cons w rest =>
      simp [Json.leaves, children, leavesItems_eq, List.enumFrom_cons]

theorem leaves_pos (v : Json) : 0 < v.leaves := by
  induction v using Json.induct_children with
  | h v ih =>
    rw [leaves_eq]
    split
    · exact Nat.one_pos
    · rename_i hne
      obtain ⟨kc, rest, hkc⟩ := List.exists_cons_of_ne_nil (by simpa using hne)
      have := ih kc (by rw [hkc]; exact List.mem_cons_self _ _)
      rw [hkc]
      simp only [List.map_cons, List.sum_cons]
      omega

theorem kids_append (a b : List Edge) (q : Str) : kids (a ++ b) q = kids a q ++ kids b q := by
  simp [kids]

theorem kids_flatMap {α : Type} (l : List α) (f : α → List Edge) (q : Str) :
    kids (l.flatMap f) q = l.flatMap (fun a => kids (f a) q) := by
  induction l with
  | nil => rfl
  | cons a rest ih => simp [List.flatMap_cons, kids_append, ih]

theorem kids_eq_nil {edges : List Edge} {q : Str} (h : ∀ e ∈ edges, e.source ≠ q) :
    kids edges q = [] := by
  unfold kids
  rw [List.map_eq_nil_iff, List.filter_eq_nil_iff]
  intro e he
  simpa using h e he

/-- The ids of the subtree of a child are among the ids of the tree after the first. -/
theorem idsOf_child_mem {v : Json} {kc : Key × Json} (hkc : kc ∈ children v) (path : Str)
    {q : Str} (hq : q ∈ idsOf kc.2 (path ++ segOf kc.1)) : q ∈ (idsOf v path).tail := by
  rw [idsOf_eq v]
  exact List.mem_flatMap.2 ⟨kc, hkc, hq⟩

theorem flatMap_eq_map {α β : Type} (l : List α) (f : α → List β) (g : α → β)
    (h : ∀ a ∈ l, f a = [g a]) : l.flatMap f = l.map g := by
  induction l with
  | nil => rfl
  | cons a rest ih =>
    rw [List.flatMap_cons, h a (List.mem_cons_self _ _),
      ih (fun b hb => h b (List.mem_cons_of_mem _ hb))]
    rfl

theorem idsOf_child_nodup {v : Json} {path : Str} (hnd : (idsOf v path).Nodup)
    {kc : Key × Json} (hkc : kc ∈ children v) : (idsOf kc.2 (path ++ segOf kc.1)).Nodup := by
  rw [idsOf_eq v, List.nodup_cons, List.nodup_flatMap] at hnd
  exact hnd.2.1 kc hkc

theorem idsOf_root_not_mem_child {v : Json} {path : Str}
    {kc : Key × Json} (hkc : kc ∈ children v) : path ∉ idsOf kc.2 (path ++ segOf kc.1) := by
  intro h
  have := idsOf_tail_length v path path (idsOf_child_mem hkc path h)
  omega

/-- The edges leaving the root of a subtree lead to its children, in order. -/
theorem kids_root (v : Json) (path : Str) :
    kids (edgesOf v path) path = (children v).map fun kc => path ++ segOf kc.1 := by
  rw [edgesOf_eq, kids_flatMap]
  apply flatMap_eq_map
  intro kc hkc
  have h1 : kids (edgesOf kc.2 (pathOf path kc.1)) path = [] := by
    apply kids_eq_nil
    intro e he hs
    have := (edgesOf_source kc.2 _ e he).1
    rw [hs, pathOf_eq] at this
    exact idsOf_root_not_mem_child hkc this
  have h2 : kids (mkEdge path (pathOf path kc.1) kc.1.text :: edgesOf kc.2 (pathOf path kc.1)) path
      = pathOf path kc.1 :: kids (edgesOf kc.2 (pathOf path kc.1)) path := by
    simp [kids, mkEdge]
  rw [h2, h1, pathOf_eq]

theorem flatMap_eq_of_pairwise {α β γ : Type} (ids : α → List γ) (term : α → List β) (q : γ) :
    ∀ (l : List α) (a : α), l.Pairwise (fun x y => List.Disjoint (ids x) (ids y)) → a ∈ l →
      q ∈ ids a → (∀ b, q ∉ ids b → term b = []) → l.flatMap term = term a := by
  intro l
  induction l with
  | nil => intro a _ ha; simp at ha
  | cons x rest ih =>
    intro a hpw ha hq hz
    obtain ⟨h1, h2⟩ := List.pairwise_cons.1 hpw
    rw [List.flatMap_cons]
    rcases List.mem_cons.1 ha with rfl | ha'
    · have : rest.flatMap term = [] := by
        rw [List.flatMap_eq_nil_iff]
        intro b hb
        exact hz b (fun hqb => h1 b hb hq hqb)
      rw [this, List.append_nil]
    · rw [hz x (fun hqx => h1 a ha' hqx hq), List.nil_append]
      exact ih a h2 ha' hq hz

/-- With distinct ids, the edges leaving a node of the subtree of a child are those of
the subtree of the child. -/
theorem kids_child (v : Json) (path : Str) (hnd : (idsOf v path).Nodup)
    {kc : Key × Json} (hkc : kc ∈ children v) {q : Str}
    (hq : q ∈ idsOf kc.2 (path ++ segOf kc.1)) :
    kids (edgesOf v path) q = kids (edgesOf kc.2 (path ++ segOf kc.1)) q := by
  have hterm : ∀ b : Key × Json,
      kids (mkEdge path (pathOf path b.1) b.1.text :: edgesOf b.2 (pathOf path b.1)) q =
        kids (edgesOf b.2 (path ++ segOf b.1)) q := by
    intro b
    have hne : path ≠ q := by
      intro h
      subst h
      exact idsOf_root_not_mem_child hkc hq
    simp [kids, mkEdge, hne, pathOf_eq]
  rw [edgesOf_eq, kids_flatMap]
  simp only [hterm]
  rw [idsOf_eq v, List.nodup_cons, List.nodup_flatMap] at hnd
  refine flatMap_eq_of_pairwise (fun b : Key × Json => idsOf b.2 (path ++ segOf b.1)) _ q
    (children v) kc hnd.2.2 hkc hq ?_
  intro b hb
  apply kids_eq_nil
  intro e he hs
  exact hb (hs ▸ (edgesOf_source b.2 _ e he).1)

theorem Sits.child {edges : List Edge} {v : Json} {path : Str} (h : Sits edges v path)
    {kc : Key × Json} (hkc : kc ∈ children v) : Sits edges kc.2 (path ++ segOf kc.1) := by
  refine ⟨idsOf_child_nodup h.1 hkc, ?_⟩
  intro q hq
  rw [h.2 q (List.mem_of_mem_tail (idsOf_child_mem hkc path hq)), kids_child v path h.1 hkc hq]

theorem Sits.kids {edges : List Edge} {v : Json} {path : Str} (h : Sits edges v path) :
    kids edges path = (children v).map fun kc => path ++ segOf kc.1 := by
  rw [h.2 path (by rw [idsOf_eq]; exact List.mem_cons_self _ _), kids_root]

theorem allSome_map_eq {α β : Type} (f : α → Option β) (g : α → β) :
    ∀ (l : List α) (out : List β), (∀ a ∈ l, ∀ b, f a = some b → b = g a) →
      allSome (l.map f) = some out → out = l.map g := by
  intro l
  induction l with
  | nil => intro out _ h; simpa [allSome] using h.symm
  | cons a rest ih =>
    intro out hf h
    cases hfa : f a with
    | none => simp [allSome, hfa] at h
    | some b =>
      simp only [List.map_cons, hfa, allSome, Option.map_eq_some'] at h
      obtain ⟨out', h1, rfl⟩ := h
      rw [ih out' (fun x hx => hf x (List.mem_cons_of_mem _ hx)) h1,
        hf a (List.mem_cons_self _ _) b hfa]
      rfl

theorem foldl_add_eq_sum (l : List Nat) : l.foldl (· + ·) 0 = l.sum := by
  have : ∀ (l : List Nat) (n : Nat), l.foldl (· + ·) n = n + l.sum := by
    intro l
    induction l with
    | nil => intro n; simp
    | cons a rest ih => intro n; simp [ih, Nat.add_assoc]
  simpa using this l 0

/-- With distinct ids, whatever `subtreeSize` without the table returns for the root of a subtree is the
number of childless values of the subtree. -/
theorem subtreeSizePlain_eq_leaves (edges : List Edge) (cm : JsMap (List Str))
    (hcm : ∀ q, (mapGet cm q).getD [] = kids edges q) :
    ∀ (gas : Nat) (v : Json) (path : Str) (s : Nat), Sits edges v path →
      subtreeSizePlain cm gas path = some s → s = v.leaves := by
  intro gas
  induction gas with
  | zero => intro v path s _ h; simp [subtreeSizePlain] at h
  | succ gas ih =>
    intro v path s hsits h
    unfold subtreeSizePlain at h
    simp only [hcm, hsits.kids, List.length_map] at h
    rw [leaves_eq]
    by_cases hc : (children v).length = 0
    · have : children v = [] := List.length_eq_zero.1 hc
      simp only [hc, if_true, Option.some.injEq] at h
      simp [this, h.symm]
    · have hne : (children v).isEmpty = false := by
        cases hcv : children v with
        | nil => simp [hcv] at hc
        | cons a rest => rfl
      simp only [hc, if_false, Option.map_eq_some'] at h
      obtain ⟨sizes, h1, rfl⟩ := h
      rw [List.map_map] at h1
      have := allSome_map_eq _ (fun kc : Key × Json => kc.2.leaves) (children v) sizes
        (fun kc hkc b hb => ih kc.2 _ b (hsits.child hkc) hb) h1
      rw [this, foldl_add_eq_sum, hne]
      rfl

theorem sits_root (json : Json) (hnd : ((build json).nodes.map (·.id)).Nodup) :
    Sits (edgesOf json ['$']) json ['$'] := by
  rw [build_eq] at hnd
  exact ⟨hnd, fun _ _ => rfl⟩

theorem build_edges (json : Json) : (build json).edges = edgesOf json ['$'] := by
  rw [build_eq]

/-- The children map of the layout of a document, and the sizes it yields. -/
theorem layout_sizes (json : Json) (k : Nat) :
    ∃ cm, childrenMap (rootedNodes json) (build json).edges = some cm ∧
      (∀ q, (mapGet cm q).getD [] = kids (edgesOf json ['$']) q) ∧
      ∀ q ∈ idsOf json ['$'], (subtreeSizePlain cm (fuelFor json + k) q).isSome = true := by
  have hg := graph_of_json json
  obtain ⟨cm, h1, h2⟩ := childrenMap_eq (rootedNodes json) (edgesOf json ['$']) hg.source_mem
  refine ⟨cm, by rw [build_edges]; exact h1, h2, ?_⟩
  intro q hq
  have hq' : q ∈ (rootedNodes json).map (·.id) := by rw [rootedNodes_ids]; exact hq
  exact subtreeSizePlain_isSome _ cm (idBound json) h2 hg.source_lt
    (fun e he => hg.length_le _ (hg.target_mem e he)) _ q (hg.length_le q hq')
    (by unfold fuelFor; omega)

/-- C8 as stated fails: for the document `{"a": 1}` the layout computes the subtree size
1 for the root, while the build has 2 node records. -/
theorem root_subtree_size_counterexample :
    ∃ cm memo, childrenMap (rootedNodes (.obj [("a".toList, .prim (.num "1".toList))]))
        (build (.obj [("a".toList, .prim (.num "1".toList))])).edges = some cm ∧
      subtreeSize cm 4 ['$'] [] = some (1, memo) ∧
      (build (.obj [("a".toList, .prim (.num "1".toList))])).nodes.length = 2 ∧
      (buildFlowFromJson 4 (.obj [("a".toList, .prim (.num "1".toList))])).map
        (fun flow => flow.nodes.length) = some 2 := by
  refine ⟨_, _, rfl, rfl, ?_, ?_⟩ <;> decide

/-- C8, amended: for every JSON value whose generated node ids are pairwise distinct, the
`subtreeSize` that `computeLayout` computes (with enough fuel) for the root `$` equals
the number of values of the document that have no children (primitives, empty objects
and empty arrays). -/
theorem root_subtree_size_amended (json : Json) (k : Nat)
    (hnd : ((build json).nodes.map (·.id)).Nodup) :
    ∃ cm memo, childrenMap (rootedNodes json) (build json).edges = some cm ∧
      subtreeSize cm (fuelFor json + k) ['$'] [] = some (json.leaves, memo) := by
  obtain ⟨cm, h1, h2, h3⟩ := layout_sizes json k
  obtain ⟨s, hs⟩ := Option.isSome_iff_exists.1 (h3 ['$'] (root_mem_ids json))
  have hl := subtreeSizePlain_eq_leaves _ cm h2 _ json ['$'] s (sits_root json hnd) hs
  subst hl
  obtain ⟨memo, hm⟩ := subtreeSize_fresh cm _ _ _ hs
  exact ⟨cm, memo, h1, hm⟩

theorem root_subtree_size_amended_witness :
    ((build (.obj [("user".toList, .obj [("name".toList, .prim (.str "A".toList))]),
        ("items".toList, .arr [.prim .null, .arr []])])).nodes.map (·.id)).Nodup ∧
    ∃ cm memo, childrenMap
        (rootedNodes (.obj [("user".toList, .obj [("name".toList, .prim (.str "A".toList))]),
          ("items".toList, .arr [.prim .null, .arr []])]))
        (build (.obj [("user".toList, .obj [("name".toList, .prim (.str "A".toList))]),
          ("items".toList, .arr [.prim .null, .arr []])])).edges = some cm ∧
      subtreeSize cm
        (fuelFor (.obj [("user".toList, .obj [("name".toList, .prim (.str "A".toList))]),
          ("items".toList, .arr [.prim .null, .arr []])]) + 0) ['$'] [] =
        some ((Json.obj [("user".toList, .obj [("name".toList, .prim (.str "A".toList))]),
          ("items".toList, .arr [.prim .null, .arr []])]).leaves, memo) :=
  ⟨by decide, root_subtree_size_amended _ 0 (by decide)⟩

/-! ## Vertical bands (C5) -/

theorem bandsEntries_eq (entries : List (Str × Json)) (path : Str) : ∀ y,
    bandsEntries entries path y =
      bandsKids path (entries.map fun kv => (Key.name kv.1, kv.2)) y := by
  induction entries with
  | nil => intro y; rfl
  | cons kv rest ih => intro y; obtain ⟨k, v⟩ := kv; simp [bandsEntries, bandsKids, ih]

theorem bandsItems_eq (items : List Json) (path : Str) : ∀ idx y,
    bandsItems items path idx y =
      bandsKids path ((items.enumFrom idx).map fun iv => (Key.idx iv.1, iv.2)) y := by
  induction items with
  | nil => intro idx y; rfl
  | cons v rest ih => intro idx y; simp [bandsItems, bandsKids, ih, List.enumFrom_cons]

theorem bandsOf_eq (v : Json) (path : Str) (y : Int) :
    bandsOf v path y =
      { id := path, start := y, size := v.leaves } :: bandsKids path (children v) y := by
  cases v with
  | prim p => simp [bandsOf, children, bandsKids]
  | obj entries => simp only [bandsOf, children, bandsEntries_eq]
  | arr items => simp only [bandsOf, children, bandsItems_eq]

theorem bandsKids_ids (path : Str) (cs : List (Key × Json))
    (ih : ∀ kc ∈ cs, ∀ p y, (bandsOf kc.2 p y).map (·.id) = idsOf kc.2 p) : ∀ y,
    (bandsKids path cs y).map (·.id) = cs.flatMap fun kc => idsOf kc.2 (path ++ segOf kc.1) := by
  induction cs with
  | nil => intro y; rfl
  | cons kc rest ihr =>
    intro y
    simp only [bandsKids, List.map_append, List.flatMap_cons]
    rw [ih kc (List.mem_cons_self _ _), ihr (fun c hc => ih c (List.mem_cons_of_mem _ hc))]

/-- The bands of a subtree are those of its nodes, in order. -/
theorem bandsOf_ids (v : Json) : ∀ path y, (bandsOf v path y).map (·.id) = idsOf v path := by
  induction v using Json.induct_children with
  | h v ih =>
    intro path y
    rw [bandsOf_eq, idsOf_eq, List.map_cons, bandsKids_ids path (children v) ih]

theorem reaches_mono {e1 e2 : List Edge} (h : ∀ e ∈ e1, e ∈ e2) {p q : Str}
    (hr : Reaches e1 p q) : Reaches e2 p q := by
  refine Relation.ReflTransGen.mono ?_ hr
  rintro a b ⟨e, he, h1, h2⟩
  exact ⟨e, h e he, h1, h2⟩

theorem edgesOf_child_subset {v : Json} {kc : Key × Json} (hkc : kc ∈ children v) (path : Str) :
    ∀ e ∈ edgesOf kc.2 (path ++ segOf kc.1), e ∈ edgesOf v path := by
  intro e he
  rw [edgesOf_eq v]
  refine List.mem_flatMap.2 ⟨kc, hkc, List.mem_cons_of_mem _ ?_⟩
  rwa [pathOf_eq]

/-- The root of a subtree reaches every node of the subtree along its edges. -/
theorem reaches_of_mem (v : Json) : ∀ path q, q ∈ idsOf v path →
    Reaches (edgesOf v path) path q := by
  induction v using Json.induct_children with
  | h v ih =>
    intro path q hq
    rw [idsOf_eq] at hq
    rcases List.mem_cons.1 hq with rfl | hq
    · exact Relation.ReflTransGen.refl
    · obtain ⟨kc, hkc, hq⟩ := List.mem_flatMap.1 hq
      refine Relation.ReflTransGen.head ?_
        (reaches_mono (edgesOf_child_subset hkc path) (ih kc hkc _ q hq))
      refine ⟨mkEdge path (pathOf path kc.1) kc.1.text, ?_, rfl, ?_⟩
      · rw [edgesOf_eq v]
        exact List.mem_flatMap.2 ⟨kc, hkc, List.mem_cons_self _ _⟩
      · simp [mkEdge, pathOf_eq]

theorem pitch_eq : NODE_HEIGHT + V_GAP = 100 := by decide

theorem bandsKids_ok (edges : List Edge) (path : Str) (cs : List (Key × Json))
    (ih : ∀ kc ∈ cs, ∀ y, BandsOk edges (bandsOf kc.2 (path ++ segOf kc.1) y) y kc.2.leaves) :
    ∀ y, BandsOk edges (bandsKids path cs y) y (cs.map fun kc => kc.2.leaves).sum := by
  induction cs with
  | nil =>
    intro y
    exact ⟨by intro b hb; simp [bandsKids] at hb, by intro a ha; simp [bandsKids] at ha⟩
  | cons c rest ihr =>
    intro y
    have h1 := ih c (List.mem_cons_self _ _) y
    have h2 := ihr (fun kc hkc => ih kc (List.mem_cons_of_mem _ hkc))
      (y + c.2.leaves * (NODE_HEIGHT + V_GAP))
    rw [pitch_eq] at h2
    have hsum : (((c :: rest).map fun kc => kc.2.leaves).sum : Nat) =
        c.2.leaves + (rest.map fun kc => kc.2.leaves).sum := by simp
    refine ⟨?_, ?_⟩
    · intro b hb
      simp only [bandsKids, List.mem_append, pitch_eq] at hb
      rw [hsum, Nat.cast_add]
      have hS : (0 : Int) ≤ ((rest.map fun kc => kc.2.leaves).sum : Nat) := Int.ofNat_nonneg _
      rcases hb with hb | hb
      · have := h1.1 b hb
        exact ⟨this.1, by linarith [this.2.1], this.2.2⟩
      · have := h2.1 b hb
        have hL : (0 : Int) ≤ (c.2.leaves : Nat) := Int.ofNat_nonneg _
        exact ⟨by linarith [this.1], by linarith [this.2.1], this.2.2⟩
    · intro a ha b hb
      simp only [bandsKids, List.mem_append, pitch_eq] at ha hb
      rcases ha with ha | ha <;> rcases hb with hb | hb
      · exact h1.2 a ha b hb
      · have ha' := (h1.1 a ha).2.1
        have hb' := (h2.1 b hb).1
        exact Or.inr (Or.inr (Or.inl (by linarith)))
      · have ha' := (h2.1 a ha).1
        have hb' := (h1.1 b hb).2.1
        exact Or.inr (Or.inr (Or.inr (by linarith)))
      · exact h2.2 a ha b hb

theorem BandsOk.mono {e1 e2 : List Edge} (h : ∀ e ∈ e1, e ∈ e2) {bands : List Band} {y : Int}
    {total : Nat} (hb : BandsOk e1 bands y total) : BandsOk e2 bands y total := by
  refine ⟨hb.1, ?_⟩
  intro a ha b hb'
  rcases hb.2 a ha b hb' with h1 | h1 | h1 | h1
  · exact Or.inl (reaches_mono h h1)
  · exact Or.inr (Or.inl (reaches_mono h h1))
  · exact Or.inr (Or.inr (Or.inl h1))
  · exact Or.inr (Or.inr (Or.inr h1))

/-- The bands of a subtree nest: each lies within the band of the root, and the bands of
two nodes neither of which reaches the other are disjoint. -/
theorem bandsOf_ok (v : Json) : ∀ path y,
    BandsOk (edgesOf v path) (bandsOf v path y) y v.leaves := by
  induction v using Json.induct_children with
  | h v ih =>
    intro path y
    have hk := bandsKids_ok (edgesOf v path) path (children v)
      (fun kc hkc y => (ih kc hkc _ y).mono (edgesOf_child_subset hkc path)) y
    have hroot : ∀ b ∈ bandsOf v path y, Reaches (edgesOf v path) path b.id := by
      intro b hb
      apply reaches_of_mem
      rw [← bandsOf_ids v path y]
      exact List.mem_map_of_mem _ hb
    have hpos := leaves_pos v
    have hin : ∀ b ∈ bandsKids path (children v) y,
        y ≤ b.start ∧ b.start + b.size * 100 ≤ y + v.leaves * 100 ∧ 0 < b.size := by
      intro b hb
      have hne : (children v).isEmpty = false := by
        cases hc : children v with
        | nil => rw [hc] at hb; simp [bandsKids] at hb
        | cons c rest => rfl
      have := hk.1 b hb
      rw [leaves_eq, hne]
      exact this
    have hmem := hroot
    rw [bandsOf_eq] at hmem ⊢
    refine ⟨?_, ?_⟩
    · intro b hb
      rcases List.mem_cons.1 hb with rfl | hb
      · exact ⟨le_refl _, le_refl _, hpos⟩
      · exact hin b hb
    · intro a ha b hb
      rcases List.mem_cons.1 ha with rfl | ha
      · exact Or.inl (hmem b hb)
      · rcases List.mem_cons.1 hb with rfl | hb
        · exact Or.inr (Or.inl (hmem a (List.mem_cons_of_mem _ ha)))
        · exact hk.2 a ha b hb

theorem bandsKids_forall (P : Band → Prop) (path : Str) (cs : List (Key × Json))
    (h : ∀ kc ∈ cs, ∀ y, ∀ b ∈ bandsOf kc.2 (path ++ segOf kc.1) y, P b) :
    ∀ y, ∀ b ∈ bandsKids path cs y, P b := by
  induction cs with
  | nil => intro y b hb; simp [bandsKids] at hb
  | cons c rest ih =>
    intro y b hb
    simp only [bandsKids, List.mem_append] at hb
    rcases hb with hb | hb
    · exact h c (List.mem_cons_self _ _) y b hb
    · exact ih (fun kc hkc => h kc (List.mem_cons_of_mem _ hkc)) _ b hb

/-- With distinct ids, whatever `subtreeSize` without the table returns for a node is the size of the band
of the node. -/
theorem bandsOf_size (edges : List Edge) (cm : JsMap (List Str))
    (hcm : ∀ q, (mapGet cm q).getD [] = kids edges q) (gas : Nat) (v : Json) :
    ∀ path y, Sits edges v path → ∀ b ∈ bandsOf v path y, ∀ s,
      subtreeSizePlain cm gas b.id = some s → s = b.size := by
  induction v using Json.induct_children with
  | h v ih =>
    intro path y hsits b hb s hs
    rw [bandsOf_eq] at hb
    rcases List.mem_cons.1 hb with rfl | hb
    · exact subtreeSizePlain_eq_leaves edges cm hcm gas v path s hsits hs
    · exact bandsKids_forall (fun b => ∀ s, subtreeSizePlain cm gas b.id = some s → s = b.size)
        path (children v) (fun kc hkc y b hb => ih kc hkc _ y (hsits.child hkc) b hb) y b hb s hs

theorem yOf_setPosition (x y : Int) (q : Str) : ∀ (nodes nodes' : List Node),
    setPosition nodes q x y = some nodes' →
      yOf nodes' q = some y ∧ ∀ q', q' ≠ q → yOf nodes' q' = yOf nodes q' := by
  intro nodes
  induction nodes with
  | nil => intro nodes' h; simp [setPosition] at h
  | cons n rest ih =>
    intro nodes' h
    unfold setPosition at h
    by_cases hn : n.id = q
    · simp only [hn, if_true, Option.some.injEq] at h
      subst h
      refine ⟨by simp [yOf, List.find?_cons, hn], ?_⟩
      intro q' hq'
      have : ¬ q = q' := fun h => hq' h.symm
      simp [yOf, List.find?_cons, hn, this]
    · simp only [hn, if_false, Option.map_eq_some'] at h
      obtain ⟨r', hr, rfl⟩ := h
      obtain ⟨h1, h2⟩ := ih r' hr
      unfold yOf at h1 h2 ⊢
      refine ⟨by simpa [List.find?_cons, hn] using h1, ?_⟩
      intro q' hq'
      by_cases hq2 : n.id = q'
      · simp [List.find?_cons, hq2]
      · simpa [List.find?_cons, hq2] using h2 q' hq'

theorem placeLoopPlain_bands (placeFn : Str → PlainState → Option PlainState)
    (sizeFn : Str → Option Nat) (path : Str) :
    ∀ (cs : List (Key × Json)) (start : Int) (st st' : PlainState),
      (∀ kc ∈ cs, Places placeFn kc.2 (path ++ segOf kc.1)) →
      (∀ kc ∈ cs, ∀ s, sizeFn (path ++ segOf kc.1) = some s → s = kc.2.leaves) →
      cs.Pairwise (fun a b => List.Disjoint (idsOf a.2 (path ++ segOf a.1))
        (idsOf b.2 (path ++ segOf b.1))) →
      placeLoopPlain placeFn sizeFn (cs.map fun kc => path ++ segOf kc.1) start st = some st' →
      (∀ b ∈ bandsKids path cs start,
        yOf st'.nodes b.id = some (b.start + 50 * b.size - 50)) ∧
      ∀ q, (∀ kc ∈ cs, q ∉ idsOf kc.2 (path ++ segOf kc.1)) →
        yOf st'.nodes q = yOf st.nodes q := by
  intro cs
  induction cs with
  | nil =>
    intro start st st' _ _ _ h
    simp only [List.map_nil, placeLoopPlain, Option.some.injEq] at h
    subst h
    exact ⟨by intro b hb; simp [bandsKids] at hb, fun _ _ => rfl⟩
  | cons c rest ih =>
    intro start st st' hplace hsize hdisj h
    obtain ⟨hd1, hd2⟩ := List.pairwise_cons.1 hdisj
    simp only [List.map_cons, placeLoopPlain] at h
    cases h1 : placeFn (path ++ segOf c.1) { st with yCursor := start } with
    | none => simp [h1] at h
    | some st1 =>
      cases h2 : sizeFn (path ++ segOf c.1) with
      | none => simp [h1, h2] at h
      | some csize =>
        simp only [h1, h2] at h
        have hcs := hsize c (List.mem_cons_self _ _) csize h2
        subst hcs
        obtain ⟨p1, p2⟩ := hplace c (List.mem_cons_self _ _) _ _ h1
        obtain ⟨r1, r2⟩ := ih _ _ _ (fun kc hkc => hplace kc (List.mem_cons_of_mem _ hkc))
          (fun kc hkc => hsize kc (List.mem_cons_of_mem _ hkc)) hd2 h
        refine ⟨?_, ?_⟩
        · intro b hb
          simp only [bandsKids, List.mem_append] at hb
          rcases hb with hb | hb
          · have hbid : b.id ∈ idsOf c.2 (path ++ segOf c.1) := by
              rw [← bandsOf_ids c.2 _ start]
              exact List.mem_map_of_mem _ hb
            rw [r2 b.id (fun kc hkc hq => hd1 kc hkc hbid hq)]
            exact p1 b hb
          · exact r1 b hb
        · intro q hq
          rw [r2 q (fun kc hkc => hq kc (List.mem_cons_of_mem _ hkc))]
          exact p2 q (hq c (List.mem_cons_self _ _))

/-- With distinct ids, `place` without the tables gives the nodes of a subtree the `y` of their bands and
leaves the other nodes where they are. -/
theorem placePlain_bands (edges : List Edge) (cm : JsMap (List Str)) (gas : Nat)
    (hcm : ∀ q, (mapGet cm q).getD [] = kids edges q) :
    ∀ (fuel : Nat) (v : Json) (path : Str), Sits edges v path →
      Places (placePlain edges cm gas fuel) v path := by
  intro fuel
  induction fuel with
  | zero => intro v path _ st st' h; simp [placePlain] at h
  | succ fuel ih =>
    intro v path hsits st st' h
    unfold placePlain at h
    cases hd : depthOfPlain edges gas path with
    | none => simp [hd] at h
    | some depth =>
      cases hs : subtreeSizePlain cm gas path with
      | none => simp [hd, hs] at h
      | some size =>
        have hsz := subtreeSizePlain_eq_leaves edges cm hcm gas v path size hsits hs
        subst hsz
        cases hp : setPosition st.nodes path (depth * H_GAP)
            (st.yCursor + (v.leaves * (NODE_HEIGHT + V_GAP) - V_GAP) / 2 - NODE_HEIGHT / 2) with
        | none => simp [hd, hs, hp] at h
        | some nodes1 =>
          simp only [hd, hs, hp, hcm, hsits.kids] at h
          obtain ⟨y1, y2⟩ := yOf_setPosition _ _ _ _ _ hp
          have hnd := hsits.1
          rw [idsOf_eq v, List.nodup_cons, List.nodup_flatMap] at hnd
          obtain ⟨r1, r2⟩ := placeLoopPlain_bands (placePlain edges cm gas fuel) (subtreeSizePlain cm gas) path
            (children v) st.yCursor { st with nodes := nodes1 } st'
            (fun kc hkc => ih kc.2 _ (hsits.child hkc))
            (fun kc hkc s hs' =>
              subtreeSizePlain_eq_leaves edges cm hcm gas kc.2 _ s (hsits.child hkc) hs')
            hnd.2.2 h
          refine ⟨?_, ?_⟩
          · intro b hb
            rw [bandsOf_eq] at hb
            rcases List.mem_cons.1 hb with rfl | hb
            · rw [r2 path (fun kc hkc => idsOf_root_not_mem_child hkc)]
              simp only [y1, Option.some.injEq, NODE_HEIGHT, V_GAP]
              omega
            · exact r1 b hb
          · intro q hq
            rw [idsOf_eq v] at hq
            simp only [List.mem_cons, List.mem_flatMap, not_or, not_exists, not_and] at hq
            rw [r2 q (fun kc hkc => hq.2 kc hkc)]
            exact y2 q hq.1

theorem yOf_of_nodup : ∀ (nodes : List Node) (n : Node), (nodes.map (·.id)).Nodup →
    n ∈ nodes → yOf nodes n.id = some n.y := by
  intro nodes
  induction nodes with
  | nil => intro n _ h; simp at h
  | cons m rest ih =>
    intro n hnd hn
    simp only [List.map_cons, List.nodup_cons] at hnd
    rcases List.mem_cons.1 hn with rfl | hn'
    · simp [yOf, List.find?_cons]
    · have hne : ¬ m.id = n.id := by
        intro h
        exact hnd.1 (h ▸ List.mem_map_of_mem _ hn')
      have := ih n hnd.2 hn'
      unfold yOf at this ⊢
      simpa [List.find?_cons, hne] using this

/-- The positions the layout of a document assigns, with distinct ids: every node gets
the `y` of its band, whose size is the subtree size of the node. -/
theorem layout_bands (json : Json) (k : Nat) (hnd : ((build json).nodes.map (·.id)).Nodup) :
    ∃ flow cm, buildFlowFromJson (fuelFor json + k) json = some flow ∧
      childrenMap (rootedNodes json) (build json).edges = some cm ∧
      flow.edges = edgesOf json ['$'] ∧
      ∀ n ∈ flow.nodes, ∃ b ∈ bandsOf json ['$'] 0, b.id = n.id ∧
        n.y = b.start + 50 * b.size - 50 ∧
        subtreeSizePlain cm (fuelFor json + k) n.id = some b.size := by
  obtain ⟨nodes, hcl, herase, hflow⟩ := buildFlow_some json k
  obtain ⟨cm, hcm1, hcm, hsome⟩ := layout_sizes json k
  have hcm1' := hcm1
  rw [build_edges] at hcm1'
  unfold computeLayoutPlain at hcl
  simp only [hcm1', Option.map_eq_some'] at hcl
  obtain ⟨st', hplace, rfl⟩ := hcl
  have hsits := sits_root json hnd
  have hp := (placePlain_bands _ cm _ hcm _ json ['$'] hsits _ _ hplace).1
  have hids : st'.nodes.map (·.id) = idsOf json ['$'] := by
    rw [map_id_of_erasePos herase, rootedNodes_ids]
  refine ⟨_, cm, hflow, hcm1, rfl, ?_⟩
  intro n hn
  obtain ⟨n0, hn0, rfl⟩ := List.mem_map.1 hn
  have hmem : n0.id ∈ (bandsOf json ['$'] 0).map (·.id) := by
    rw [bandsOf_ids, ← hids]
    exact List.mem_map_of_mem _ hn0
  obtain ⟨b, hb, hbid⟩ := List.mem_map.1 hmem
  have hy := hp b hb
  rw [hbid, yOf_of_nodup st'.nodes n0 (by rw [hids]; exact hsits.1) hn0] at hy
  obtain ⟨s, hs⟩ := Option.isSome_iff_exists.1
    (hsome n0.id (by rw [← hids]; exact List.mem_map_of_mem _ hn0))
  have hsb := bandsOf_size _ cm hcm _ json ['$'] 0 hsits b hb s (by rw [hbid]; exact hs)
  refine ⟨b, hb, hbid, ?_, ?_⟩
  · simpa [withClass] using hy
  · rw [← hsb]; exact hs

/-- C5: for every JSON value whose generated node ids are pairwise distinct,
`buildFlowFromJson` returns (with enough fuel) nodes such that any two of them, neither
of which is reachable from the other along the edges, have disjoint vertical bands,
where the band of a node `n` is the half-open interval of height `subtreeSize(n) * 100`
that starts at `y(n) - (50 * subtreeSize(n) - 50)`. -/
theorem bands_disjoint (json : Json) (k : Nat)
    (hnd : ((build json).nodes.map (·.id)).Nodup) :
    ∃ flow cm, buildFlowFromJson (fuelFor json + k) json = some flow ∧
      childrenMap (rootedNodes json) (build json).edges = some cm ∧
      ∀ a ∈ flow.nodes, ∀ b ∈ flow.nodes,
        ¬ Reaches flow.edges a.id b.id → ¬ Reaches flow.edges b.id a.id →
        ∃ (sa sb : Nat) (ma mb : JsMap Nat),
          subtreeSize cm (fuelFor json + k) a.id [] = some (sa, ma) ∧
          subtreeSize cm (fuelFor json + k) b.id [] = some (sb, mb) ∧
          (a.y - (50 * sa - 50) + sa * 100 ≤ b.y - (50 * sb - 50) ∨
            b.y - (50 * sb - 50) + sb * 100 ≤ a.y - (50 * sa - 50)) := by
  obtain ⟨flow, cm, h1, h2, h3, h4⟩ := layout_bands json k hnd
  refine ⟨flow, cm, h1, h2, ?_⟩
  intro a ha b hb hab hba
  obtain ⟨ba, hba1, hba2, hba3, hba4⟩ := h4 a ha
  obtain ⟨bb, hbb1, hbb2, hbb3, hbb4⟩ := h4 b hb
  obtain ⟨ma, hma⟩ := subtreeSize_fresh cm _ _ _ hba4
  obtain ⟨mb, hmb⟩ := subtreeSize_fresh cm _ _ _ hbb4
  refine ⟨ba.size, bb.size, ma, mb, hma, hmb, ?_⟩
  rw [h3, ← hba2, ← hbb2] at hab hba
  rcases (bandsOf_ok json ['$'] 0).2 ba hba1 bb hbb1 with h | h | h | h
  · exact absurd h hab
  · exact absurd h hba
  · left; rw [hba3, hbb3]; linarith
  · right; rw [hba3, hbb3]; linarith

theorem bands_disjoint_witness :
    ((build (.obj [("user".toList, .obj [("name".toList, .prim (.str "A".toList))]),
        ("items".toList, .arr [.prim .null, .arr []])])).nodes.map (·.id)).Nodup ∧
    ∃ flow cm, buildFlowFromJson
        (fuelFor (.obj [("user".toList, .obj [("name".toList, .prim (.str "A".toList))]),
          ("items".toList, .arr [.prim .null, .arr []])]) + 0)
        (.obj [("user".toList, .obj [("name".toList, .prim (.str "A".toList))]),
          ("items".toList, .arr [.prim .null, .arr []])]) = some flow ∧
      childrenMap
        (rootedNodes (.obj [("user".toList, .obj [("name".toList, .prim (.str "A".toList))]),
          ("items".toList, .arr [.prim .null, .arr []])]))
        (build (.obj [("user".toList, .obj [("name".toList, .prim (.str "A".toList))]),
          ("items".toList, .arr [.prim .null, .arr []])])).edges = some cm ∧
      ∀ a ∈ flow.nodes, ∀ b ∈ flow.nodes,
        ¬ Reaches flow.edges a.id b.id → ¬ Reaches flow.edges b.id a.id →
        ∃ (sa sb : Nat) (ma mb : JsMap Nat),
          subtreeSize cm
            (fuelFor (.obj [("user".toList, .obj [("name".toList, .prim (.str "A".toList))]),
              ("items".toList, .arr [.prim .null, .arr []])]) + 0) a.id [] = some (sa, ma) ∧
          subtreeSize cm
            (fuelFor (.obj [("user".toList, .obj [("name".toList, .prim (.str "A".toList))]),
              ("items".toList, .arr [.prim .null, .arr []])]) + 0) b.id [] = some (sb, mb) ∧
          (a.y - (50 * sa - 50) + sa * 100 ≤ b.y - (50 * sb - 50) ∨
            b.y - (50 * sb - 50) + sb * 100 ≤ a.y - (50 * sa - 50)) :=
  ⟨by decide, bands_disjoint _ 0 (by decide)⟩

/-! ## Injective path serialization (C11) -/

/-- C11: for every JSON value whose objects have pairwise distinct keys none of which
contains `.` or `[`, the node ids `buildFlowFromJson` returns (with enough fuel) are
pairwise different; they are the paths of the positions of the document, and two
positions with the same path are the same position. -/
theorem serialization_injective (json : Json) (k : Nat) (hd : json.distinctKeys = true)
    (hp : json.keysAll plainKey = true) :
    ∃ flow, buildFlowFromJson (fuelFor json + k) json = some flow ∧
      (flow.nodes.map (·.id)).Pairwise (· ≠ ·) ∧
      flow.nodes.map (·.id) = (positions json).map (fun pos => pos.foldl pathOf ['$']) ∧
      ∀ p1 ∈ positions json, ∀ p2 ∈ positions json,
        p1.foldl pathOf ['$'] = p2.foldl pathOf ['$'] → p1 = p2 := by
  obtain ⟨flow, h1, h2, _⟩ := buildFlow_ids json k
  have hnd : (idsOf json ['$']).Nodup := idsOf_nodup json _ hd hp
  refine ⟨flow, h1, by rw [h2]; exact hnd, by rw [h2, idsOf_positions], ?_⟩
  rw [idsOf_positions] at hnd
  exact fun p1 h1 p2 h2 h => List.inj_on_of_nodup_map hnd h1 h2 h

theorem serialization_injective_witness :
    ((Json.arr [.obj [("id".toList, .prim (.num "1".toList)), ("tags".toList, .arr [])],
        .obj [("id".toList, .prim (.num "2".toList))]]).distinctKeys = true ∧
      (Json.arr [.obj [("id".toList, .prim (.num "1".toList)), ("tags".toList, .arr [])],
        .obj [("id".toList, .prim (.num "2".toList))]]).keysAll plainKey = true) ∧
    ∃ flow, buildFlowFromJson
        (fuelFor (.arr [.obj [("id".toList, .prim (.num "1".toList)), ("tags".toList, .arr [])],
          .obj [("id".toList, .prim (.num "2".toList))]]) + 0)
        (.arr [.obj [("id".toList, .prim (.num "1".toList)), ("tags".toList, .arr [])],
          .obj [("id".toList, .prim (.num "2".toList))]]) = some flow ∧
      (flow.nodes.map (·.id)).Pairwise (· ≠ ·) ∧
      flow.nodes.map (·.id) =
        (positions (.arr [.obj [("id".toList, .prim (.num "1".toList)),
            ("tags".toList, .arr [])],
          .obj [("id".toList, .prim (.num "2".toList))]])).map
          (fun pos => pos.foldl pathOf ['$']) ∧
      ∀ p1 ∈ positions (.arr [.obj [("id".toList, .prim (.num "1".toList)),
            ("tags".toList, .arr [])],
          .obj [("id".toList, .prim (.num "2".toList))]]),
        ∀ p2 ∈ positions (.arr [.obj [("id".toList, .prim (.num "1".toList)),
            ("tags".toList, .arr [])],
          .obj [("id".toList, .prim (.num "2".toList))]]),
        p1.foldl pathOf ['$'] = p2.foldl pathOf ['$'] → p1 = p2 :=
  ⟨⟨by decide, by decide⟩, serialization_injective _ 0 (by decide) (by decide)⟩

/-! ## The search always finds a node (C12) -/

theorem find_infix_root (rest : List Str) (r : Str) :
    (['$'] :: rest).find? (fun id => decide (id <:+: '$' :: r)) = some ['$'] := by
  have : ['$'] <:+: '$' :: r := ⟨[], r, by simp⟩
  simp [List.find?_cons, this]

/-- On a list of non-empty ids that starts with `$`, `handleSearch` hands a non-blank
query the normalized query if it is an id, else the first id that contains it, else `$`. -/
theorem handleSearch_root_first (toLowerCase : Str → Str) (rest : List Str) (query : Str)
    (hq : trim query ≠ []) (hne : ∀ id ∈ ['$'] :: rest, id ≠ []) :
    handleSearch toLowerCase (['$'] :: rest) query =
      some (if normalizeQuery query ∈ ['$'] :: rest then normalizeQuery query
        else (((['$'] :: rest).find? fun id => decide (normalizeQuery query <:+: id)).getD
          ['$'])) := by
  unfold handleSearch
  obtain ⟨r, hn⟩ := normalizeQuery_head query
  simp only [hq, List.isEmpty_eq_true, if_false, head_filter_toSet, contains_toSet,
    includes_eq_decide, decide_eq_true_eq]
  generalize normalizeQuery query = n at hn
  subst hn
  rw [find_infix_root]
  by_cases h1 : '$' :: r ∈ ['$'] :: rest
  · simp [h1, falsy]
  · simp only [h1, if_false, falsy, if_true]
    cases h2 : (['$'] :: rest).find? (fun id => decide ('$' :: r <:+: id)) with
    | some a =>
      have ha : a ≠ [] := hne a (List.mem_of_find?_eq_some h2)
      simp [ha]
    | none => simp [falsy]

/-- C12: for every JSON value and every query that is not blank, `handleSearch` on the
node ids `buildFlowFromJson` returns (with enough fuel), in node-list order, never hands
over nothing: the first id the normalized query contains is always `$`, so the result is
the normalized query if it is an id, else the first id that contains it, else `$`,
whatever the lower-casing function is. -/
theorem search_never_none (toLowerCase : Str → Str) (json : Json) (k : Nat) (query : Str)
    (hq : trim query ≠ []) :
    ∃ flow, buildFlowFromJson (fuelFor json + k) json = some flow ∧
      handleSearch toLowerCase (flow.nodes.map (·.id)) query ≠ none ∧
      (flow.nodes.map (·.id)).find? (fun id => decide (id <:+: normalizeQuery query)) =
        some ['$'] ∧
      (normalizeQuery query ∉ flow.nodes.map (·.id) →
        (∀ id ∈ flow.nodes.map (·.id), ¬ normalizeQuery query <:+: id) →
        handleSearch toLowerCase (flow.nodes.map (·.id)) query = some ['$']) ∧
      handleSearch toLowerCase (flow.nodes.map (·.id)) query =
        some (if normalizeQuery query ∈ flow.nodes.map (·.id) then normalizeQuery query
          else (((flow.nodes.map (·.id)).find?
            fun id => decide (normalizeQuery query <:+: id)).getD ['$'])) := by
  obtain ⟨flow, h1, h2, _⟩ := buildFlow_ids json k
  have hids : flow.nodes.map (·.id) = ['$'] :: (idsOf json ['$']).tail := by
    rw [h2, idsOf_cons_tail]
  have hne : ∀ id ∈ ['$'] :: (idsOf json ['$']).tail, id ≠ [] := by
    intro id hid
    rw [idsOf_cons_tail] at hid
    obtain ⟨r, rfl⟩ := idsOf_prefix json _ _ hid
    simp
  have hs := handleSearch_root_first toLowerCase _ query hq hne
  obtain ⟨r, hn⟩ := normalizeQuery_head query
  refine ⟨flow, h1, ?_, ?_, ?_, ?_⟩
  · rw [hids, hs]; simp
  · rw [hids, hn]; exact find_infix_root _ r
  · intro hmem hcont
    rw [hids] at hmem hcont ⊢
    rw [hs, if_neg hmem]
    have : (['$'] :: (idsOf json ['$']).tail).find?
        (fun id => decide (normalizeQuery query <:+: id)) = none := by
      rw [List.find?_eq_none]
      intro id hid
      simpa using hcont id hid
    rw [this]
    rfl
  · rw [hids]; exact hs

theorem search_never_none_witness :
    trim " Users.5.Name ".toList ≠ [] ∧
    ∃ flow, buildFlowFromJson
        (fuelFor (.obj [("users".toList, .arr [.prim (.str "x".toList)])]) + 0)
        (.obj [("users".toList, .arr [.prim (.str "x".toList)])]) = some flow ∧
      handleSearch (List.map Char.toLower) (flow.nodes.map (·.id)) " Users.5.Name ".toList
        ≠ none ∧
      (flow.nodes.map (·.id)).find?
          (fun id => decide (id <:+: normalizeQuery " Users.5.Name ".toList)) = some ['$'] ∧
      (normalizeQuery " Users.5.Name ".toList ∉ flow.nodes.map (·.id) →
        (∀ id ∈ flow.nodes.map (·.id), ¬ normalizeQuery " Users.5.Name ".toList <:+: id) →
        handleSearch (List.map Char.toLower) (flow.nodes.map (·.id)) " Users.5.Name ".toList =
          some ['$']) ∧
      handleSearch (List.map Char.toLower) (flow.nodes.map (·.id)) " Users.5.Name ".toList =
        some (if normalizeQuery " Users.5.Name ".toList ∈ flow.nodes.map (·.id) then
            normalizeQuery " Users.5.Name ".toList
          else (((flow.nodes.map (·.id)).find?
            fun id => decide (normalizeQuery " Users.5.Name ".toList <:+: id)).getD ['$'])) :=
  ⟨by decide, search_never_none _ _ 0 _ (by decide)⟩

/-! ## Normalizing twice (C13) -/

theorem noDoubleDot_cons (c : Char) (rest : Str) :
    noDoubleDot (c :: rest) = (!(c == '.' && rest.head? == some '.') && noDoubleDot rest) := by
  rw [noDoubleDot]

/-- Collapsing the runs of dots leaves no dot followed by a dot. -/
theorem collapseDots_noDoubleDot (s : Str) : noDoubleDot (collapseDots s) = true := by
  induction s with
  | nil => rfl
  | cons c rest ih =>
    rw [collapseDots_cons]
    by_cases hc : c = '.' ∧ rest.head? = some '.'
    · rw [if_pos hc]; exact ih
    · rw [if_neg hc, noDoubleDot_cons, collapseDots_head, ih]
      by_cases h1 : c = '.'
      · have h2 : ¬ rest.head? = some '.' := fun h => hc ⟨h1, h⟩
        simp [h1, h2]
      · simp [h1]

theorem noDoubleDot_prefix (a b : Str) (h : noDoubleDot (a ++ b) = true) :
    noDoubleDot a = true := by
  induction a with
  | nil => rfl
  | cons x a ih =>
    rw [List.cons_append, noDoubleDot_cons] at h
    simp only [Bool.and_eq_true] at h
    rw [noDoubleDot_cons, ih h.2]
    cases a with
    | nil => simp
    | cons y a => simpa using h.1

theorem noDoubleDot_two_dots (a : Str) : noDoubleDot (a ++ ['.', '.']) = false := by
  induction a with
  | nil => rfl
  | cons x a ih => rw [List.cons_append, noDoubleDot_cons, ih]; simp

theorem stripTrailingDot_prefix (s : Str) : ∃ t, stripTrailingDot s ++ t = s := by
  unfold stripTrailingDot
  by_cases h : s.getLast? = some '.'
  · rw [if_pos h]
    have hne : s ≠ [] := by intro h0; rw [h0] at h; simp at h
    exact ⟨[s.getLast hne], List.dropLast_append_getLast hne⟩
  · rw [if_neg h]; exact ⟨[], by simp⟩

/-- After the runs of dots are collapsed and one trailing dot is removed, the text does
not end in a dot. -/
theorem stripTrailingDot_getLast (s : Str) (h : noDoubleDot s = true) :
    (stripTrailingDot s).getLast? ≠ some '.' := by
  unfold stripTrailingDot
  by_cases h1 : s.getLast? = some '.'
  · rw [if_pos h1]
    intro h2
    have hne : s ≠ [] := by intro h0; rw [h0] at h1; simp at h1
    have hne2 : s.dropLast ≠ [] := by intro h0; rw [h0] at h2; simp at h2
    have e1 : s = s.dropLast ++ ['.'] := by
      have := List.dropLast_append_getLast hne
      rw [List.getLast?_eq_getLast _ hne] at h1
      rw [Option.some.inj h1] at this
      exact this.symm
    have e2 : s.dropLast = s.dropLast.dropLast ++ ['.'] := by
      have := List.dropLast_append_getLast hne2
      rw [List.getLast?_eq_getLast _ hne2] at h2
      rw [Option.some.inj h2] at this
      exact this.symm
    rw [e1, e2, List.append_assoc] at h
    have := noDoubleDot_two_dots s.dropLast.dropLast
    simp only [List.singleton_append] at h
    rw [this] at h
    exact Bool.false_ne_true h
  · rw [if_neg h1]; exact h1

theorem bracketDigitsFrom_head (c : Char) (rest : Str) (hc : c ≠ '.') :
    (bracketDigitsFrom false (c :: rest)).head? = some c := by
  rw [bracketDigitsFrom_cons]
  simp [hc]

/-- The last replacement leaves no dot followed by a dot or a digit, when no dot was
followed by a dot before it. -/
theorem bracketDigitsFrom_clean (s : Str) : ∀ st, noDoubleDot s = true →
    clean (bracketDigitsFrom st s) = true := by
  induction s with
  | nil => intro st _; cases st <;> decide
  | cons c rest ih =>
    intro st h
    rw [noDoubleDot_cons] at h
    simp only [Bool.and_eq_true] at h
    have hclose : ∀ t : Str, clean t = true →
        clean ((if st = true then [']'] else []) ++ t) = true := by
      intro t ht
      cases st
      · simpa using ht
      · simp only [if_true, List.singleton_append, clean_cons, ht, Bool.and_true]
        simp
    rw [bracketDigitsFrom_cons]
    by_cases h1 : st = true ∧ isDigit c = true
    · rw [if_pos h1, clean_cons, ih true h.2]
      have : c ≠ '.' := isDigit_ne_dot h1.2
      simp [this]
    · rw [if_neg h1]
      apply hclose
      by_cases h2 : c = '.' ∧ rest.head?.map isDigit = some true
      · rw [if_pos h2, clean_cons, ih true h.2]
        simp
      · rw [if_neg h2, clean_cons, ih false h.2]
        by_cases h3 : c = '.'
        · subst h3
          cases rest with
          | nil => simp [bracketDigitsFrom_false_nil]
          | cons d rest =>
            have hd1 : d ≠ '.' := by
              intro hd; subst hd; simp at h
            have hd2 : isDigit d = false := by
              cases hdd : isDigit d
              · rfl
              · exact absurd ⟨rfl, by simp [hdd]⟩ h2
            rw [bracketDigitsFrom_head d rest hd1]
            simp [hd1, hd2]
        · simp [h3]

theorem getLast?_append_cons (pre : Str) (y : Char) (r : Str) :
    (pre ++ y :: r).getLast? = some (r.getLast?.getD y) := by
  simp [List.getLast?_append, List.getLast?_cons]

theorem bracketDigitsFrom_eq_nil (s : Str) (st : Bool) (h : bracketDigitsFrom st s = []) :
    s = [] ∧ st = false := by
  cases s with
  | nil =>
    cases st
    · exact ⟨rfl, rfl⟩
    · rw [bracketDigitsFrom_true_nil] at h; simp at h
  | cons c rest =>
    rw [bracketDigitsFrom_cons] at h
    by_cases h1 : st = true ∧ isDigit c = true
    · rw [if_pos h1] at h; simp at h
    · rw [if_neg h1] at h
      by_cases h2 : c = '.' ∧ rest.head?.map isDigit = some true
      · rw [if_pos h2] at h; simp at h
      · rw [if_neg h2] at h; simp at h

/-- The text after the last replacement ends in `]` or as it ended before. -/
theorem bracketDigitsFrom_getLast (s : Str) : ∀ (st : Bool) (x : Char),
    (bracketDigitsFrom st s).getLast? = some x → x = ']' ∨ s.getLast? = some x := by
  induction s with
  | nil =>
    intro st x h
    cases st
    · rw [bracketDigitsFrom_false_nil] at h; simp at h
    · rw [bracketDigitsFrom_true_nil] at h
      left
      simpa using h.symm
  | cons c rest ih =>
    intro st x h
    have hstep : ∀ (pre : Str) (y : Char) (st' : Bool), (rest = [] → y = c) →
        (pre ++ y :: bracketDigitsFrom st' rest).getLast? = some x →
          x = ']' ∨ (c :: rest).getLast? = some x := by
      intro pre y st' hy hl
      rw [getLast?_append_cons] at hl
      cases hb : (bracketDigitsFrom st' rest).getLast? with
      | none =>
        have hnil := List.getLast?_eq_none_iff.1 hb
        have hr := (bracketDigitsFrom_eq_nil rest st' hnil).1
        rw [hb] at hl
        simp only [Option.getD_none, Option.some.injEq] at hl
        right
        rw [hr, ← hl, hy hr]
        rfl
      | some z =>
        rw [hb] at hl
        simp only [Option.getD_some, Option.some.injEq] at hl
        subst hl
        rcases ih st' z hb with h1 | h1
        · exact Or.inl h1
        · right
          rw [List.getLast?_cons, h1]
          rfl
    rw [bracketDigitsFrom_cons] at h
    by_cases h1 : st = true ∧ isDigit c = true
    · rw [if_pos h1] at h
      exact hstep [] c true (fun _ => rfl) h
    · rw [if_neg h1] at h
      by_cases h2 : c = '.' ∧ rest.head?.map isDigit = some true
      · rw [if_pos h2] at h
        have hr : rest ≠ [] := by
          intro h0; rw [h0] at h2; simp at h2
        exact hstep _ '[' true (fun h0 => absurd h0 hr) h
      · rw [if_neg h2] at h
        exact hstep _ c false (fun _ => rfl) h

theorem clean_prefix (a b : Str) (h : clean (a ++ b) = true) : clean a = true := by
  induction a with
  | nil => rfl
  | cons x a ih =>
    rw [List.cons_append, clean_cons] at h
    simp only [Bool.and_eq_true] at h
    rw [clean_cons, ih h.2]
    cases a with
    | nil => simp
    | cons y a => simpa using h.1

/-- The normalized query has no dot followed by a dot or a digit. -/
theorem normalizeQuery_clean (q : Str) : clean (normalizeQuery q) = true := by
  unfold normalizeQuery bracketDigits
  apply bracketDigitsFrom_clean
  obtain ⟨t, ht⟩ := stripTrailingDot_prefix (collapseDots (withRoot (trim q)))
  apply noDoubleDot_prefix _ t
  rw [ht]
  exact collapseDots_noDoubleDot _

/-- The normalized query does not end in a dot. -/
theorem normalizeQuery_getLast (q : Str) : (normalizeQuery q).getLast? ≠ some '.' := by
  intro h
  unfold normalizeQuery bracketDigits at h
  rcases bracketDigitsFrom_getLast _ false '.' h with h1 | h1
  · exact absurd h1 (by decide)
  · exact stripTrailingDot_getLast _ (collapseDots_noDoubleDot _) h1

/-- C13 as stated fails: the query `a .` normalizes to `$.a ` (with a trailing blank),
which normalizes to `$.a`. -/
theorem idempotence_counterexample :
    trim "a .".toList ≠ [] ∧
    normalizeQuery "a .".toList = "$.a ".toList ∧
    normalizeQuery (normalizeQuery "a .".toList) = "$.a".toList ∧
    normalizeQuery (normalizeQuery "a .".toList) ≠ normalizeQuery "a .".toList := by
  refine ⟨?_, ?_, ?_, ?_⟩ <;> decide

/-- The normalization leaves the normalized form of a query alone exactly when that form
does not end in a white-space character. -/
theorem normalize_fixed_iff (q : Str) :
    normalizeQuery (normalizeQuery q) = normalizeQuery q ↔
      ∀ c, (normalizeQuery q).getLast? = some c → isWhiteSpace c = false := by
  obtain ⟨r, hn⟩ := normalizeQuery_head q
  have hclean := normalizeQuery_clean q
  have hdot := normalizeQuery_getLast q
  constructor
  · intro hfix c hc
    cases hws : isWhiteSpace c
    · rfl
    · exfalso
      generalize normalizeQuery q = n at hn hclean hdot hfix hc
      have hne : n ≠ [] := by rw [hn]; simp
      have hsplit : n = n.dropLast ++ [c] := by
        have := List.dropLast_append_getLast hne
        rw [List.getLast?_eq_getLast _ hne] at hc
        rw [Option.some.inj hc] at this
        exact this.symm
      have htrim : trim n = n.dropLast.rdropWhile isWhiteSpace := by
        rw [trim_eq, hn, List.dropWhile_cons]
        have : isWhiteSpace '$' = false := by decide
        simp only [this, Bool.false_eq_true, if_false]
        rw [← hn]
        conv_lhs => rw [hsplit]
        exact List.rdropWhile_concat_pos _ _ _ hws
      obtain ⟨t1, ht1⟩ := List.rdropWhile_prefix isWhiteSpace n.dropLast
      have hhead : (trim n).head? = some '$' := by
        rw [trim_eq, hn, List.dropWhile_cons]
        have : isWhiteSpace '$' = false := by decide
        simp only [this, Bool.false_eq_true, if_false]
        have := rdropWhile_append_of_last (p := isWhiteSpace) [] '$' r this
        simp only [List.nil_append] at this
        rw [this]
        rfl
      have hc1 : clean (trim n) = true := by
        apply clean_prefix _ (t1 ++ [c])
        rw [htrim, ← List.append_assoc, ht1, ← hsplit]
        exact hclean
      obtain ⟨t2, ht2⟩ := stripTrailingDot_prefix (trim n)
      have hc2 : clean (stripTrailingDot (trim n)) = true := by
        apply clean_prefix _ t2
        rw [ht2]; exact hc1
      have hval : normalizeQuery n = stripTrailingDot (trim n) := by
        unfold normalizeQuery withRoot bracketDigits
        rw [if_pos hhead, collapseDots_of_clean _ hc1, bracketDigitsFrom_of_clean _ hc2]
      have hlen : (normalizeQuery n).length < n.length := by
        rw [hval]
        have l1 : (stripTrailingDot (trim n)).length ≤ (trim n).length := by
          have := congrArg List.length ht2
          simp only [List.length_append] at this
          omega
        have l2 : (trim n).length ≤ n.dropLast.length := by
          rw [htrim]
          have := congrArg List.length ht1
          simp only [List.length_append] at this
          omega
        have l3 : n.dropLast.length < n.length := by
          rw [List.length_dropLast]
          have := List.length_pos.2 hne
          omega
        omega
      rw [hfix] at hlen
      exact Nat.lt_irrefl _ hlen
  · intro hws
    apply normalizeQuery_of_canonical
    unfold canonical endsWell
    simp only [Bool.and_eq_true, beq_iff_eq]
    refine ⟨⟨by rw [hn]; rfl, hclean⟩, ?_⟩
    cases hl : (normalizeQuery q).getLast? with
    | none => rfl
    | some c =>
      have h1 : c ≠ '.' := by
        intro hc; subst hc; exact hdot hl
      simp [hws c hl, h1]

theorem endsInBlankDots_cons (c : Char) (rest : Str) :
    endsInBlankDots (c :: rest) =
      ((isWhiteSpace c && !rest.isEmpty && rest.all (· == '.')) || endsInBlankDots rest) := by
  rw [endsInBlankDots]

theorem endsInBlankDots_iff (s : Str) :
    endsInBlankDots s = true ↔
      ∃ x w ds, s = x ++ w :: ds ∧ isWhiteSpace w = true ∧ ds ≠ [] ∧ ∀ c ∈ ds, c = '.' := by
  induction s with
  | nil => simp [endsInBlankDots]
  | cons c rest ih =>
    rw [endsInBlankDots_cons]
    constructor
    · intro h
      simp only [Bool.or_eq_true, Bool.and_eq_true, Bool.not_eq_eq_eq_not, Bool.not_true,
        List.isEmpty_eq_false, List.all_eq_true, beq_iff_eq] at h
      rcases h with h | h
      · exact ⟨[], c, rest, rfl, h.1.1, h.1.2, h.2⟩
      · obtain ⟨x, w, ds, h1, h2, h3, h4⟩ := ih.1 h
        exact ⟨c :: x, w, ds, by rw [h1]; rfl, h2, h3, h4⟩
    · rintro ⟨x, w, ds, h1, h2, h3, h4⟩
      simp only [Bool.or_eq_true, Bool.and_eq_true, Bool.not_eq_eq_eq_not, Bool.not_true,
        List.isEmpty_eq_false, List.all_eq_true, beq_iff_eq]
      cases x with
      | nil =>
        simp only [List.nil_append, List.cons.injEq] at h1
        obtain ⟨rfl, rfl⟩ := h1
        exact Or.inl ⟨⟨h2, h3⟩, h4⟩
      | cons y x =>
        simp only [List.cons_append, List.cons.injEq] at h1
        exact Or.inr (ih.2 ⟨x, w, ds, h1.2, h2, h3, h4⟩)

theorem collapseDots_getLast (s : Str) : (collapseDots s).getLast? = s.getLast? := by
  induction s with
  | nil => rfl
  | cons c rest ih =>
    rw [collapseDots_cons]
    by_cases hc : c = '.' ∧ rest.head? = some '.'
    · rw [if_pos hc, ih]
      cases rest with
      | nil => simp at hc
      | cons d rest => simp [List.getLast?_cons_cons]
    · rw [if_neg hc, List.getLast?_cons, ih, List.getLast?_cons]

theorem collapseDots_dots (ds : Str) (hne : ds ≠ []) (h : ∀ c ∈ ds, c = '.') :
    collapseDots ds = ['.'] := by
  induction ds with
  | nil => exact absurd rfl hne
  | cons c rest ih =>
    have hc : c = '.' := h c (List.mem_cons_self _ _)
    subst hc
    rw [collapseDots_cons]
    cases rest with
    | nil => simp [collapseDots]
    | cons d rest =>
      have hd : d = '.' := h d (by simp)
      subst hd
      simp only [List.head?_cons, and_self, if_true]
      exact ih (by simp) (fun c hc => h c (List.mem_cons_of_mem _ hc))

/-- Every text is a text that does not end in a dot followed by dots. -/
theorem trailing_dots (s : Str) :
    ∃ y ds, s = y ++ ds ∧ y.getLast? ≠ some '.' ∧ ∀ c ∈ ds, c = '.' := by
  induction s using List.reverseRecOn with
  | nil => exact ⟨[], [], rfl, by simp, by simp⟩
  | append_singleton l a ih =>
    by_cases ha : a = '.'
    · obtain ⟨y, ds, h1, h2, h3⟩ := ih
      refine ⟨y, ds ++ [a], by rw [h1, List.append_assoc], h2, ?_⟩
      intro c hc
      rcases List.mem_append.1 hc with hc | hc
      · exact h3 c hc
      · simpa [ha] using hc
    · refine ⟨l ++ [a], [], by simp, ?_, by simp⟩
      rw [getLast?_snoc]
      simpa using ha

theorem eq_snoc_of_getLast {s : Str} {c : Char} (h : s.getLast? = some c) :
    s = s.dropLast ++ [c] := by
  have hne : s ≠ [] := by intro h0; rw [h0] at h; simp at h
  have := List.dropLast_append_getLast hne
  rw [List.getLast?_eq_getLast _ hne] at h
  rw [Option.some.inj h] at this
  exact this.symm

/-- After collapsing dots and removing one trailing dot, a text that did not end in white
space ends in white space exactly when it ended in white space followed by dots. -/
theorem strip_collapse_blank (w : Str)
    (hw : ∀ c, w.getLast? = some c → isWhiteSpace c = false) :
    (∃ c, (stripTrailingDot (collapseDots w)).getLast? = some c ∧ isWhiteSpace c = true) ↔
      endsInBlankDots w = true := by
  rw [endsInBlankDots_iff]
  obtain ⟨y, ds, hy, hylast, hds⟩ := trailing_dots w
  have hcol : collapseDots w = collapseDots y ++ collapseDots ds := by
    rw [hy, collapseDots_append _ _ hylast]
  have hcy : (collapseDots y).getLast? ≠ some '.' := by rw [collapseDots_getLast]; exact hylast
  constructor
  · rintro ⟨c, hc, hws⟩
    by_cases hne : ds = []
    · exfalso
      subst hne
      rw [List.append_nil] at hy
      subst hy
      unfold stripTrailingDot at hc
      rw [if_neg (by rw [collapseDots_getLast]; exact hylast), collapseDots_getLast] at hc
      rw [hw c hc] at hws
      exact Bool.false_ne_true hws
    · rw [hcol, collapseDots_dots ds hne hds] at hc
      unfold stripTrailingDot at hc
      rw [if_pos (getLast?_snoc _ _), List.dropLast_concat, collapseDots_getLast] at hc
      refine ⟨y.dropLast, c, ds, ?_, hws, hne, hds⟩
      rw [hy]
      conv_lhs => rw [eq_snoc_of_getLast hc]
      simp
  · rintro ⟨x, c, ds', h1, hws, hne, hds'⟩
    have hcdot : c ≠ '.' := by
      intro h; subst h; revert hws; decide
    have hcol2 : collapseDots w = collapseDots (x ++ [c]) ++ ['.'] := by
      have : w = (x ++ [c]) ++ ds' := by rw [h1]; simp
      rw [this, collapseDots_append _ _ (by rw [getLast?_snoc]; simpa using hcdot),
        collapseDots_dots ds' hne hds']
    refine ⟨c, ?_, hws⟩
    unfold stripTrailingDot
    rw [hcol2, if_pos (getLast?_snoc _ _), List.dropLast_concat, collapseDots_getLast,
      getLast?_snoc]

theorem trim_getLast (q : Str) : ∀ c, (trim q).getLast? = some c → isWhiteSpace c = false := by
  intro c hc
  rw [trim_eq] at hc
  generalize q.dropWhile isWhiteSpace = l at hc
  have hne : l.rdropWhile isWhiteSpace ≠ [] := by intro h0; rw [h0] at hc; simp at hc
  have hlast := List.rdropWhile_last_not (p := isWhiteSpace) (l := l) hne
  rw [List.getLast?_eq_getLast _ hne] at hc
  rw [Option.some.inj hc] at hlast
  simpa using hlast

theorem withRoot_blank (t : Str) : endsInBlankDots (withRoot t) = endsInBlankDots t := by
  unfold withRoot
  by_cases h : t.head? = some '$'
  · rw [if_pos h]
  · rw [if_neg h, endsInBlankDots_cons, endsInBlankDots_cons]
    have h1 : isWhiteSpace '$' = false := by decide
    have h2 : isWhiteSpace '.' = false := by decide
    simp [h1, h2]

theorem withRoot_getLast_ws (t : Str)
    (ht : ∀ c, t.getLast? = some c → isWhiteSpace c = false) :
    ∀ c, (withRoot t).getLast? = some c → isWhiteSpace c = false := by
  intro c hc
  cases t with
  | nil =>
    have : withRoot [] = ['$', '.'] := rfl
    rw [this] at hc
    simp only [List.getLast?_cons_cons, List.getLast?_singleton, Option.some.injEq] at hc
    subst hc
    decide
  | cons x t =>
    rw [withRoot_getLast _ (by simp)] at hc
    exact ht c hc

/-- The normalized form of a query ends in white space exactly when the trimmed query
ends in white space followed by one or more dots. -/
theorem normalizeQuery_blank (q : Str) :
    (∃ c, (normalizeQuery q).getLast? = some c ∧ isWhiteSpace c = true) ↔
      endsInBlankDots (trim q) = true := by
  rw [← withRoot_blank, ← strip_collapse_blank _ (withRoot_getLast_ws _ (trim_getLast q))]
  unfold normalizeQuery bracketDigits
  generalize stripTrailingDot (collapseDots (withRoot (trim q))) = s
  constructor
  · rintro ⟨c, hc, hws⟩
    rcases bracketDigitsFrom_getLast s false c hc with h | h
    · subst h; exact absurd hws (by decide)
    · exact ⟨c, h, hws⟩
  · rintro ⟨c, hc, hws⟩
    refine ⟨c, ?_, hws⟩
    have hdig : isDigit c = false := by
      cases hd : isDigit c
      · rfl
      · rw [isDigit_not_ws hd] at hws; exact absurd hws (by decide)
    have hcdot : c ≠ '.' := by
      intro h; subst h; revert hws; decide
    rw [eq_snoc_of_getLast hc, bracketDigitsFrom_append _ c [] hdig, bracketDigitsFrom_cons,
      bracketDigitsFrom_false_nil]
    simp [hcdot]

/-- C13, amended: for every query, the normalization of `handleSearch` applied to the
normalized form of the query returns that normalized form unchanged exactly when the
normalized form does not end in a white-space character, which is exactly when the
trimmed query does not end in a white-space character followed by one or more dots. -/
theorem normalize_twice_iff (q : Str) :
    (normalizeQuery (normalizeQuery q) = normalizeQuery q ↔
      ∀ c, (normalizeQuery q).getLast? = some c → isWhiteSpace c = false) ∧
    (normalizeQuery (normalizeQuery q) = normalizeQuery q ↔
      endsInBlankDots (trim q) = false) := by
  have h1 := normalize_fixed_iff q
  refine ⟨h1, h1.trans ?_⟩
  have h2 := normalizeQuery_blank q
  constructor
  · intro h
    cases hb : endsInBlankDots (trim q)
    · rfl
    · obtain ⟨c, hc, hws⟩ := h2.2 hb
      rw [h c hc] at hws
      exact absurd hws (by decide)
  · intro h c hc
    cases hws : isWhiteSpace c
    · rfl
    · rw [h2.1 ⟨c, hc, hws⟩] at h
      exact absurd h (by decide)

end JsonTree
